import Mathlib

/-!
# ID3 decision-tree induction (`id3.cpp`): embedding and verified properties

The development embeds the tree-induction core of `id3.cpp`
(`calculateEntropy`, `calculateInformationGain`, `selectBestAttribute`,
`buildTree`, `evaluateTree`) and the line loop of its loader (`trim`, `split`,
`readARFF`), and proves properties of them.

Modelling conventions.

* `std::string` is `String`; `operator<` on `std::string` is the lexicographic
  order on `String` (byte order of UTF-8 text coincides with code-point order).
* `vector<string>` / `vector<vector<string>>` are lists.  An unchecked access
  `row[i]` with an `int` index is `rowAt`, returning `none` when the index is
  not a position of the row; every function that performs such accesses
  returns an `Option`, with `none` for an execution that leaves defined
  behaviour (out-of-range access, `data[0]` on an empty vector, a throwing
  `stoi`).
* `std::map<string, V>` is its in-order list of entries; `operator[]` followed
  by a write is `mapUpdate`, `find` is `mapFind`.
* `int` is `Int` (indices) and `Nat` (counters); counters stay far below
  `2^31` for any data set that fits in memory, so no wrap-around is modelled.
* `double` arithmetic is exact arithmetic over `ℝ` (`log2` is `Real.logb 2`),
  and over `ℚ` for the accuracy quotient, where only a division occurs.
* The recursion of `buildTree` is driven by a fuel argument bounding the
  recursion depth; running out of fuel is `none`.
* `size_t` positions in the loader are natural numbers, with differences
  taken modulo `2 ^ 64`; the file is the list of its lines.
-/

namespace ID3

/-! ## Data model -/

/-- One data row: the attribute values, positionally. -/
abbrev Row := List String

/-- The data set, `vector<vector<string>>`. -/
abbrev Data := List Row

/-- Unchecked element access `row[i]` with an `int` index. -/
def rowAt (row : Row) (i : Int) : Option String :=
  if 0 ≤ i then row[i.toNat]? else none

/-- Node of the decision tree (`struct TreeNode`): `attr` is the field
`attribute` (the split index in decimal, empty for a leaf), `decision` the
class label of a leaf, `children` the entries of the `map<string, TreeNode*>`
in key order. -/
inductive TreeNode where
  | mk (attr : String) (decision : String) (children : List (String × TreeNode))

namespace TreeNode

/-- Field `attribute` of the node. -/
def attr : TreeNode → String
  | mk a _ _ => a

/-- Field `decision` of the node. -/
def decision : TreeNode → String
  | mk _ d _ => d

/-- Field `children` of the node. -/
def children : TreeNode → List (String × TreeNode)
  | mk _ _ cs => cs

end TreeNode

/-! ## `std::map` with `std::string` keys -/

/-- The statement `m[k] = f (m[k])`: the entry of `k` is created when absent
(`f none`), updated otherwise; the entries stay in increasing key order. -/
def mapUpdate {V : Type} (f : Option V → V) (k : String) :
    List (String × V) → List (String × V)
  | [] => [(k, f none)]
  | (k', v) :: rest =>
    if k < k' then (k, f none) :: (k', v) :: rest
    else if k' < k then (k', v) :: mapUpdate f k rest
    else (k', f (some v)) :: rest

/-- The lookup `m.find(k)`. -/
def mapFind {V : Type} (k : String) : List (String × V) → Option V
  | [] => none
  | (k', v) :: rest => if k' = k then some v else mapFind k rest

/-! ## `std::to_string` and `std::stoi` -/

/-- Decimal digits of a natural number, most significant first (the first
argument bounds the number of digits). -/
def natDigits : Nat → Nat → List Char
  | 0, _ => []
  | fuel + 1, n =>
    if n < 10 then [Char.ofNat (48 + n)]
    else natDigits fuel (n / 10) ++ [Char.ofNat (48 + n % 10)]

/-- The conversion `std::to_string(int)`. -/
def to_string (n : Int) : String :=
  if n < 0 then String.mk ('-' :: natDigits (n.natAbs + 1) n.natAbs)
  else String.mk (natDigits (n.natAbs + 1) n.natAbs)

/-- The predicate `isspace` of the C locale. -/
def isSpace (c : Char) : Bool :=
  c = ' ' || c = '\t' || c = '\n' || c = '\x0b' || c = '\x0c' || c = '\r'

/-- Value of a run of decimal digits. -/
def digitsValue (ds : List Char) : Nat :=
  ds.foldl (fun acc c => 10 * acc + (c.toNat - 48)) 0

/-- The conversion `std::stoi(s)`: leading white space is skipped, an optional
sign is read, then the longest run of decimal digits; `none` when there is no
digit (the call throws `invalid_argument`). -/
def stoi (s : String) : Option Int :=
  let cs := s.data.dropWhile isSpace
  let signed : Bool × List Char :=
    match cs with
    | [] => (false, [])
    | c :: r => if c = '-' then (true, r) else if c = '+' then (false, r) else (false, c :: r)
  let ds := signed.2.takeWhile Char.isDigit
  if ds = [] then none
  else if signed.1 then some (-(digitsValue ds : Int)) else some (digitsValue ds : Int)

/-! ## Entropy and information gain -/

/-- The counting loop `classCounts[row[classIndex]]++` over all rows
(`calculateEntropy`, and again in `buildTree`). -/
def classCounts (data : Data) (classIndex : Int) : Option (List (String × Nat)) :=
  data.foldlM
    (fun counts row =>
      (rowAt row classIndex).map fun c => mapUpdate (fun o => o.getD 0 + 1) c counts)
    []

/-- The grouping loop `splits[row[attributeIndex]].push_back(row)` over all
rows (`calculateInformationGain`, and again in `buildTree`). -/
def splitRows (data : Data) (attributeIndex : Int) : Option (List (String × Data)) :=
  data.foldlM
    (fun splits row =>
      (rowAt row attributeIndex).map fun v => mapUpdate (fun o => o.getD [] ++ [row]) v splits)
    []

/-- Shannon entropy of the class labels of `data`. -/
noncomputable def calculateEntropy (data : Data) (classIndex : Int) : Option ℝ :=
  (classCounts data classIndex).map fun counts =>
    counts.foldl
      (fun entropy count =>
        entropy - ((count.2 : ℝ) / (data.length : ℝ)) *
          Real.logb 2 ((count.2 : ℝ) / (data.length : ℝ)))
      0

/-- Information gain of splitting `data` on `attributeIndex`. -/
noncomputable def calculateInformationGain (data : Data) (attributeIndex classIndex : Int) :
    Option ℝ :=
  (calculateEntropy data classIndex).bind fun entropyBefore =>
  (splitRows data attributeIndex).bind fun splits =>
  (splits.foldlM
    (fun entropyAfter split =>
      (calculateEntropy split.2 classIndex).map fun e =>
        entropyAfter + ((split.2.length : ℝ) / (data.length : ℝ)) * e)
    (0 : ℝ)).map fun entropyAfter =>
  entropyBefore - entropyAfter

/-! ## Attribute selection -/

/-- One iteration of the loop of `selectBestAttribute`; the state is
`(bestAttributeIndex, maxInformationGain)`. -/
noncomputable def selectStep (data : Data) (classIndex : Int) (state : Int × ℝ)
    (attrIndex : Int) : Option (Int × ℝ) :=
  (calculateInformationGain data attrIndex classIndex).map fun informationGain =>
    if informationGain > state.2 then (attrIndex, informationGain) else state

/-- The candidate attribute with the largest information gain. -/
noncomputable def selectBestAttribute (data : Data) (attributeIndices : List Int)
    (classIndex : Int) : Option Int :=
  (attributeIndices.foldlM (selectStep data classIndex) ((-1 : Int), (-1 : ℝ))).map Prod.fst

/-! ## Tree construction -/

/-- The loop of `buildTree` comparing every row's class with `firstClass`,
leaving at the first difference. -/
def allSameClass : Data → Int → String → Option Bool
  | [], _, _ => some true
  | row :: rest, classIndex, firstClass =>
    (rowAt row classIndex).bind fun c =>
      if c ≠ firstClass then some false else allSameClass rest classIndex firstClass

/-- The scan of the class counts for the majority class; the state is
`(majorityClass, maxCount)`. -/
def majorityClass (counts : List (String × Nat)) : String :=
  (counts.foldl
    (fun (state : String × Nat) count =>
      if count.2 > state.2 then (count.1, count.2) else state)
    ("", 0)).1

/-- The recursive construction of the ID3 tree; the first argument bounds the
recursion depth. -/
noncomputable def buildTree : Nat → Data → List Int → Int → Option TreeNode
  | 0, _, _, _ => none
  | fuel + 1, data, attributeIndices, classIndex =>
    (data[0]?).bind fun row0 =>
    (rowAt row0 classIndex).bind fun firstClass =>
    (allSameClass data classIndex firstClass).bind fun same =>
    if same then some (TreeNode.mk "" firstClass [])
    else if attributeIndices.isEmpty then
      (classCounts data classIndex).map fun counts =>
        TreeNode.mk "" (majorityClass counts) []
    else
      (selectBestAttribute data attributeIndices classIndex).bind fun bestAttributeIndex =>
      (splitRows data bestAttributeIndex).bind fun splits =>
      (splits.foldlM
        (fun children split =>
          (buildTree fuel split.2
              (attributeIndices.filter fun a => a ≠ bestAttributeIndex) classIndex).map
            fun child => mapUpdate (fun _ => child) split.1 children)
        []).map fun children =>
      TreeNode.mk (to_string bestAttributeIndex) "" children

/-! ## Evaluation -/

mutual
/-- The descent loop of `evaluateTree` for one row: the node at which the
loop stops. -/
def descend : TreeNode → Row → Option TreeNode
  | TreeNode.mk a d cs, inst =>
    if a = "" then some (TreeNode.mk a d cs)
    else
      (stoi a).bind fun idx =>
      (rowAt inst idx).bind fun attrValue =>
        match descendChild cs attrValue inst with
        | some r => r
        | none => some (TreeNode.mk a d cs)
/-- The lookup `children.find(attrValue)` followed by the descent into the
child found; `none` when the key is absent. -/
def descendChild : List (String × TreeNode) → String → Row → Option (Option TreeNode)
  | [], _, _ => none
  | (k, child) :: rest, attrValue, inst =>
    if k = attrValue then some (descend child inst) else descendChild rest attrValue inst
end

/-- The counting loop of `evaluateTree`: the number of rows whose terminal
node carries the row's class label. -/
def countCorrect (node : TreeNode) (data : Data) (classIndex : Int) : Option Nat :=
  data.foldlM
    (fun correct inst =>
      (descend node inst).bind fun current =>
      (rowAt inst classIndex).map fun actual =>
        if current.decision = actual then correct + 1 else correct)
    0

/-- Accuracy of the tree on `data`; `none` also stands for the quotient
`0.0 / 0` of an empty data set, which is not a number. -/
def evaluateTree (node : TreeNode) (data : Data) (classIndex : Int) : Option ℚ :=
  (countCorrect node data classIndex).bind fun correct =>
    if data.length = 0 then none else some ((correct : ℚ) / (data.length : ℚ))

/-! ## Auxiliary notions used in the statements -/

/-- Index `i` is a position of every row of `data`. -/
def InRange (data : Data) (i : Int) : Prop :=
  ∀ row ∈ data, 0 ≤ i ∧ i < (row.length : Int)

instance (data : Data) (i : Int) : Decidable (InRange data i) := by
  unfold InRange; infer_instance

/-- The value of `row` at position `i` (the empty string off the row). -/
def valueAt (i : Int) (row : Row) : String := (rowAt row i).getD ""

/-- The entries of a map are in strictly increasing key order. -/
def KeysSorted {V : Type} (m : List (String × V)) : Prop :=
  m.Pairwise fun a b => a.1 < b.1

/-- Number of rows of `data` whose value at position `i` is `k`. -/
def valueCount (data : Data) (i : Int) (k : String) : Nat :=
  data.countP fun row => valueAt i row = k

/-- The rows of `data` whose value at position `i` is `v`, in their order. -/
def rowsWith (data : Data) (i : Int) (v : String) : Data :=
  data.filter fun row => valueAt i row = v

/-- The distinct values occurring at position `i` in `data`, in increasing
order. -/
def sortedValues (data : Data) (i : Int) : List String :=
  (data.map (valueAt i)).toFinset.sort (· ≤ ·)

/-- The set of values occurring at position `i` in `data`. -/
def valueSet (data : Data) (i : Int) : Finset String :=
  (data.map (valueAt i)).toFinset

/-- Closed form of the entropy of the labels at position `i`: the sum of
`-p * log2 p` over the labels that occur, `p` being the label's frequency. -/
noncomputable def entropySum (data : Data) (i : Int) : ℝ :=
  ∑ k ∈ valueSet data i,
    Real.negMulLog ((valueCount data i k : ℝ) / (data.length : ℝ)) / Real.log 2

/-- Closed form of the information gain: the entropy of the labels minus the
size-weighted entropies of the groups of rows sharing a value at position
`a`. -/
noncomputable def gainSum (data : Data) (a c : Int) : ℝ :=
  entropySum data c -
    ∑ v ∈ valueSet data a,
      ((rowsWith data a v).length : ℝ) / (data.length : ℝ) * entropySum (rowsWith data a v) c

/-- The loop body of `selectBestAttribute` for a gain that is known to be
the number `g a`. -/
noncomputable def selectPure (g : Int → ℝ) (state : Int × ℝ) (a : Int) : Int × ℝ :=
  if g a > state.2 then (a, g a) else state

/-! ## Notions about trees used in the statements -/

mutual
/-- Height of a tree: the largest number of nodes with a split attribute on
a path from the root down. -/
def height : TreeNode → Nat
  | TreeNode.mk a _ cs => if a = "" then 0 else 1 + heightChildren cs
/-- Largest height among the children. -/
def heightChildren : List (String × TreeNode) → Nat
  | [] => 0
  | (_, child) :: rest => max (height child) (heightChildren rest)
end

mutual
/-- Every split attribute stored in the tree is the decimal form of a
position of every row of `data`. -/
def treeInRange : TreeNode → Data → Bool
  | TreeNode.mk a _ cs, data =>
    (a = "" || match stoi a with
      | some i => decide (InRange data i)
      | none => false) && childrenInRange cs data
/-- The condition `treeInRange` for every child. -/
def childrenInRange : List (String × TreeNode) → Data → Bool
  | [], _ => true
  | (_, child) :: rest, data => treeInRange child data && childrenInRange rest data
end

/-- The terminal node of a row, in the words of the specification: descend
from the node through the child keyed by the row's value at the node's split
attribute, until a leaf or a missing key. -/
inductive Terminal : TreeNode → Row → TreeNode → Prop
  | leaf (d : String) (cs : List (String × TreeNode)) (row : Row) :
      Terminal (TreeNode.mk "" d cs) row (TreeNode.mk "" d cs)
  | missing (a d : String) (cs : List (String × TreeNode)) (row : Row) (i : Int) (v : String) :
      a ≠ "" → stoi a = some i → rowAt row i = some v → mapFind v cs = none →
      Terminal (TreeNode.mk a d cs) row (TreeNode.mk a d cs)
  | child (a d : String) (cs : List (String × TreeNode)) (row : Row) (i : Int) (v : String)
      (c t : TreeNode) :
      a ≠ "" → stoi a = some i → rowAt row i = some v → mapFind v cs = some c →
      Terminal c row t → Terminal (TreeNode.mk a d cs) row t

/-- The node reached from `t` by following the children keyed by `path`;
`none` when a key is absent or a leaf is passed. -/
def nodeAt : TreeNode → List String → Option TreeNode
  | t, [] => some t
  | TreeNode.mk a _ cs, v :: path =>
    if a = "" then none else (mapFind v cs).bind fun child => nodeAt child path

/-- The rows of `data` routed along `path` from `t`: at each node the rows
whose value at the node's split attribute is the next key. -/
def routed : TreeNode → List String → Data → Data
  | _, [], data => data
  | TreeNode.mk a _ cs, v :: path, data =>
    match stoi a, mapFind v cs with
    | some i, some child => routed child path (data.filter fun row => rowAt row i = some v)
    | _, _ => []

/-! ## The loader `readARFF` -/

/-- An attribute declaration (`struct Attribute`): its name and its possible
values. -/
structure Attribute where
  /-- Field `name`. -/
  name : String
  /-- Field `values`. -/
  values : List String

/-- The characters removed by `trim`: blank, tab, carriage return, line
feed. -/
def isTrimSpace (c : Char) : Bool :=
  c = ' ' || c = '\t' || c = '\r' || c = '\n'

/-- The function `trim`: the text between the first and the last character
that is not white space; empty when there is none. -/
def trim (str : String) : String :=
  String.mk ((str.data.dropWhile isTrimSpace).reverse.dropWhile isTrimSpace).reverse

/-- The `getline` loop of `split`: `token` holds the characters of the current
token in reverse; a token is pushed at each delimiter, and at the end of the
text when at least one character was read. -/
def splitLoop (delimiter : Char) : List Char → List Char → List String
  | [], token => if token = [] then [] else [trim (String.mk token.reverse)]
  | ch :: rest, token =>
    if ch = delimiter then trim (String.mk token.reverse) :: splitLoop delimiter rest []
    else splitLoop delimiter rest (ch :: token)

/-- The function `split`: the trimmed tokens of `s` between delimiters. -/
def split (s : String) (delimiter : Char) : List String :=
  splitLoop delimiter s.data []

/-- The constant `string::npos`, the largest `size_t`. -/
def npos : Nat := 2 ^ 64 - 1

/-- The call `line.find(c)` for a character: the first position of `c`, or
`npos`. -/
def findChar (line : String) (c : Char) : Nat :=
  if c ∈ line.data then line.data.indexOf c else npos

/-- The call `line.substr(pos, count)` for a position within the text. -/
def substr (line : String) (pos count : Nat) : String :=
  String.mk ((line.data.drop pos).take count)

/-- The test `line.find(word) == 0`: the line starts with `word`. -/
def startsWith (line word : String) : Bool :=
  word.data.isPrefixOf line.data

/-- The second word read by `iss >> token; iss >> attrName`: words are
separated by white space; empty when the line has one word only. -/
def secondWord (line : String) : String :=
  String.mk ((((line.data.dropWhile isSpace).dropWhile fun c => !isSpace c).dropWhile
    isSpace).takeWhile fun c => !isSpace c)

/-- The variables of `readARFF` that change from line to line. -/
structure LoaderState where
  /-- The attributes read so far. -/
  attributes : List Attribute
  /-- The rows accepted so far. -/
  data : Data
  /-- The flag `dataSection`. -/
  dataSection : Bool

/-- The attribute declared by a line starting with `@ATTRIBUTE`; the
differences of positions are taken modulo `2 ^ 64`, as `size_t` does. -/
def parseAttribute (line : String) : Attribute :=
  let braceStart := findChar line '{'
  let braceEnd := findChar line '}'
  let attrName :=
    if braceStart ≠ npos then
      trim (substr line ((findChar line ' ' + 1) % 2 ^ 64)
        ((braceStart + 2 * 2 ^ 64 - findChar line ' ' - 1) % 2 ^ 64))
    else secondWord line
  let values :=
    if braceStart ≠ npos ∧ braceEnd ≠ npos then
      split (substr line (braceStart + 1) ((braceEnd + 2 ^ 64 - braceStart - 1) % 2 ^ 64)) ','
    else []
  Attribute.mk attrName values

/-- The body of the loop of `readARFF` for one line of the file. -/
def readLine (st : LoaderState) (rawLine : String) : LoaderState :=
  let line := trim rawLine
  if line.data = [] ∨ line.data.head? = some '%' then st
  else if startsWith line "@ATTRIBUTE" ∨ startsWith line "@attribute" then
    LoaderState.mk (st.attributes ++ [parseAttribute line]) st.data st.dataSection
  else if startsWith line "@DATA" ∨ startsWith line "@data" then
    LoaderState.mk st.attributes st.data true
  else if st.dataSection then
    if (split line ',').length = st.attributes.length then
      LoaderState.mk st.attributes (st.data ++ [split line ',']) st.dataSection
    else st
  else st

/-- The loop of `readARFF` over the lines of an opened file, from no
attributes and no rows. -/
def readARFF (lines : List String) : LoaderState :=
  lines.foldl readLine (LoaderState.mk [] [] false)

/-! ## The weather scenario -/

/-- The four rows of the weather scenario: outlook, humidity, play. -/
def weatherRows : Data :=
  [["sunny", "high", "no"], ["overcast", "high", "yes"], ["rainy", "normal", "yes"],
    ["sunny", "normal", "yes"]]

/-- The tree of the weather scenario for the candidates outlook, humidity. -/
def weatherTree : TreeNode :=
  TreeNode.mk "0" ""
    [("overcast", TreeNode.mk "" "yes" []),
     ("rainy", TreeNode.mk "" "yes" []),
     ("sunny", TreeNode.mk "1" ""
        [("high", TreeNode.mk "" "no" []), ("normal", TreeNode.mk "" "yes" [])])]

/-! ## Notions for the safety and path properties -/

/-- The execution of `buildTree data cands c` reaches the call of
`selectBestAttribute`: the first row and its class are read, the rows are not
all of one class, and the candidate list is not empty. -/
def reachesSelect (data : Data) (cands : List Int) (c : Int) : Prop :=
  ∃ row0 firstClass, data[0]? = some row0 ∧ rowAt row0 c = some firstClass ∧
    allSameClass data c firstClass = some false ∧ cands.isEmpty = false

/-- The execution of `buildTree data cands c` calls `buildTree data' cands' c`
in its loop over the splits: `data'` is one of the splits on the selected
attribute and `cands'` the candidates without that attribute. -/
def callsOn (c : Int) (data : Data) (cands : List Int) (data' : Data) (cands' : List Int) :
    Prop :=
  reachesSelect data cands c ∧
    ∃ b splits key, selectBestAttribute data cands c = some b ∧
      splitRows data b = some splits ∧ (key, data') ∈ splits ∧
      cands' = cands.filter fun a => a ≠ b

/-- The calls of `buildTree` made, directly or through other calls, by the
call on `data`, `cands` (that call included). -/
inductive CallOf (c : Int) (data : Data) (cands : List Int) : Data → List Int → Prop
  | root : CallOf c data cands data cands
  | step (data₁ : Data) (cands₁ : List Int) (data₂ : Data) (cands₂ : List Int) :
      CallOf c data cands data₁ cands₁ → callsOn c data₁ cands₁ data₂ cands₂ →
      CallOf c data cands data₂ cands₂

/-- The split attributes of the nodes passed from `t` along `path`, the node
reached included when it has one. -/
def attrsAlong : TreeNode → List String → List String
  | TreeNode.mk a _ _, [] => if a = "" then [] else [a]
  | TreeNode.mk a _ cs, v :: path =>
    if a = "" then []
    else
      match mapFind v cs with
      | some child => a :: attrsAlong child path
      | none => [a]

/-- Rows that agree at all candidate positions have the same class value. -/
def Consistent (data : Data) (cands : List Int) (c : Int) : Prop :=
  ∀ r₁ ∈ data, ∀ r₂ ∈ data, (∀ a ∈ cands, rowAt r₁ a = rowAt r₂ a) → rowAt r₁ c = rowAt r₂ c

instance (data : Data) (cands : List Int) (c : Int) : Decidable (Consistent data cands c) := by
  unfold Consistent; infer_instance

mutual
/-- The key paths from the root to the leaves of a tree, children in key
order. -/
def leafPaths : TreeNode → List (List String)
  | TreeNode.mk a _ cs => if a = "" then [[]] else leafPathsChildren cs
/-- The key paths to the leaves below the children. -/
def leafPathsChildren : List (String × TreeNode) → List (List String)
  | [] => []
  | (k, child) :: rest => (leafPaths child).map (fun p => k :: p) ++ leafPathsChildren rest
end

/-- The largest number of rows of `data` sharing one class label. -/
def maxCount (data : Data) (c : Int) : Nat :=
  ((sortedValues data c).map (valueCount data c)).foldr max 0

/-- The row is classified correctly by the tree: the decision of the node at
which its descent stops is its class value. -/
def correctOn (t : TreeNode) (c : Int) (row : Row) : Bool :=
  decide ((descend t row).map TreeNode.decision = rowAt row c)

end ID3

namespace ID3

/-! ## Row access -/

theorem rowAt_eq_some {row : Row} {i : Int} (h0 : 0 ≤ i) (h1 : i < (row.length : Int)) :
    rowAt row i = some (valueAt i row) := by
  have hlt : i.toNat < row.length := by omega
  simp [valueAt, rowAt, h0, List.getElem?_eq_getElem hlt]

theorem rowAt_eq_some_iff {row : Row} {i : Int} {v : String} :
    rowAt row i = some v ↔ (0 ≤ i ∧ i < (row.length : Int)) ∧ valueAt i row = v := by
  constructor
  · intro h
    have h0 : 0 ≤ i := by
      by_contra hc
      simp [rowAt, hc] at h
    have h1 : i.toNat < row.length := by
      simp only [rowAt, h0, if_true] at h
      exact (List.getElem?_eq_some_iff.1 h).1
    refine ⟨⟨h0, by omega⟩, ?_⟩
    simp [valueAt, h]
  · rintro ⟨⟨h0, h1⟩, rfl⟩
    exact rowAt_eq_some h0 h1

theorem InRange.cons_iff {row : Row} {data : Data} {i : Int} :
    InRange (row :: data) i ↔ (0 ≤ i ∧ i < (row.length : Int)) ∧ InRange data i := by
  simp [InRange]

theorem InRange.sublist {data sub : Data} {i : Int} (h : InRange data i)
    (hs : ∀ row ∈ sub, row ∈ data) : InRange sub i :=
  fun row hr => h row (hs row hr)

theorem InRange.filter {data : Data} {i : Int} (h : InRange data i) (p : Row → Bool) :
    InRange (data.filter p) i :=
  h.sublist fun _ hr => (List.mem_filter.1 hr).1

/-- Under the range condition a loop over the rows that reads `row[i]` in
every iteration is the corresponding pure fold. -/
theorem foldlM_rowAt {β : Type} (g : β → Row → String → β) (i : Int) :
    ∀ (data : Data) (init : β), InRange data i →
      data.foldlM (fun m row => (rowAt row i).map (g m row)) init
        = some (data.foldl (fun m row => g m row (valueAt i row)) init)
  | [], init, _ => rfl
  | row :: data, init, h => by
    obtain ⟨⟨h0, h1⟩, h'⟩ := InRange.cons_iff.1 h
    simp only [List.foldlM_cons, List.foldl_cons, rowAt_eq_some h0 h1, Option.map_some']
    exact foldlM_rowAt g i data _ h'

/-- A loop reading `row[i]` in every iteration completes only if `i` is a
position of every row. -/
theorem inRange_of_foldlM_rowAt {β : Type} (g : β → Row → String → β) (i : Int) :
    ∀ (data : Data) (init r : β),
      data.foldlM (fun m row => (rowAt row i).map (g m row)) init = some r → InRange data i
  | [], _, _, _ => by simp [InRange]
  | row :: data, init, r, h => by
    simp only [List.foldlM_cons] at h
    cases hr : rowAt row i with
    | none => simp [hr] at h
    | some v =>
      simp only [hr, Option.map_some'] at h
      exact InRange.cons_iff.2 ⟨(rowAt_eq_some_iff.1 hr).1, inRange_of_foldlM_rowAt g i data _ r h⟩

/-! ## Ordered maps -/

theorem mem_mapUpdate {V : Type} (f : Option V → V) (k : String) :
    ∀ (m : List (String × V)) (e : String × V), e ∈ mapUpdate f k m → e.1 = k ∨ e ∈ m
  | [], e, h => by
    simp only [mapUpdate, List.mem_singleton] at h
    exact Or.inl (by rw [h])
  | (k', v) :: rest, e, h => by
    simp only [mapUpdate] at h
    split_ifs at h with h1 h2
    · rcases List.mem_cons.1 h with h | h
      · exact Or.inl (by rw [h])
      · exact Or.inr h
    · rcases List.mem_cons.1 h with h | h
      · exact Or.inr (by rw [h]; exact List.mem_cons_self _ _)
      · rcases mem_mapUpdate f k rest e h with h | h
        · exact Or.inl h
        · exact Or.inr (List.mem_cons_of_mem _ h)
    · have hk : k' = k := le_antisymm (not_lt.1 h1) (not_lt.1 h2)
      rcases List.mem_cons.1 h with h | h
      · exact Or.inl (by rw [h]; exact hk)
      · exact Or.inr (List.mem_cons_of_mem _ h)

theorem mapUpdate_sorted {V : Type} (f : Option V → V) (k : String) :
    ∀ (m : List (String × V)), KeysSorted m → KeysSorted (mapUpdate f k m)
  | [], _ => by simp [mapUpdate, KeysSorted]
  | (k', v) :: rest, h => by
    have h' := List.pairwise_cons.1 h
    simp only [mapUpdate]
    split_ifs with h1 h2
    · refine List.pairwise_cons.2 ⟨?_, h⟩
      intro e he
      rcases List.mem_cons.1 he with he | he
      · rw [he]; exact h1
      · exact lt_trans h1 (h'.1 e he)
    · refine List.pairwise_cons.2 ⟨?_, mapUpdate_sorted f k rest h'.2⟩
      intro e he
      rcases mem_mapUpdate f k rest e he with he | he
      · rw [he]; exact h2
      · exact h'.1 e he
    · exact List.pairwise_cons.2 ⟨h'.1, h'.2⟩

theorem mapFind_eq_none {V : Type} (k : String) :
    ∀ (m : List (String × V)), (∀ e ∈ m, e.1 ≠ k) → mapFind k m = none
  | [], _ => rfl
  | (k', v) :: rest, h => by
    have h1 : k' ≠ k := h (k', v) (List.mem_cons_self _ _)
    simp only [mapFind, h1, if_false]
    exact mapFind_eq_none k rest fun e he => h e (List.mem_cons_of_mem _ he)

theorem mapFind_mapUpdate {V : Type} (f : Option V → V) (k k' : String) :
    ∀ (m : List (String × V)), KeysSorted m →
      mapFind k' (mapUpdate f k m) = if k' = k then some (f (mapFind k m)) else mapFind k' m
  | [], _ => by
    by_cases hk : k' = k
    · simp [mapUpdate, mapFind, hk]
    · simp [mapUpdate, mapFind, hk, Ne.symm hk]
  | (k₀, v) :: rest, h => by
    have h' := List.pairwise_cons.1 h
    simp only [mapUpdate]
    split_ifs with h1 h2 h3 h4 h5
    · have hn : mapFind k ((k₀, v) :: rest) = none := by
        apply mapFind_eq_none
        intro e he
        rcases List.mem_cons.1 he with he | he
        · rw [he]; exact ne_of_gt h1
        · exact ne_of_gt (lt_trans h1 (h'.1 e he))
      rw [hn, h2]; simp [mapFind]
    · simp [mapFind, Ne.symm h2]
    · subst h4
      have : k₀ ≠ k' := ne_of_lt h3
      simp [mapFind, this, mapFind_mapUpdate f k' k' rest h'.2]
    · by_cases h6 : k₀ = k'
      · simp [mapFind, h6]
      · simp [mapFind, h6, mapFind_mapUpdate f k k' rest h'.2, h4]
    · have hk : k₀ = k := le_antisymm (not_lt.1 h1) (not_lt.1 h3)
      subst hk; subst h5
      simp [mapFind]
    · have hk : k₀ = k := le_antisymm (not_lt.1 h1) (not_lt.1 h3)
      subst hk
      simp [mapFind, Ne.symm h5]

theorem mem_iff_mapFind {V : Type} (k : String) (v : V) :
    ∀ (m : List (String × V)), KeysSorted m → ((k, v) ∈ m ↔ mapFind k m = some v)
  | [], _ => by simp [mapFind]
  | (k₀, v₀) :: rest, h => by
    have h' := List.pairwise_cons.1 h
    by_cases hk : k₀ = k
    · subst hk
      have : (k₀, v) ∉ rest := fun hm => lt_irrefl _ (h'.1 (k₀, v) hm)
      simp [mapFind, this, eq_comm]
    · have hne : ¬ (k = k₀) := fun h => hk h.symm
      simp [mapFind, hk, hne, mem_iff_mapFind k v rest h'.2]

end ID3

namespace ID3

/-! ## Loops that fill a map -/

theorem foldl_mapUpdate_sorted {α V : Type} (F : Option V → α → V) (key : α → String)
    (xs : List α) :
    KeysSorted (xs.foldl (fun m x => mapUpdate (fun o => F o x) (key x) m) []) := by
  induction xs using List.reverseRecOn with
  | nil => simp [KeysSorted]
  | append_singleton xs x ih =>
    rw [List.foldl_append]
    exact mapUpdate_sorted _ _ _ ih

theorem mapFind_foldl_mapUpdate {α V : Type} (F : Option V → α → V) (key : α → String)
    (k : String) (xs : List α) :
    mapFind k (xs.foldl (fun m x => mapUpdate (fun o => F o x) (key x) m) [])
      = (xs.filter fun x => key x = k).foldl (fun o x => some (F o x)) none := by
  induction xs using List.reverseRecOn with
  | nil => simp [mapFind]
  | append_singleton xs x ih =>
    rw [List.foldl_append, List.filter_append, List.foldl_append]
    simp only [List.foldl_cons, List.foldl_nil]
    rw [mapFind_mapUpdate _ _ _ _ (foldl_mapUpdate_sorted F key xs)]
    by_cases hk : key x = k
    · subst hk
      simp [ih]
    · have hk' : ¬ (k = key x) := fun h => hk h.symm
      simp [hk, hk', ih]

theorem foldl_count_some (xs : List Row) (o : Option Nat) (h : xs ≠ []) :
    xs.foldl (fun o _ => some (o.getD 0 + 1)) o = some (o.getD 0 + xs.length) := by
  induction xs using List.reverseRecOn with
  | nil => exact absurd rfl h
  | append_singleton xs x ih =>
    rw [List.foldl_append]
    by_cases hx : xs = []
    · subst hx; simp
    · simp [ih hx, Nat.add_assoc]

theorem foldl_push_some (xs : List Row) (o : Option Data) (h : xs ≠ []) :
    xs.foldl (fun o x => some (o.getD [] ++ [x])) o = some (o.getD [] ++ xs) := by
  induction xs using List.reverseRecOn with
  | nil => exact absurd rfl h
  | append_singleton xs x ih =>
    rw [List.foldl_append]
    by_cases hx : xs = []
    · subst hx; simp
    · simp [ih hx]

theorem mem_sortedValues {data : Data} {i : Int} {v : String} :
    v ∈ sortedValues data i ↔ ∃ row ∈ data, valueAt i row = v := by
  simp [sortedValues]

theorem rowsWith_ne_nil_iff {data : Data} {i : Int} {v : String} :
    rowsWith data i v ≠ [] ↔ v ∈ sortedValues data i := by
  rw [mem_sortedValues, rowsWith, Ne, List.filter_eq_nil_iff]
  simp

theorem valueCount_eq_length (data : Data) (i : Int) (k : String) :
    valueCount data i k = (rowsWith data i k).length := by
  simp [valueCount, rowsWith, List.countP_eq_length_filter]

theorem valueCount_pos_iff {data : Data} {i : Int} {v : String} :
    0 < valueCount data i v ↔ v ∈ sortedValues data i := by
  rw [valueCount_eq_length, List.length_pos, rowsWith_ne_nil_iff]

/-- A key-sorted map whose lookups are given by `G` on the values occurring
at position `i` is the list of those values, in order, paired with `G`. -/
theorem map_eq_of_mapFind {V : Type} (m : List (String × V)) (data : Data) (i : Int)
    (G : String → V) (hs : KeysSorted m)
    (hf : ∀ k, mapFind k m = if k ∈ sortedValues data i then some (G k) else none) :
    m = (sortedValues data i).map fun k => (k, G k) := by
  have hmem : ∀ k v, (k, v) ∈ m ↔ k ∈ sortedValues data i ∧ v = G k := by
    intro k v
    rw [mem_iff_mapFind k v m hs, hf k]
    by_cases hk : k ∈ sortedValues data i
    · simp [hk, eq_comm]
    · simp [hk]
  have hkeys : m.map Prod.fst = sortedValues data i := by
    have s1 : (m.map Prod.fst).Sorted (· < ·) := List.pairwise_map.2 hs
    have s2 : (sortedValues data i).Sorted (· < ·) := Finset.sort_sorted_lt _
    refine List.eq_of_perm_of_sorted ?_ s1.le_of_lt s2.le_of_lt
    refine (List.perm_ext_iff_of_nodup s1.nodup s2.nodup).2 fun k => ?_
    constructor
    · intro hk
      obtain ⟨⟨k', v⟩, he, rfl⟩ := List.mem_map.1 hk
      exact ((hmem k' v).1 he).1
    · intro hk
      exact List.mem_map.2 ⟨(k, G k), (hmem k (G k)).2 ⟨hk, rfl⟩, rfl⟩
  rw [← hkeys, List.map_map]
  conv_lhs => rw [← List.map_id m]
  refine List.map_congr_left fun e he => ?_
  obtain ⟨k, v⟩ := e
  simp [((hmem k v).1 he).2]

/-- The pure counting loop. -/
theorem countsOf_eq (data : Data) (i : Int) :
    data.foldl (fun m row => mapUpdate (fun o => o.getD 0 + 1) (valueAt i row) m) []
      = (sortedValues data i).map fun k => (k, valueCount data i k) := by
  refine map_eq_of_mapFind _ data i _
    (foldl_mapUpdate_sorted (fun o (_ : Row) => o.getD 0 + 1) (valueAt i) data) fun k => ?_
  rw [mapFind_foldl_mapUpdate (fun o (_ : Row) => o.getD 0 + 1) (valueAt i) k data]
  by_cases hk : k ∈ sortedValues data i
  · have hne := rowsWith_ne_nil_iff.2 hk
    rw [if_pos hk]
    have := foldl_count_some (rowsWith data i k) none hne
    simpa [rowsWith, valueCount_eq_length] using this
  · have hnil : rowsWith data i k = [] := by
      by_contra hne
      exact hk (rowsWith_ne_nil_iff.1 hne)
    rw [if_neg hk]
    simp only [rowsWith] at hnil
    simp [hnil]

/-- The pure grouping loop. -/
theorem groupsOf_eq (data : Data) (i : Int) :
    data.foldl (fun m row => mapUpdate (fun o => o.getD [] ++ [row]) (valueAt i row) m) []
      = (sortedValues data i).map fun v => (v, rowsWith data i v) := by
  refine map_eq_of_mapFind _ data i _
    (foldl_mapUpdate_sorted (fun o (row : Row) => o.getD [] ++ [row]) (valueAt i) data)
    fun k => ?_
  rw [mapFind_foldl_mapUpdate (fun o (row : Row) => o.getD [] ++ [row]) (valueAt i) k data]
  by_cases hk : k ∈ sortedValues data i
  · have hne := rowsWith_ne_nil_iff.2 hk
    rw [if_pos hk]
    have := foldl_push_some (rowsWith data i k) none hne
    simpa [rowsWith] using this
  · have hnil : rowsWith data i k = [] := by
      by_contra hne
      exact hk (rowsWith_ne_nil_iff.1 hne)
    rw [if_neg hk]
    simp only [rowsWith] at hnil
    simp [hnil]

theorem classCounts_eq {data : Data} {i : Int} (h : InRange data i) :
    classCounts data i = some ((sortedValues data i).map fun k => (k, valueCount data i k)) := by
  rw [← countsOf_eq]
  exact foldlM_rowAt (fun m _ c => mapUpdate (fun o => o.getD 0 + 1) c m) i data [] h

theorem splitRows_eq {data : Data} {i : Int} (h : InRange data i) :
    splitRows data i = some ((sortedValues data i).map fun v => (v, rowsWith data i v)) := by
  rw [← groupsOf_eq]
  exact foldlM_rowAt (fun m row v => mapUpdate (fun o => o.getD [] ++ [row]) v m) i data [] h

theorem inRange_of_classCounts {data : Data} {i : Int} {m : List (String × Nat)}
    (h : classCounts data i = some m) : InRange data i :=
  inRange_of_foldlM_rowAt (fun m _ c => mapUpdate (fun o => o.getD 0 + 1) c m) i data [] m h

theorem inRange_of_splitRows {data : Data} {i : Int} {m : List (String × Data)}
    (h : splitRows data i = some m) : InRange data i :=
  inRange_of_foldlM_rowAt (fun m row v => mapUpdate (fun o => o.getD [] ++ [row]) v m) i data [] m h

end ID3

namespace ID3

/-! ## Counting lemmas -/

theorem mem_valueSet {data : Data} {i : Int} {v : String} :
    v ∈ valueSet data i ↔ ∃ row ∈ data, valueAt i row = v := by
  simp [valueSet]

theorem mem_sortedValues_iff_valueSet {data : Data} {i : Int} {v : String} :
    v ∈ sortedValues data i ↔ v ∈ valueSet data i := by
  simp [sortedValues, valueSet]

theorem sum_sortedValues {M : Type} [AddCommMonoid M] (data : Data) (i : Int) (f : String → M) :
    ((sortedValues data i).map f).sum = ∑ k ∈ valueSet data i, f k := by
  have h := List.sum_toFinset f (Finset.sort_nodup (· ≤ ·) (valueSet data i))
  rw [Finset.sort_toFinset] at h
  exact h.symm

theorem valueCount_eq_zero {data : Data} {i : Int} {k : String} (h : k ∉ valueSet data i) :
    valueCount data i k = 0 := by
  rw [valueCount, List.countP_eq_zero]
  intro row hr
  simp only [decide_eq_true_eq]
  intro hk
  exact h (mem_valueSet.2 ⟨row, hr, hk⟩)

theorem valueCount_pos {data : Data} {i : Int} {k : String} (h : k ∈ valueSet data i) :
    0 < valueCount data i k :=
  valueCount_pos_iff.2 (mem_sortedValues_iff_valueSet.2 h)

theorem valueCount_le (data : Data) (i : Int) (k : String) :
    valueCount data i k ≤ data.length :=
  List.countP_le_length _

/-- Counting the rows that satisfy `p` value by value. -/
theorem sum_countP_values (i : Int) (p : Row → Bool) (S : Finset String) :
    ∀ (data : Data), (∀ row ∈ data, valueAt i row ∈ S) →
      ∑ v ∈ S, (data.countP fun row => decide (valueAt i row = v) && p row) = data.countP p
  | [], _ => by simp
  | row :: data, h => by
    have ih := sum_countP_values i p S data fun r hr => h r (List.mem_cons_of_mem _ hr)
    have hrow : valueAt i row ∈ S := h row (List.mem_cons_self _ _)
    simp only [List.countP_cons, Finset.sum_add_distrib, ih]
    congr 1
    by_cases hp : p row = true
    · simp [hp, Finset.sum_ite_eq, hrow]
    · simp [hp]

theorem sum_valueCount (data : Data) (i : Int) :
    ∑ v ∈ valueSet data i, valueCount data i v = data.length := by
  have h := sum_countP_values i (fun _ => true) (valueSet data i) data
    fun row hr => mem_valueSet.2 ⟨row, hr, rfl⟩
  simpa [valueCount] using h

theorem valueCount_rowsWith (data : Data) (a c : Int) (v k : String) :
    valueCount (rowsWith data a v) c k
      = data.countP fun row => decide (valueAt a row = v) && decide (valueAt c row = k) := by
  simp only [valueCount, rowsWith, List.countP_filter]
  congr 1
  funext row
  rw [Bool.and_comm]

theorem sum_valueCount_rowsWith (data : Data) (a c : Int) (k : String) :
    ∑ v ∈ valueSet data a, valueCount (rowsWith data a v) c k = valueCount data c k := by
  have h := sum_countP_values a (fun row => decide (valueAt c row = k)) (valueSet data a) data
    fun row hr => mem_valueSet.2 ⟨row, hr, rfl⟩
  simp only [valueCount_rowsWith]
  exact h

theorem valueSet_rowsWith_subset (data : Data) (a c : Int) (v : String) :
    valueSet (rowsWith data a v) c ⊆ valueSet data c := by
  intro k hk
  obtain ⟨row, hr, hv⟩ := mem_valueSet.1 hk
  exact mem_valueSet.2 ⟨row, (List.mem_filter.1 hr).1, hv⟩

theorem length_rowsWith_pos {data : Data} {a : Int} {v : String} (h : v ∈ valueSet data a) :
    0 < (rowsWith data a v).length := by
  rw [← valueCount_eq_length]
  exact valueCount_pos h

/-! ## Closed form of the entropy -/

theorem foldl_sub_eq {α : Type} (g : α → ℝ) (l : List α) (init : ℝ) :
    l.foldl (fun e c => e - g c) init = init - (l.map g).sum := by
  induction l generalizing init with
  | nil => simp
  | cons x l ih => simp [ih, sub_sub]

theorem mul_logb_two (p : ℝ) : p * Real.logb 2 p = -(Real.negMulLog p / Real.log 2) := by
  simp only [Real.logb, Real.negMulLog]
  ring

theorem log_two_pos : 0 < Real.log 2 := Real.log_pos (by norm_num)

theorem calculateEntropy_eq {data : Data} {i : Int} (h : InRange data i) :
    calculateEntropy data i = some (entropySum data i) := by
  simp only [calculateEntropy, classCounts_eq h, Option.map_some', Option.some.injEq]
  rw [foldl_sub_eq (fun count : String × Nat =>
    ((count.2 : ℝ) / (data.length : ℝ)) * Real.logb 2 ((count.2 : ℝ) / (data.length : ℝ)))]
  rw [List.map_map, sum_sortedValues, entropySum, zero_sub, ← Finset.sum_neg_distrib]
  refine Finset.sum_congr rfl fun k _ => ?_
  simp only [Function.comp, mul_logb_two, neg_neg]

theorem inRange_of_calculateEntropy {data : Data} {i : Int} {e : ℝ}
    (h : calculateEntropy data i = some e) : InRange data i := by
  simp only [calculateEntropy, Option.map_eq_some'] at h
  obtain ⟨m, hm, _⟩ := h
  exact inRange_of_classCounts hm

theorem prob_mem_unit (data : Data) (i : Int) (k : String) :
    0 ≤ (valueCount data i k : ℝ) / (data.length : ℝ) ∧
      (valueCount data i k : ℝ) / (data.length : ℝ) ≤ 1 := by
  constructor
  · positivity
  · apply div_le_one_of_le₀
    · exact_mod_cast valueCount_le data i k
    · positivity

theorem sum_prob {data : Data} (i : Int) (hne : data ≠ []) :
    ∑ k ∈ valueSet data i, (valueCount data i k : ℝ) / (data.length : ℝ) = 1 := by
  have hn : (data.length : ℝ) ≠ 0 := by
    have := List.length_pos.2 hne
    positivity
  rw [← Finset.sum_div, ← Nat.cast_sum, sum_valueCount, div_self hn]

theorem entropySum_nonneg (data : Data) (i : Int) : 0 ≤ entropySum data i := by
  refine Finset.sum_nonneg fun k _ => ?_
  have hp := prob_mem_unit data i k
  exact div_nonneg (Real.negMulLog_nonneg hp.1 hp.2) log_two_pos.le

theorem valueSet_nonempty {data : Data} (i : Int) (hne : data ≠ []) :
    (valueSet data i).Nonempty := by
  obtain ⟨row, hr⟩ := List.exists_mem_of_ne_nil data hne
  exact ⟨valueAt i row, mem_valueSet.2 ⟨row, hr, rfl⟩⟩

theorem entropySum_le {data : Data} (i : Int) (hne : data ≠ []) :
    entropySum data i ≤ Real.logb 2 ((valueSet data i).card : ℝ) := by
  set S := valueSet data i with hS
  have hcard : 0 < (S.card : ℝ) := by
    exact_mod_cast Finset.card_pos.2 (valueSet_nonempty i hne)
  have hj := Real.concaveOn_negMulLog.le_map_sum
    (t := S) (w := fun _ => (1 : ℝ) / S.card)
    (p := fun k => (valueCount data i k : ℝ) / (data.length : ℝ))
    (fun _ _ => by positivity)
    (by rw [Finset.sum_const, nsmul_eq_mul]; field_simp)
    (fun k _ => (prob_mem_unit data i k).1)
  simp only [smul_eq_mul, ← Finset.mul_sum, sum_prob i hne, mul_one] at hj
  have hval : Real.negMulLog ((1 : ℝ) / S.card) = (1 / S.card) * Real.log S.card := by
    simp only [Real.negMulLog, one_div, Real.log_inv]
    ring
  rw [hval] at hj
  have hsum : ∑ k ∈ S, Real.negMulLog ((valueCount data i k : ℝ) / (data.length : ℝ))
      ≤ Real.log S.card := by
    have := mul_le_mul_of_nonneg_left hj hcard.le
    rwa [← mul_assoc, ← mul_assoc, mul_one_div_cancel hcard.ne', one_mul, one_mul] at this
  rw [entropySum, ← Finset.sum_div, Real.logb]
  exact div_le_div_of_nonneg_right hsum log_two_pos.le

theorem negMulLog_eq_zero_iff {p : ℝ} (h0 : 0 < p) (h1 : p ≤ 1) :
    Real.negMulLog p = 0 ↔ p = 1 := by
  constructor
  · intro h
    simp only [Real.negMulLog, neg_mul, neg_eq_zero, mul_eq_zero] at h
    rcases h with h | h
    · exact absurd h h0.ne'
    · rcases Real.log_eq_zero.1 h with h | h | h
      · exact absurd h h0.ne'
      · exact h
      · linarith
  · rintro rfl
    exact Real.negMulLog_one

/-- All rows carry the same value at position `i`. -/
theorem valueCount_eq_length_iff (data : Data) (i : Int) (k : String) :
    valueCount data i k = data.length ↔ ∀ row ∈ data, valueAt i row = k := by
  simp [valueCount, List.countP_eq_length]

theorem entropySum_eq_zero_iff {data : Data} (i : Int) (hne : data ≠ []) :
    entropySum data i = 0 ↔ ∀ r₁ ∈ data, ∀ r₂ ∈ data, valueAt i r₁ = valueAt i r₂ := by
  have hn : 0 < (data.length : ℝ) := by
    have := List.length_pos.2 hne
    positivity
  have hterm : ∀ k ∈ valueSet data i,
      0 ≤ Real.negMulLog ((valueCount data i k : ℝ) / (data.length : ℝ)) / Real.log 2 := by
    intro k _
    have hp := prob_mem_unit data i k
    exact div_nonneg (Real.negMulLog_nonneg hp.1 hp.2) log_two_pos.le
  rw [entropySum, Finset.sum_eq_zero_iff_of_nonneg hterm]
  constructor
  · intro h r₁ h₁ r₂ h₂
    have hk := h (valueAt i r₁) (mem_valueSet.2 ⟨r₁, h₁, rfl⟩)
    have hpos : 0 < (valueCount data i (valueAt i r₁) : ℝ) / (data.length : ℝ) := by
      have : 0 < valueCount data i (valueAt i r₁) :=
        valueCount_pos (mem_valueSet.2 ⟨r₁, h₁, rfl⟩)
      positivity
    rw [div_eq_zero_iff] at hk
    rcases hk with hk | hk
    · rw [negMulLog_eq_zero_iff hpos (prob_mem_unit data i _).2, div_eq_one_iff_eq hn.ne'] at hk
      have hk' : valueCount data i (valueAt i r₁) = data.length := by exact_mod_cast hk
      exact ((valueCount_eq_length_iff data i _).1 hk' r₂ h₂).symm
    · exact absurd hk log_two_pos.ne'
  · intro h k hk
    obtain ⟨row, hr, rfl⟩ := mem_valueSet.1 hk
    have hall : valueCount data i (valueAt i row) = data.length :=
      (valueCount_eq_length_iff data i _).2 fun r hr' => h r hr' row hr
    rw [hall, div_self hn.ne', Real.negMulLog_one, zero_div]

end ID3

namespace ID3

/-! ## Closed form of the information gain -/

theorem foldlM_add_eq {α : Type} (c : α → Option ℝ) (e w : α → ℝ) :
    ∀ (l : List α) (init : ℝ), (∀ x ∈ l, c x = some (e x)) →
      l.foldlM (fun acc x => (c x).map fun y => acc + w x * y) init
        = some (init + (l.map fun x => w x * e x).sum)
  | [], init, _ => by simp
  | x :: l, init, h => by
    have hx := h x (List.mem_cons_self _ _)
    simp only [List.foldlM_cons, hx, Option.map_some', List.map_cons, List.sum_cons]
    show List.foldlM _ (init + w x * e x) l = _
    rw [foldlM_add_eq c e w l _ fun y hy => h y (List.mem_cons_of_mem _ hy)]
    rw [add_assoc]

theorem calculateInformationGain_eq {data : Data} {a c : Int} (ha : InRange data a)
    (hc : InRange data c) :
    calculateInformationGain data a c = some (gainSum data a c) := by
  simp only [calculateInformationGain, calculateEntropy_eq hc, splitRows_eq ha,
    Option.some_bind]
  have hfold := foldlM_add_eq
    (fun split : String × Data => calculateEntropy split.2 c)
    (fun split => entropySum split.2 c)
    (fun split => (split.2.length : ℝ) / (data.length : ℝ))
    ((sortedValues data a).map fun v => (v, rowsWith data a v)) 0
    (by
      intro x hx
      obtain ⟨v, _, rfl⟩ := List.mem_map.1 hx
      exact calculateEntropy_eq (hc.filter _))
  rw [hfold]
  simp only [Option.map_some', Option.some.injEq, zero_add, List.map_map, gainSum]
  rw [sum_sortedValues]
  rfl

theorem inRange_of_calculateInformationGain {data : Data} {a c : Int} {g : ℝ}
    (h : calculateInformationGain data a c = some g) : InRange data a ∧ InRange data c := by
  simp only [calculateInformationGain, Option.bind_eq_some, Option.map_eq_some'] at h
  obtain ⟨e, he, m, hm, _⟩ := h
  exact ⟨inRange_of_splitRows hm, inRange_of_calculateEntropy he⟩

/-! ## Non-negativity of the gain -/

theorem entropySum_rowsWith_extend (data : Data) (a c : Int) (v : String) :
    entropySum (rowsWith data a v) c
      = ∑ k ∈ valueSet data c,
          Real.negMulLog ((valueCount (rowsWith data a v) c k : ℝ) /
            ((rowsWith data a v).length : ℝ)) / Real.log 2 := by
  rw [entropySum]
  refine Finset.sum_subset (valueSet_rowsWith_subset data a c v) fun k _ hk => ?_
  rw [valueCount_eq_zero hk]
  simp

theorem gainSum_nonneg {data : Data} (a c : Int) (hne : data ≠ []) : 0 ≤ gainSum data a c := by
  have hn : 0 < (data.length : ℝ) := by
    have := List.length_pos.2 hne
    positivity
  rw [gainSum, sub_nonneg]
  simp only [entropySum_rowsWith_extend, Finset.mul_sum]
  rw [Finset.sum_comm, entropySum]
  refine Finset.sum_le_sum fun k _ => ?_
  have hj := Real.concaveOn_negMulLog.le_map_sum
    (t := valueSet data a)
    (w := fun v => ((rowsWith data a v).length : ℝ) / (data.length : ℝ))
    (p := fun v => (valueCount (rowsWith data a v) c k : ℝ) / ((rowsWith data a v).length : ℝ))
    (fun _ _ => by positivity)
    (by
      have := sum_prob a hne
      simpa [valueCount_eq_length] using this)
    (fun v _ => by
      show (0 : ℝ) ≤ _
      positivity)
  simp only [smul_eq_mul] at hj
  have hsum : ∑ v ∈ valueSet data a,
      ((rowsWith data a v).length : ℝ) / (data.length : ℝ) *
        ((valueCount (rowsWith data a v) c k : ℝ) / ((rowsWith data a v).length : ℝ))
      = (valueCount data c k : ℝ) / (data.length : ℝ) := by
    rw [← sum_valueCount_rowsWith data a c k, Nat.cast_sum, Finset.sum_div]
    refine Finset.sum_congr rfl fun v hv => ?_
    have hv' : (0 : ℝ) < ((rowsWith data a v).length : ℝ) := by
      exact_mod_cast length_rowsWith_pos hv
    field_simp
    ring
  rw [hsum] at hj
  have hl := log_two_pos
  calc ∑ v ∈ valueSet data a,
        ((rowsWith data a v).length : ℝ) / (data.length : ℝ) *
          (Real.negMulLog ((valueCount (rowsWith data a v) c k : ℝ) /
            ((rowsWith data a v).length : ℝ)) / Real.log 2)
      = (∑ v ∈ valueSet data a,
          ((rowsWith data a v).length : ℝ) / (data.length : ℝ) *
            Real.negMulLog ((valueCount (rowsWith data a v) c k : ℝ) /
              ((rowsWith data a v).length : ℝ))) / Real.log 2 := by
        rw [Finset.sum_div]
        refine Finset.sum_congr rfl fun v _ => ?_
        ring
    _ ≤ Real.negMulLog ((valueCount data c k : ℝ) / (data.length : ℝ)) / Real.log 2 :=
        div_le_div_of_nonneg_right hj hl.le

end ID3

namespace ID3

/-! ## Attribute selection -/

theorem foldlM_selectStep {data : Data} {c : Int} (hc : InRange data c) :
    ∀ (cands : List Int) (s : Int × ℝ), (∀ a ∈ cands, InRange data a) →
      cands.foldlM (selectStep data c) s
        = some (cands.foldl (selectPure fun a => gainSum data a c) s)
  | [], _, _ => rfl
  | a :: cands, s, h => by
    have ha : InRange data a := h a (List.mem_cons_self _ _)
    simp only [List.foldlM_cons, List.foldl_cons, selectStep, calculateInformationGain_eq ha hc,
      Option.map_some']
    exact foldlM_selectStep hc cands _ fun b hb => h b (List.mem_cons_of_mem _ hb)

/-- The state after the selection loop: either no candidate beat the initial
maximum, or the state holds the first candidate of largest gain. -/
theorem foldl_selectPure (g : Int → ℝ) :
    ∀ (cands : List Int) (s : Int × ℝ),
      ((∀ d ∈ cands, g d ≤ s.2) ∧ cands.foldl (selectPure g) s = s) ∨
      ∃ pre post, cands = pre ++ (cands.foldl (selectPure g) s).1 :: post ∧
        (cands.foldl (selectPure g) s).2 = g (cands.foldl (selectPure g) s).1 ∧
        (∀ d ∈ pre, g d < g (cands.foldl (selectPure g) s).1) ∧
        (∀ d ∈ post, g d ≤ g (cands.foldl (selectPure g) s).1) ∧
        s.2 < g (cands.foldl (selectPure g) s).1
  | [], s => Or.inl ⟨by simp, rfl⟩
  | a :: cands, s => by
    simp only [List.foldl_cons]
    by_cases hgt : g a > s.2
    · have hstep : selectPure g s a = (a, g a) := by simp [selectPure, hgt]
      rw [hstep]
      rcases foldl_selectPure g cands (a, g a) with ⟨hall, heq⟩ | ⟨pre, post, hl, hm, hpre, hpost, hlt⟩
      · right
        refine ⟨[], cands, ?_, ?_, ?_, ?_, ?_⟩
        · rw [heq]; rfl
        · rw [heq]
        · simp
        · rw [heq]; exact hall
        · rw [heq]; exact hgt
      · right
        refine ⟨a :: pre, post, ?_, hm, ?_, hpost, ?_⟩
        · rw [List.cons_append, ← hl]
        · intro d hd
          rcases List.mem_cons.1 hd with rfl | hd
          · exact hlt
          · exact hpre d hd
        · exact lt_trans hgt hlt
    · have hstep : selectPure g s a = s := by simp [selectPure, hgt]
      rw [hstep]
      rcases foldl_selectPure g cands s with ⟨hall, heq⟩ | ⟨pre, post, hl, hm, hpre, hpost, hlt⟩
      · left
        refine ⟨?_, heq⟩
        intro d hd
        rcases List.mem_cons.1 hd with rfl | hd
        · exact not_lt.1 hgt
        · exact hall d hd
      · right
        refine ⟨a :: pre, post, ?_, hm, ?_, hpost, hlt⟩
        · rw [List.cons_append, ← hl]
        · intro d hd
          rcases List.mem_cons.1 hd with rfl | hd
          · exact lt_of_le_of_lt (not_lt.1 hgt) hlt
          · exact hpre d hd

/-- Result of `selectBestAttribute` on valid input: the first candidate of
largest gain. -/
theorem selectBestAttribute_spec {data : Data} {cands : List Int} {c : Int}
    (hne : data ≠ []) (hcands : cands ≠ []) (hr : ∀ a ∈ cands, InRange data a)
    (hc : InRange data c) :
    ∃ best pre post, selectBestAttribute data cands c = some best ∧
      cands = pre ++ best :: post ∧
      (∀ d ∈ pre, gainSum data d c < gainSum data best c) ∧
      (∀ d ∈ post, gainSum data d c ≤ gainSum data best c) := by
  simp only [selectBestAttribute, foldlM_selectStep hc cands _ hr, Option.map_some',
    Option.some.injEq]
  rcases foldl_selectPure (fun a => gainSum data a c) cands ((-1 : Int), (-1 : ℝ)) with
    ⟨hall, _⟩ | ⟨pre, post, hl, _, hpre, hpost, _⟩
  · obtain ⟨a, ha⟩ := List.exists_mem_of_ne_nil cands hcands
    have h1 := hall a ha
    have h2 := gainSum_nonneg a c hne
    simp only at h1
    linarith
  · exact ⟨_, pre, post, rfl, hl, hpre, hpost⟩

/-- The prefix before the first occurrence of an element is determined. -/
theorem before_first_unique {c : Int} {p₁ q₁ p₂ q₂ : List Int} (h : p₁ ++ c :: q₁ = p₂ ++ c :: q₂)
    (h₁ : c ∉ p₁) (h₂ : c ∉ p₂) : p₁ = p₂ := by
  induction p₁ generalizing p₂ with
  | nil =>
    cases p₂ with
    | nil => rfl
    | cons b p₂ =>
      simp only [List.nil_append, List.cons_append, List.cons.injEq] at h
      exact absurd (by rw [h.1]; exact List.mem_cons_self _ _) h₂
  | cons a p₁ ih =>
    cases p₂ with
    | nil =>
      simp only [List.nil_append, List.cons_append, List.cons.injEq] at h
      exact absurd (by rw [h.1]; exact List.mem_cons_self _ _) h₁
    | cons b p₂ =>
      simp only [List.cons_append, List.cons.injEq] at h
      rw [h.1, ih h.2 (fun hm => h₁ (List.mem_cons_of_mem _ hm))
        (fun hm => h₂ (List.mem_cons_of_mem _ hm))]

end ID3

namespace ID3

/-! ## The purity test and the majority scan of `buildTree` -/

theorem allSameClass_eq_true {c : Int} {firstClass : String} :
    ∀ (data : Data), (∀ row ∈ data, rowAt row c = some firstClass) →
      allSameClass data c firstClass = some true
  | [], _ => rfl
  | row :: data, h => by
    simp only [allSameClass, h row (List.mem_cons_self _ _), Option.some_bind, ne_eq,
      not_true_eq_false, if_false]
    exact allSameClass_eq_true data fun r hr => h r (List.mem_cons_of_mem _ hr)

theorem allSameClass_eq_false {c : Int} {firstClass : String} :
    ∀ (data : Data), InRange data c → (∃ row ∈ data, valueAt c row ≠ firstClass) →
      allSameClass data c firstClass = some false
  | [], _, h => by simp at h
  | row :: data, hr, h => by
    obtain ⟨⟨h0, h1⟩, hr'⟩ := InRange.cons_iff.1 hr
    simp only [allSameClass, rowAt_eq_some h0 h1, Option.some_bind]
    by_cases hv : valueAt c row = firstClass
    · simp only [hv, ne_eq, not_true_eq_false, if_false]
      apply allSameClass_eq_false data hr'
      obtain ⟨r, hmem, hne⟩ := h
      rcases List.mem_cons.1 hmem with rfl | hmem
      · exact absurd hv hne
      · exact ⟨r, hmem, hne⟩
    · simp [hv]

/-- The state after the majority scan: either no entry beat the initial
count, or the state holds the first entry of largest count. -/
theorem foldl_majority :
    ∀ (m : List (String × Nat)) (s : String × Nat),
      ((∀ e ∈ m, e.2 ≤ s.2) ∧
        m.foldl (fun (state : String × Nat) count =>
          if count.2 > state.2 then (count.1, count.2) else state) s = s) ∨
      ∃ pre x post, m = pre ++ x :: post ∧
        m.foldl (fun (state : String × Nat) count =>
          if count.2 > state.2 then (count.1, count.2) else state) s = (x.1, x.2) ∧
        (∀ e ∈ pre, e.2 < x.2) ∧ (∀ e ∈ post, e.2 ≤ x.2) ∧ s.2 < x.2
  | [], s => Or.inl ⟨by simp, rfl⟩
  | a :: m, s => by
    simp only [List.foldl_cons]
    by_cases hgt : a.2 > s.2
    · rw [if_pos hgt]
      rcases foldl_majority m (a.1, a.2) with ⟨hall, heq⟩ | ⟨pre, x, post, hl, hm, hpre, hpost, hlt⟩
      · exact Or.inr ⟨[], a, m, rfl, heq, by simp, hall, hgt⟩
      · refine Or.inr ⟨a :: pre, x, post, by rw [hl]; rfl, hm, ?_, hpost, lt_trans hgt hlt⟩
        intro e he
        rcases List.mem_cons.1 he with rfl | he
        · exact hlt
        · exact hpre e he
    · rw [if_neg hgt]
      rcases foldl_majority m s with ⟨hall, heq⟩ | ⟨pre, x, post, hl, hm, hpre, hpost, hlt⟩
      · refine Or.inl ⟨?_, heq⟩
        intro e he
        rcases List.mem_cons.1 he with rfl | he
        · exact not_lt.1 hgt
        · exact hall e he
      · refine Or.inr ⟨a :: pre, x, post, by rw [hl]; rfl, hm, ?_, hpost, hlt⟩
        intro e he
        rcases List.mem_cons.1 he with rfl | he
        · exact lt_of_le_of_lt (not_lt.1 hgt) hlt
        · exact hpre e he

/-- The majority class of the class counts of a non-empty data set: a label
that occurs, of largest count, and the least such label. -/
theorem majorityClass_spec {data : Data} (c : Int) (hne : data ≠ []) :
    majorityClass ((sortedValues data c).map fun k => (k, valueCount data c k))
        ∈ valueSet data c ∧
    (∀ k, valueCount data c k ≤ valueCount data c
      (majorityClass ((sortedValues data c).map fun k => (k, valueCount data c k)))) ∧
    (∀ k, valueCount data c k = valueCount data c
      (majorityClass ((sortedValues data c).map fun k => (k, valueCount data c k))) →
      majorityClass ((sortedValues data c).map fun k => (k, valueCount data c k)) ≤ k) := by
  set m := (sortedValues data c).map fun k => (k, valueCount data c k) with hm
  have hmem : ∀ e ∈ m, e.1 ∈ valueSet data c ∧ e.2 = valueCount data c e.1 := by
    intro e he
    obtain ⟨k, hk, rfl⟩ := List.mem_map.1 he
    exact ⟨mem_sortedValues_iff_valueSet.1 hk, rfl⟩
  have hin : ∀ k ∈ valueSet data c, (k, valueCount data c k) ∈ m := fun k hk =>
    List.mem_map.2 ⟨k, mem_sortedValues_iff_valueSet.2 hk, rfl⟩
  have hsorted : KeysSorted m := by
    have : (sortedValues data c).Sorted (· < ·) := Finset.sort_sorted_lt _
    exact List.pairwise_map.2 this
  rcases foldl_majority m ("", 0) with ⟨hall, _⟩ | ⟨pre, x, post, hl, hfold, hpre, hpost, _⟩
  · obtain ⟨k, hk⟩ := valueSet_nonempty c hne
    have h1 := hall _ (hin k hk)
    have h2 := valueCount_pos hk
    simp only at h1
    omega
  · have hmaj : majorityClass m = x.1 := by simp only [majorityClass, hfold]
    have hx : x ∈ m := by rw [hl]; simp
    have hx2 : x.2 = valueCount data c x.1 := (hmem x hx).2
    rw [hmaj]
    have hle : ∀ k, valueCount data c k ≤ valueCount data c x.1 := by
      intro k
      by_cases hk : k ∈ valueSet data c
      · have hkm := hin k hk
        rw [hl] at hkm
        rw [← hx2]
        rcases List.mem_append.1 hkm with h | h
        · exact (hpre _ h).le
        · rcases List.mem_cons.1 h with h | h
          · rw [← h]
          · exact hpost _ h
      · rw [valueCount_eq_zero hk]
        exact Nat.zero_le _
    refine ⟨(hmem x hx).1, hle, ?_⟩
    intro k hk
    have hkpos : k ∈ valueSet data c := by
      by_contra hn
      have h0 := valueCount_eq_zero hn
      have h1 := valueCount_pos (hmem x hx).1
      omega
    have hkm := hin k hkpos
    rw [hl] at hkm hsorted
    rcases List.mem_append.1 hkm with h | h
    · have := hpre _ h
      simp only at this
      omega
    · rcases List.mem_cons.1 h with h | h
      · rw [← h]
      · have hp := (List.pairwise_append.1 hsorted).2.1
        exact le_of_lt ((List.pairwise_cons.1 hp).1 _ h)

end ID3

namespace ID3

/-! ## Unfolding `buildTree` -/

theorem mapUpdate_append_last {V : Type} (child : V) (k : String) :
    ∀ (m : List (String × V)), (∀ e ∈ m, e.1 < k) →
      mapUpdate (fun _ => child) k m = m ++ [(k, child)]
  | [], _ => rfl
  | (k', v) :: rest, h => by
    have hk : k' < k := h (k', v) (List.mem_cons_self _ _)
    simp only [mapUpdate, if_neg (not_lt.2 hk.le), if_pos hk, List.cons_append]
    rw [mapUpdate_append_last child k rest fun e he => h e (List.mem_cons_of_mem _ he)]

/-- The loop of `buildTree` over the splits: when every child is built, the
children map lists the split values in order, each with its child. -/
theorem foldlM_children (B : Data → Option TreeNode) (R : String → Data)
    (c : String → TreeNode) :
    ∀ (l : List String) (acc : List (String × TreeNode)), l.Sorted (· < ·) →
      (∀ e ∈ acc, ∀ k ∈ l, e.1 < k) → (∀ v ∈ l, B (R v) = some (c v)) →
      (l.map fun v => (v, R v)).foldlM
        (fun children split =>
          (B split.2).map fun child => mapUpdate (fun _ => child) split.1 children) acc
        = some (acc ++ l.map fun v => (v, c v))
  | [], acc, _, _, _ => by simp
  | v :: l, acc, hs, hacc, hB => by
    have hs' := List.sorted_cons.1 hs
    simp only [List.map_cons, List.foldlM_cons, hB v (List.mem_cons_self _ _), Option.map_some']
    rw [mapUpdate_append_last (c v) v acc fun e he => hacc e he v (List.mem_cons_self _ _)]
    show List.foldlM _ (acc ++ [(v, c v)]) _ = _
    rw [foldlM_children B R c l (acc ++ [(v, c v)]) hs'.2 ?_
      fun w hw => hB w (List.mem_cons_of_mem _ hw)]
    · simp
    · intro e he k hk
      rcases List.mem_append.1 he with he | he
      · exact hacc e he k (List.mem_cons_of_mem _ hk)
      · rw [List.mem_singleton.1 he]
        exact hs'.1 k hk

/-- The loop over the splits gives the same children for a builder that
extends the given one. -/
theorem foldlM_children_mono (B B' : Data → Option TreeNode)
    (hBB : ∀ d t, B d = some t → B' d = some t) :
    ∀ (l : List (String × Data)) (acc res : List (String × TreeNode)),
      l.foldlM (fun children split =>
        (B split.2).map fun child => mapUpdate (fun _ => child) split.1 children) acc
          = some res →
      l.foldlM (fun children split =>
        (B' split.2).map fun child => mapUpdate (fun _ => child) split.1 children) acc
          = some res
  | [], _, _, h => h
  | x :: l, acc, res, h => by
    simp only [List.foldlM_cons] at h ⊢
    cases hx : B x.2 with
    | none => simp [hx] at h
    | some t =>
      rw [hx] at h
      rw [hBB x.2 t hx]
      simp only [Option.map_some'] at h ⊢
      exact foldlM_children_mono B B' hBB l _ res h

theorem buildTree_succ (fuel : Nat) (data : Data) (cands : List Int) (c : Int) :
    buildTree (fuel + 1) data cands c =
      (data[0]?).bind fun row0 =>
      (rowAt row0 c).bind fun firstClass =>
      (allSameClass data c firstClass).bind fun same =>
      if same then some (TreeNode.mk "" firstClass [])
      else if cands.isEmpty then
        (classCounts data c).map fun counts => TreeNode.mk "" (majorityClass counts) []
      else
        (selectBestAttribute data cands c).bind fun bestAttributeIndex =>
        (splitRows data bestAttributeIndex).bind fun splits =>
        (splits.foldlM
          (fun children split =>
            (buildTree fuel split.2 (cands.filter fun a => a ≠ bestAttributeIndex) c).map
              fun child => mapUpdate (fun _ => child) split.1 children)
          []).map fun children =>
        TreeNode.mk (to_string bestAttributeIndex) "" children := by
  rw [buildTree]

/-- More fuel does not change a tree that was built. -/
theorem buildTree_mono_succ (c : Int) :
    ∀ (fuel : Nat) (data : Data) (cands : List Int) (t : TreeNode),
      buildTree fuel data cands c = some t → buildTree (fuel + 1) data cands c = some t
  | 0, _, _, _, h => by simp [buildTree] at h
  | fuel + 1, data, cands, t, h => by
    rw [buildTree_succ] at h ⊢
    cases h0 : data[0]? with
    | none => simp [h0] at h
    | some row0 =>
      simp only [h0, Option.some_bind] at h ⊢
      cases h1 : rowAt row0 c with
      | none => simp [h1] at h
      | some firstClass =>
        simp only [h1, Option.some_bind] at h ⊢
        cases h2 : allSameClass data c firstClass with
        | none => simp [h2] at h
        | some same =>
          simp only [h2, Option.some_bind] at h ⊢
          by_cases hsame : same = true
          · simpa [hsame] using h
          · simp only [hsame, Bool.false_eq_true, if_false] at h ⊢
            by_cases hemp : cands.isEmpty = true
            · simpa [hemp] using h
            · simp only [hemp, Bool.false_eq_true, if_false] at h ⊢
              cases h3 : selectBestAttribute data cands c with
              | none => simp [h3] at h
              | some b =>
                simp only [h3, Option.some_bind] at h ⊢
                cases h4 : splitRows data b with
                | none => simp [h4] at h
                | some splits =>
                  simp only [h4, Option.some_bind] at h ⊢
                  rw [Option.map_eq_some'] at h ⊢
                  obtain ⟨children, hch, ht⟩ := h
                  exact ⟨children, foldlM_children_mono _ _
                    (fun d t' hd => buildTree_mono_succ c fuel d _ t' hd) splits [] children hch,
                    ht⟩

theorem buildTree_mono (c : Int) {fuel fuel' : Nat} (hle : fuel ≤ fuel') {data : Data}
    {cands : List Int} {t : TreeNode} (h : buildTree fuel data cands c = some t) :
    buildTree fuel' data cands c = some t := by
  induction hle with
  | refl => exact h
  | step _ ih => exact buildTree_mono_succ c _ data cands t ih

/-- Pure node: all rows carry the class label `L`. -/
theorem buildTree_succ_pure (fuel : Nat) {data : Data} (cands : List Int) {c : Int} {L : String}
    (hne : data ≠ []) (hall : ∀ row ∈ data, rowAt row c = some L) :
    buildTree (fuel + 1) data cands c = some (TreeNode.mk "" L []) := by
  obtain ⟨row0, rest, rfl⟩ := List.exists_cons_of_ne_nil hne
  rw [buildTree_succ]
  simp [hall row0 (List.mem_cons_self _ _), allSameClass_eq_true _ hall]

theorem exists_ne_first {c : Int} {row0 : Row} {rest : Data}
    (hmixed : ∃ r₁ ∈ row0 :: rest, ∃ r₂ ∈ row0 :: rest, valueAt c r₁ ≠ valueAt c r₂) :
    ∃ row ∈ row0 :: rest, valueAt c row ≠ valueAt c row0 := by
  obtain ⟨r₁, h₁, r₂, h₂, hne⟩ := hmixed
  by_cases h : valueAt c r₁ = valueAt c row0
  · exact ⟨r₂, h₂, fun h' => hne (h.trans h'.symm)⟩
  · exact ⟨r₁, h₁, h⟩

/-- Attributes exhausted: a mixed data set and no candidate. -/
theorem buildTree_succ_exhausted (fuel : Nat) {data : Data} {c : Int} (hc : InRange data c)
    (hmixed : ∃ r₁ ∈ data, ∃ r₂ ∈ data, valueAt c r₁ ≠ valueAt c r₂) :
    buildTree (fuel + 1) data [] c = some (TreeNode.mk ""
      (majorityClass ((sortedValues data c).map fun k => (k, valueCount data c k))) []) := by
  obtain ⟨r₁, h₁, _⟩ := id hmixed
  obtain ⟨row0, rest, rfl⟩ := List.exists_cons_of_ne_nil (List.ne_nil_of_mem h₁)
  have h0 := hc row0 (List.mem_cons_self _ _)
  rw [buildTree_succ]
  simp [rowAt_eq_some h0.1 h0.2, allSameClass_eq_false _ hc (exists_ne_first hmixed),
    classCounts_eq hc]

/-- General case: a mixed data set, candidates left, all children built. -/
theorem buildTree_succ_general (fuel : Nat) {data : Data} {cands : List Int} {c b : Int}
    (hc : InRange data c)
    (hmixed : ∃ r₁ ∈ data, ∃ r₂ ∈ data, valueAt c r₁ ≠ valueAt c r₂) (hcands : cands ≠ [])
    (hb : selectBestAttribute data cands c = some b) (hbr : InRange data b)
    (child : String → TreeNode)
    (hch : ∀ v ∈ sortedValues data b,
      buildTree fuel (rowsWith data b v) (cands.filter fun a => a ≠ b) c = some (child v)) :
    buildTree (fuel + 1) data cands c = some (TreeNode.mk (to_string b) ""
      ((sortedValues data b).map fun v => (v, child v))) := by
  obtain ⟨r₁, h₁, _⟩ := id hmixed
  obtain ⟨row0, rest, rfl⟩ := List.exists_cons_of_ne_nil (List.ne_nil_of_mem h₁)
  have h0 := hc row0 (List.mem_cons_self _ _)
  have hfold := foldlM_children
    (fun d => buildTree fuel d (cands.filter fun a => a ≠ b) c)
    (fun v => rowsWith (row0 :: rest) b v) child (sortedValues (row0 :: rest) b) []
    (Finset.sort_sorted_lt _) (by simp) hch
  rw [buildTree_succ]
  simp only [List.getElem?_cons_zero, Option.some_bind, rowAt_eq_some h0.1 h0.2,
    allSameClass_eq_false _ hc (exists_ne_first hmixed), Bool.false_eq_true, if_false,
    List.isEmpty_eq_true, hcands, hb, splitRows_eq hbr]
  rw [hfold]
  simp

end ID3

namespace ID3

/-! ## `to_string` and `stoi` are inverse on indices -/

theorem digit_facts (d : Nat) (h : d < 10) :
    (Char.ofNat (48 + d)).isDigit = true ∧ (Char.ofNat (48 + d)).toNat - 48 = d ∧
      isSpace (Char.ofNat (48 + d)) = false ∧ Char.ofNat (48 + d) ≠ '-' ∧
      Char.ofNat (48 + d) ≠ '+' := by
  interval_cases d <;> decide

theorem digitsValue_append (l : List Char) (ch : Char) :
    digitsValue (l ++ [ch]) = 10 * digitsValue l + (ch.toNat - 48) := by
  simp [digitsValue, List.foldl_append]

/-- The digits produced for `n` are decimal digits, there is at least one,
the first is neither white space nor a sign, and their value is `n`. -/
theorem natDigits_spec :
    ∀ (fuel n : Nat), n < fuel →
      (∀ ch ∈ natDigits fuel n, ch.isDigit = true) ∧
      digitsValue (natDigits fuel n) = n ∧
      ∃ ch rest, natDigits fuel n = ch :: rest ∧ isSpace ch = false ∧ ch ≠ '-' ∧ ch ≠ '+'
  | 0, _, h => absurd h (Nat.not_lt_zero _)
  | fuel + 1, n, h => by
    by_cases hn : n < 10
    · have hd := digit_facts n hn
      simp only [natDigits, if_pos hn]
      refine ⟨?_, ?_, _, [], rfl, hd.2.2.1, hd.2.2.2.1, hd.2.2.2.2⟩
      · intro ch hch
        rw [List.mem_singleton.1 hch]
        exact hd.1
      · simp [digitsValue, hd.2.1]
    · have hlt : n / 10 < fuel := by omega
      have hd := digit_facts (n % 10) (Nat.mod_lt _ (by norm_num))
      obtain ⟨h1, h2, ch, rest, h3, h4⟩ := natDigits_spec fuel (n / 10) hlt
      simp only [natDigits, if_neg hn]
      refine ⟨?_, ?_, ch, rest ++ [Char.ofNat (48 + n % 10)], by rw [h3]; rfl, h4⟩
      · intro c hc
        rcases List.mem_append.1 hc with hc | hc
        · exact h1 c hc
        · rw [List.mem_singleton.1 hc]
          exact hd.1
      · rw [digitsValue_append, h2, hd.2.1]
        omega

theorem takeWhile_eq_self {l : List Char} (h : ∀ ch ∈ l, ch.isDigit = true) :
    l.takeWhile Char.isDigit = l := by
  rw [List.takeWhile_eq_self_iff]
  exact h

theorem stoi_to_string (n : Int) : stoi (to_string n) = some n := by
  obtain ⟨h1, h2, ch, rest, h3, h4, h5, h6⟩ := natDigits_spec (n.natAbs + 1) n.natAbs (by omega)
  have h1' : ∀ c ∈ ch :: rest, c.isDigit = true := by rw [← h3]; exact h1
  by_cases hneg : n < 0
  · have hds : List.takeWhile Char.isDigit (ch :: rest) = ch :: rest := takeWhile_eq_self h1'
    have hsp : isSpace '-' = false := by decide
    simp only [to_string, if_pos hneg, stoi, h3, List.dropWhile_cons, hsp, Bool.false_eq_true,
      if_false, if_true, hds]
    simp only [← h3, h2]
    have hne : natDigits (n.natAbs + 1) n.natAbs ≠ [] := by rw [h3]; simp
    rw [if_neg hne]
    congr 1
    omega
  · have hds : List.takeWhile Char.isDigit (ch :: rest) = ch :: rest := takeWhile_eq_self h1'
    simp only [to_string, if_neg hneg, stoi, h3, List.dropWhile_cons, h4, Bool.false_eq_true,
      if_false, if_neg h5, if_neg h6, hds]
    simp only [← h3, h2]
    have hne : natDigits (n.natAbs + 1) n.natAbs ≠ [] := by rw [h3]; simp
    rw [if_neg hne]
    congr 1
    omega

theorem to_string_ne_empty (n : Int) : to_string n ≠ "" := by
  intro h
  have h1 := stoi_to_string n
  rw [h] at h1
  have h2 : stoi "" = none := by decide
  rw [h2] at h1
  exact absurd h1 (by simp)

/-! ## The descent loop of `evaluateTree` -/

theorem descendChild_eq (v : String) (row : Row) :
    ∀ (cs : List (String × TreeNode)),
      descendChild cs v row = (mapFind v cs).map fun child => descend child row
  | [] => by simp [descendChild, mapFind]
  | (k, child) :: rest => by
    by_cases hk : k = v
    · simp [descendChild, mapFind, hk]
    · simp [descendChild, mapFind, hk, descendChild_eq v row rest]

theorem descend_leaf (d : String) (cs : List (String × TreeNode)) (row : Row) :
    descend (TreeNode.mk "" d cs) row = some (TreeNode.mk "" d cs) := by
  simp [descend]

theorem descend_node {a : String} (d : String) (cs : List (String × TreeNode)) (row : Row)
    (ha : a ≠ "") {i : Int} {v : String} (hi : stoi a = some i) (hv : rowAt row i = some v) :
    descend (TreeNode.mk a d cs) row =
      match mapFind v cs with
      | some child => descend child row
      | none => some (TreeNode.mk a d cs) := by
  rw [descend]
  simp only [ha, if_false, hi, hv, Option.some_bind, descendChild_eq]
  cases mapFind v cs <;> rfl

theorem descend_of_terminal {t t' : TreeNode} {row : Row} (h : Terminal t row t') :
    descend t row = some t' := by
  induction h with
  | leaf d cs row => exact descend_leaf d cs row
  | missing a d cs row i v ha hi hv hf =>
    rw [descend_node d cs row ha hi hv, hf]
  | child a d cs row i v c t ha hi hv hf _ ih =>
    rw [descend_node d cs row ha hi hv, hf]
    exact ih

mutual
/-- On a tree whose split attributes are positions of every row, each row
has a terminal node. -/
theorem terminal_exists : ∀ (t : TreeNode) (data : Data) (row : Row),
    treeInRange t data = true → row ∈ data → ∃ t', Terminal t row t'
  | TreeNode.mk a d cs, data, row, h, hr => by
    by_cases ha : a = ""
    · subst ha
      exact ⟨_, Terminal.leaf d cs row⟩
    · simp only [treeInRange, ha, decide_False, Bool.false_or, Bool.and_eq_true] at h
      obtain ⟨h1, h2⟩ := h
      cases hi : stoi a with
      | none => simp [hi] at h1
      | some i =>
        simp only [hi, decide_eq_true_eq] at h1
        have hv := rowAt_eq_some (h1 row hr).1 (h1 row hr).2
        cases hf : mapFind (valueAt i row) cs with
        | none => exact ⟨_, Terminal.missing a d cs row i _ ha hi hv hf⟩
        | some c =>
          obtain ⟨t', ht'⟩ := terminal_exists_child cs data row (valueAt i row) c h2 hr hf
          exact ⟨t', Terminal.child a d cs row i _ c t' ha hi hv hf ht'⟩
/-- The same for the child found under a key. -/
theorem terminal_exists_child : ∀ (cs : List (String × TreeNode)) (data : Data) (row : Row)
    (v : String) (c : TreeNode),
    childrenInRange cs data = true → row ∈ data → mapFind v cs = some c → ∃ t', Terminal c row t'
  | [], _, _, _, _, _, _, hf => by simp [mapFind] at hf
  | (k, child) :: rest, data, row, v, c, h, hr, hf => by
    simp only [childrenInRange, Bool.and_eq_true] at h
    by_cases hk : k = v
    · simp only [mapFind, hk, if_true, Option.some.injEq] at hf
      subst hf
      exact terminal_exists child data row h.1 hr
    · simp only [mapFind, hk, if_false] at hf
      exact terminal_exists_child rest data row v c h.2 hr hf
end

/-- The counting loop of `evaluateTree` when every row has a terminal node
and a class value. -/
theorem foldlM_countCorrect (node : TreeNode) (c : Int) (term : Row → TreeNode) :
    ∀ (data : Data) (init : Nat),
      (∀ row ∈ data, descend node row = some (term row)) → InRange data c →
      data.foldlM
        (fun correct inst =>
          (descend node inst).bind fun current =>
          (rowAt inst c).map fun actual =>
            if current.decision = actual then correct + 1 else correct) init
        = some (init + data.countP fun row => decide (some (term row).decision = rowAt row c))
  | [], init, _, _ => by simp
  | row :: data, init, h, hc => by
    obtain ⟨⟨h0, h1⟩, hc'⟩ := InRange.cons_iff.1 hc
    simp only [List.foldlM_cons, h row (List.mem_cons_self _ _), Option.some_bind,
      rowAt_eq_some h0 h1, Option.map_some']
    show List.foldlM _ _ data = _
    rw [foldlM_countCorrect node c term data _
      (fun r hr => h r (List.mem_cons_of_mem _ hr)) hc']
    by_cases hd : (term row).decision = valueAt c row
    · simp [hd, List.countP_cons, rowAt_eq_some h0 h1, Nat.add_assoc, Nat.add_comm]
    · simp [hd, List.countP_cons, rowAt_eq_some h0 h1]

end ID3

namespace ID3

/-! ## Induction along the construction of the tree -/

theorem pure_or_mixed {data : Data} {c : Int} (hne : data ≠ []) (hc : InRange data c) :
    (∃ L, ∀ row ∈ data, rowAt row c = some L) ∨
      ∃ r₁ ∈ data, ∃ r₂ ∈ data, valueAt c r₁ ≠ valueAt c r₂ := by
  by_cases hm : ∃ r₁ ∈ data, ∃ r₂ ∈ data, valueAt c r₁ ≠ valueAt c r₂
  · exact Or.inr hm
  · left
    obtain ⟨row0, h0⟩ := List.exists_mem_of_ne_nil data hne
    refine ⟨valueAt c row0, fun row hrow => ?_⟩
    rw [rowAt_eq_some (hc row hrow).1 (hc row hrow).2]
    by_contra hne'
    exact hm ⟨row, hrow, row0, h0, fun h => hne' (by rw [h])⟩

theorem filter_ne_length_lt {cands : List Int} {b : Int} (h : b ∈ cands) :
    (cands.filter fun a => a ≠ b).length < cands.length := by
  rw [List.length_filter_lt_length_iff_exists]
  exact ⟨b, h, by simp⟩

theorem mapFind_map_keys {V : Type} (f : String → V) (v : String) :
    ∀ (l : List String),
      mapFind v (l.map fun k => (k, f k)) = if v ∈ l then some (f v) else none
  | [] => by simp [mapFind]
  | k :: l => by
    by_cases hk : k = v
    · simp [mapFind, hk]
    · have hk' : ¬ (v = k) := fun h => hk h.symm
      simp [mapFind, hk, hk', mapFind_map_keys f v l]

theorem rowsWith_eq_filter_rowAt {data : Data} {i : Int} (h : InRange data i) (v : String) :
    (data.filter fun row => rowAt row i = some v) = rowsWith data i v := by
  rw [rowsWith]
  refine List.filter_congr fun row hrow => ?_
  rw [rowAt_eq_some (h row hrow).1 (h row hrow).2]
  simp

/-- Induction principle for `buildTree`: on valid input and with fuel
exceeding the number of candidates the tree is built, and it has every
property that holds for the two kinds of leaves and is inherited by a split
node from its children. -/
theorem buildTree_induction (c : Int) (P : Data → List Int → TreeNode → Prop)
    (hpure : ∀ (data : Data) (cands : List Int) (L : String), data ≠ [] →
      (∀ row ∈ data, rowAt row c = some L) → P data cands (TreeNode.mk "" L []))
    (hexh : ∀ (data : Data), InRange data c →
      (∃ r₁ ∈ data, ∃ r₂ ∈ data, valueAt c r₁ ≠ valueAt c r₂) →
      P data [] (TreeNode.mk ""
        (majorityClass ((sortedValues data c).map fun k => (k, valueCount data c k))) []))
    (hgen : ∀ (data : Data) (cands : List Int) (b : Int) (child : String → TreeNode),
      data ≠ [] → InRange data c → (∀ a ∈ cands, InRange data a) →
      (∃ r₁ ∈ data, ∃ r₂ ∈ data, valueAt c r₁ ≠ valueAt c r₂) →
      selectBestAttribute data cands c = some b → b ∈ cands →
      (∀ v ∈ sortedValues data b, ∃ fuel,
        buildTree fuel (rowsWith data b v) (cands.filter fun a => a ≠ b) c = some (child v)) →
      (∀ v ∈ sortedValues data b,
        P (rowsWith data b v) (cands.filter fun a => a ≠ b) (child v)) →
      P data cands (TreeNode.mk (to_string b) ""
        ((sortedValues data b).map fun v => (v, child v)))) :
    ∀ (fuel : Nat) (data : Data) (cands : List Int), data ≠ [] → InRange data c →
      (∀ a ∈ cands, InRange data a) → cands.length < fuel →
      ∃ t, buildTree fuel data cands c = some t ∧ P data cands t
  | 0, _, _, _, _, _, h => absurd h (Nat.not_lt_zero _)
  | fuel + 1, data, cands, hne, hc, hr, hfuel => by
    rcases pure_or_mixed hne hc with ⟨L, hL⟩ | hmixed
    · exact ⟨_, buildTree_succ_pure fuel cands hne hL, hpure data cands L hne hL⟩
    · by_cases hcands : cands = []
      · subst hcands
        exact ⟨_, buildTree_succ_exhausted fuel hc hmixed, hexh data hc hmixed⟩
      · obtain ⟨b, pre, post, hsel, hl, _, _⟩ := selectBestAttribute_spec hne hcands hr hc
        have hb : b ∈ cands := by rw [hl]; simp
        have hbr : InRange data b := hr b hb
        have hlen : (cands.filter fun a => a ≠ b).length < fuel := by
          have := filter_ne_length_lt hb
          omega
        have hex : ∀ v, ∃ t, v ∈ sortedValues data b →
            (buildTree fuel (rowsWith data b v) (cands.filter fun a => a ≠ b) c = some t ∧
              P (rowsWith data b v) (cands.filter fun a => a ≠ b) t) := by
          intro v
          by_cases hv : v ∈ sortedValues data b
          · obtain ⟨t, ht⟩ := buildTree_induction c P hpure hexh hgen fuel (rowsWith data b v)
              (cands.filter fun a => a ≠ b) (rowsWith_ne_nil_iff.2 hv) (hc.filter _)
              (fun a ha => (hr a (List.mem_filter.1 ha).1).filter _) hlen
            exact ⟨t, fun _ => ht⟩
          · exact ⟨TreeNode.mk "" "" [], fun h => absurd h hv⟩
        choose child hchild using hex
        refine ⟨_, buildTree_succ_general fuel hc hmixed hcands hsel hbr child
          (fun v hv => (hchild v hv).1), ?_⟩
        exact hgen data cands b child hne hc hr hmixed hsel hb
          (fun v hv => ⟨fuel, (hchild v hv).1⟩) (fun v hv => (hchild v hv).2)

/-- On valid input `buildTree` returns a tree as soon as the fuel exceeds the
number of candidates. -/
theorem buildTree_total (c : Int) (fuel : Nat) (data : Data) (cands : List Int)
    (hne : data ≠ []) (hc : InRange data c) (hr : ∀ a ∈ cands, InRange data a)
    (hfuel : cands.length < fuel) : ∃ t, buildTree fuel data cands c = some t := by
  obtain ⟨t, ht, _⟩ := buildTree_induction c (fun _ _ _ => True)
    (fun _ _ _ _ _ => trivial) (fun _ _ _ => trivial)
    (fun _ _ _ _ _ _ _ _ _ _ _ _ => trivial) fuel data cands hne hc hr hfuel
  exact ⟨t, ht⟩

theorem buildTree_unique (c : Int) {f₁ f₂ : Nat} {data : Data} {cands : List Int}
    {t₁ t₂ : TreeNode} (h₁ : buildTree f₁ data cands c = some t₁)
    (h₂ : buildTree f₂ data cands c = some t₂) : t₁ = t₂ := by
  have e₁ := buildTree_mono c (le_max_left f₁ f₂) h₁
  have e₂ := buildTree_mono c (le_max_right f₁ f₂) h₂
  rw [e₁] at e₂
  exact Option.some.inj e₂

/-- A tree built with some fuel is the tree built with any fuel exceeding the
number of candidates. -/
theorem buildTree_of_exists (c : Int) {data : Data} {cands : List Int} {t : TreeNode}
    (hne : data ≠ []) (hc : InRange data c) (hr : ∀ a ∈ cands, InRange data a)
    (h : ∃ fuel, buildTree fuel data cands c = some t) (fuel : Nat)
    (hfuel : cands.length < fuel) : buildTree fuel data cands c = some t := by
  obtain ⟨f, hf⟩ := h
  obtain ⟨t', ht'⟩ := buildTree_total c fuel data cands hne hc hr hfuel
  rw [ht', buildTree_unique c ht' hf]

end ID3

namespace ID3

/-! ## Accuracy, height and leaves -/

/-- The accuracy computed by `evaluateTree` when every row has a terminal
node and a class value. -/
theorem evaluateTree_eq (node : TreeNode) {data : Data} {c : Int} (term : Row → TreeNode)
    (hne : data ≠ []) (hterm : ∀ row ∈ data, descend node row = some (term row))
    (hc : InRange data c) :
    evaluateTree node data c = some
      (((data.countP fun row => decide (some (term row).decision = rowAt row c) : Nat) : ℚ) /
        (data.length : ℚ)) := by
  have hlen : data.length ≠ 0 := fun h => hne (List.length_eq_zero.1 h)
  simp only [evaluateTree, countCorrect, foldlM_countCorrect node c term data 0 hterm hc,
    Option.some_bind, hlen, if_false, zero_add]

theorem accuracy_bounds (data : Data) (p : Row → Bool) :
    (0 : ℚ) ≤ ((data.countP p : Nat) : ℚ) / (data.length : ℚ) ∧
      ((data.countP p : Nat) : ℚ) / (data.length : ℚ) ≤ 1 := by
  constructor
  · positivity
  · apply div_le_one_of_le₀
    · exact_mod_cast List.countP_le_length p
    · positivity

theorem heightChildren_map_le (f : String → TreeNode) (n : Nat) :
    ∀ (l : List String), (∀ v ∈ l, height (f v) ≤ n) →
      heightChildren (l.map fun v => (v, f v)) ≤ n
  | [], _ => by simp [heightChildren]
  | v :: l, h => by
    simp only [List.map_cons, heightChildren]
    exact max_le (h v (List.mem_cons_self _ _))
      (heightChildren_map_le f n l fun w hw => h w (List.mem_cons_of_mem _ hw))

theorem height_leaf (d : String) (cs : List (String × TreeNode)) :
    height (TreeNode.mk "" d cs) = 0 := by
  simp [height]

theorem height_node {a : String} (ha : a ≠ "") (d : String) (cs : List (String × TreeNode)) :
    height (TreeNode.mk a d cs) = 1 + heightChildren cs := by
  simp [height, ha]

theorem nodeAt_leaf {d : String} {cs : List (String × TreeNode)} {path : List String}
    {leaf : TreeNode} (h : nodeAt (TreeNode.mk "" d cs) path = some leaf) :
    path = [] ∧ leaf = TreeNode.mk "" d cs := by
  cases path with
  | nil =>
    simp only [nodeAt, Option.some.injEq] at h
    exact ⟨rfl, h.symm⟩
  | cons v p => simp [nodeAt] at h

theorem valueCount_congr_perm {data data' : Data} (h : data'.Perm data) (i : Int) (k : String) :
    valueCount data' i k = valueCount data i k :=
  List.Perm.countP_eq _ h

theorem sortedValues_congr_perm {data data' : Data} (h : data'.Perm data) (i : Int) :
    sortedValues data' i = sortedValues data i := by
  simp only [sortedValues]
  rw [List.toFinset_eq_of_perm _ _ (h.map _)]

theorem mem_valueSet_iff_rowAt {data : Data} {i : Int} (h : InRange data i) (v : String) :
    v ∈ valueSet data i ↔ ∃ row ∈ data, rowAt row i = some v := by
  rw [mem_valueSet]
  constructor
  · rintro ⟨row, hrow, rfl⟩
    exact ⟨row, hrow, rowAt_eq_some (h row hrow).1 (h row hrow).2⟩
  · rintro ⟨row, hrow, hv⟩
    exact ⟨row, hrow, (rowAt_eq_some_iff.1 hv).2⟩

theorem mixed_iff_rowAt {data : Data} {c : Int} (hc : InRange data c) :
    (∃ r₁ ∈ data, ∃ r₂ ∈ data, valueAt c r₁ ≠ valueAt c r₂) ↔
      ∃ r₁ ∈ data, ∃ r₂ ∈ data, rowAt r₁ c ≠ rowAt r₂ c := by
  constructor
  · rintro ⟨r₁, h₁, r₂, h₂, hne⟩
    refine ⟨r₁, h₁, r₂, h₂, ?_⟩
    rw [rowAt_eq_some (hc r₁ h₁).1 (hc r₁ h₁).2, rowAt_eq_some (hc r₂ h₂).1 (hc r₂ h₂).2]
    exact fun h => hne (Option.some.inj h)
  · rintro ⟨r₁, h₁, r₂, h₂, hne⟩
    refine ⟨r₁, h₁, r₂, h₂, fun h => hne ?_⟩
    rw [rowAt_eq_some (hc r₁ h₁).1 (hc r₁ h₁).2, rowAt_eq_some (hc r₂ h₂).1 (hc r₂ h₂).2, h]

/-- The two cases of a tree built from a mixed data set with candidates
left: the node, its children and how each child is built. -/
theorem buildTree_general (c : Int) (fuel : Nat) {data : Data} {cands : List Int}
    (hne : data ≠ []) (hc : InRange data c) (hr : ∀ a ∈ cands, InRange data a)
    (hmixed : ∃ r₁ ∈ data, ∃ r₂ ∈ data, valueAt c r₁ ≠ valueAt c r₂) (hcands : cands ≠ [])
    (hfuel : cands.length < fuel) :
    ∃ (b : Int) (child : String → TreeNode),
      selectBestAttribute data cands c = some b ∧ b ∈ cands ∧
      buildTree fuel data cands c = some (TreeNode.mk (to_string b) ""
        ((sortedValues data b).map fun v => (v, child v))) ∧
      ∀ v ∈ sortedValues data b, ∀ fuel', (cands.filter fun a => a ≠ b).length < fuel' →
        buildTree fuel' (rowsWith data b v) (cands.filter fun a => a ≠ b) c = some (child v) := by
  obtain ⟨b, pre, post, hsel, hl, _, _⟩ := selectBestAttribute_spec hne hcands hr hc
  have hb : b ∈ cands := by rw [hl]; simp
  have hbr : InRange data b := hr b hb
  have hex : ∀ v, ∃ t, v ∈ sortedValues data b → ∀ fuel',
      (cands.filter fun a => a ≠ b).length < fuel' →
      buildTree fuel' (rowsWith data b v) (cands.filter fun a => a ≠ b) c = some t := by
    intro v
    by_cases hv : v ∈ sortedValues data b
    · have hne' := rowsWith_ne_nil_iff.2 hv
      have hr' : ∀ a ∈ cands.filter fun a => a ≠ b, InRange (rowsWith data b v) a :=
        fun a ha => (hr a (List.mem_filter.1 ha).1).filter _
      obtain ⟨t, ht⟩ := buildTree_total c _ (rowsWith data b v) (cands.filter fun a => a ≠ b)
        hne' (hc.filter _) hr' (Nat.lt_succ_self _)
      exact ⟨t, fun _ fuel' hf => buildTree_of_exists c hne' (hc.filter _) hr' ⟨_, ht⟩ fuel' hf⟩
    · exact ⟨TreeNode.mk "" "" [], fun h => absurd h hv⟩
  choose child hchild using hex
  refine ⟨b, child, hsel, hb, ?_, hchild⟩
  obtain ⟨f, rfl⟩ : ∃ f, fuel = f + 1 := ⟨fuel - 1, by omega⟩
  have hlen := filter_ne_length_lt hb
  exact buildTree_succ_general f hc hmixed hcands hsel hbr child
    fun v hv => hchild v hv f (by omega)

end ID3

namespace ID3

/-! ## Terminal nodes in built trees -/

theorem terminal_leaf_inv {d : String} {cs : List (String × TreeNode)} {row : Row}
    {n : TreeNode} (h : Terminal (TreeNode.mk "" d cs) row n) : n = TreeNode.mk "" d cs := by
  cases h with
  | leaf => rfl
  | missing _ _ _ _ i v ha => exact absurd rfl ha
  | child _ _ _ _ i v c _ ha => exact absurd rfl ha

theorem terminal_node_inv {a d : String} {cs : List (String × TreeNode)} {row : Row}
    {n : TreeNode} (ha : a ≠ "") (h : Terminal (TreeNode.mk a d cs) row n) :
    (n = TreeNode.mk a d cs ∧
      ∃ i v, stoi a = some i ∧ rowAt row i = some v ∧ mapFind v cs = none) ∨
    ∃ i v c, stoi a = some i ∧ rowAt row i = some v ∧ mapFind v cs = some c ∧
      Terminal c row n := by
  cases h with
  | leaf => exact absurd rfl ha
  | missing _ _ _ _ i v _ hi hv hf => exact Or.inl ⟨rfl, i, v, hi, hv, hf⟩
  | child _ _ _ _ i v c _ _ hi hv hf ht => exact Or.inr ⟨i, v, c, hi, hv, hf, ht⟩

/-- Computing the sorted list of distinct values of a concrete data set. -/
theorem sortedValues_eq {data : Data} {i : Int} {l : List String} (hs : l.Sorted (· < ·))
    (hm : ∀ v, v ∈ l ↔ v ∈ valueSet data i) : sortedValues data i = l := by
  have s2 : (sortedValues data i).Sorted (· < ·) := Finset.sort_sorted_lt _
  refine List.eq_of_perm_of_sorted ?_ s2.le_of_lt hs.le_of_lt
  refine (List.perm_ext_iff_of_nodup s2.nodup hs.nodup).2 fun v => ?_
  rw [hm v, mem_sortedValues_iff_valueSet]

/-- In a built tree a node with a split attribute has the empty decision, and
the descent stops at such a node only for a value that is not a key. -/
theorem buildTree_internal (c : Int) (fuel : Nat) (data : Data) (cands : List Int)
    (hne : data ≠ []) (hc : InRange data c) (hr : ∀ a ∈ cands, InRange data a)
    (hfuel : cands.length < fuel) :
    ∃ t, buildTree fuel data cands c = some t ∧
      ∀ (row : Row) (n : TreeNode), Terminal t row n → n.attr ≠ "" →
        n.decision = "" ∧
        ∃ i v, stoi n.attr = some i ∧ rowAt row i = some v ∧ mapFind v n.children = none := by
  refine buildTree_induction c
    (fun _ _ t => ∀ (row : Row) (n : TreeNode), Terminal t row n → n.attr ≠ "" →
      n.decision = "" ∧
      ∃ i v, stoi n.attr = some i ∧ rowAt row i = some v ∧ mapFind v n.children = none)
    ?_ ?_ ?_ fuel data cands hne hc hr hfuel
  · intro _ _ L _ _ row n ht hattr
    rw [terminal_leaf_inv ht] at hattr
    exact absurd rfl hattr
  · intro _ _ _ row n ht hattr
    rw [terminal_leaf_inv ht] at hattr
    exact absurd rfl hattr
  · intro d cands b child _ _ _ _ _ _ _ hP row n ht hattr
    rcases terminal_node_inv (to_string_ne_empty b) ht with ⟨rfl, i, v, hi, hv, hf⟩ |
      ⟨i, v, ch, _, _, hf, hterm⟩
    · exact ⟨rfl, i, v, hi, hv, hf⟩
    · rw [mapFind_map_keys] at hf
      by_cases hmem : v ∈ sortedValues d b
      · rw [if_pos hmem] at hf
        rw [← Option.some.inj hf] at hterm
        exact hP v hmem row n hterm hattr
      · rw [if_neg hmem] at hf
        exact absurd hf (by simp)

/-- The count of `evaluateTree` for a single row. -/
theorem countCorrect_single (t n : TreeNode) (row : Row) (c : Int) (cls : String)
    (hd : descend t row = some n) (hcls : rowAt row c = some cls) :
    countCorrect t [row] c = some (if n.decision = cls then 1 else 0) := by
  simp [countCorrect, hd, hcls]

theorem evaluateTree_single (t n : TreeNode) (row : Row) (c : Int) (cls : String)
    (hd : descend t row = some n) (hcls : rowAt row c = some cls) :
    evaluateTree t [row] c = some (if n.decision = cls then 1 else 0) := by
  simp only [evaluateTree, countCorrect_single t n row c cls hd hcls, Option.some_bind,
    List.length_singleton, one_ne_zero, if_false, Nat.cast_one, div_one]
  by_cases h : n.decision = cls <;> simp [h]

/-- With a single candidate the selection returns it. -/
theorem selectBestAttribute_single {data : Data} {a c : Int} (hne : data ≠ [])
    (ha : InRange data a) (hc : InRange data c) : selectBestAttribute data [a] c = some a := by
  obtain ⟨best, pre, post, hsel, hl, _, _⟩ :=
    selectBestAttribute_spec hne (by simp : [a] ≠ []) (fun x hx => by
      rw [List.mem_singleton.1 hx]; exact ha) hc
  have hmem : best ∈ [a] := by rw [hl]; simp
  rw [hsel, List.mem_singleton.1 hmem]

/-- The tree built from the two rows `(a, x)` and `(b, y)`. -/
theorem buildTree_two_rows :
    buildTree 2 [["a", "x"], ["b", "y"]] [0] 1
      = some (TreeNode.mk "0" "" [("a", TreeNode.mk "" "x" []), ("b", TreeNode.mk "" "y" [])]) := by
  have hsv : sortedValues [["a", "x"], ["b", "y"]] 0 = ["a", "b"] := by
    apply sortedValues_eq
    · simp +decide
    · intro v
      simp [valueSet, valueAt, rowAt]
  have h := @buildTree_succ_general 1 [["a", "x"], ["b", "y"]] [0] 1 0 (by decide) ⟨["a", "x"], by simp, ["b", "y"], by simp, by decide⟩ (by simp)
    (selectBestAttribute_single (by simp) (by decide) (by decide)) (by decide)
    (fun v => if v = "a" then TreeNode.mk "" "x" [] else TreeNode.mk "" "y" [])
    (by
      rw [hsv]
      intro v hv
      simp only [List.mem_cons, List.mem_singleton, List.not_mem_nil, or_false] at hv
      rcases hv with rfl | rfl
      · exact buildTree_succ_pure 0 _ (by decide) (by decide)
      · exact buildTree_succ_pure 0 _ (by decide) (by decide))
  rw [h, hsv]
  rfl

end ID3

namespace ID3

/-! ## The loader -/

/-- One line of the file keeps the attributes read so far, and every row
accepted has as many values as there are attributes at that moment. -/
theorem readLine_rows_le (st : LoaderState) (rawLine : String)
    (h : ∀ row ∈ st.data, row.length ≤ st.attributes.length) :
    ∀ row ∈ (readLine st rawLine).data, row.length ≤ (readLine st rawLine).attributes.length := by
  unfold readLine
  simp only
  split_ifs with h1 h2 h3 h4 h5
  · exact h
  · intro row hrow
    have := h row hrow
    simp only [List.length_append, List.length_singleton]
    omega
  · exact h
  · intro row hrow
    rcases List.mem_append.1 hrow with hrow | hrow
    · exact h row hrow
    · rw [List.mem_singleton.1 hrow, h5]
  · exact h
  · exact h

theorem foldl_readLine_rows_le :
    ∀ (lines : List String) (st : LoaderState),
      (∀ row ∈ st.data, row.length ≤ st.attributes.length) →
      ∀ row ∈ (lines.foldl readLine st).data,
        row.length ≤ (lines.foldl readLine st).attributes.length
  | [], _, h => h
  | line :: lines, st, h =>
    foldl_readLine_rows_le lines (readLine st line) (readLine_rows_le st line h)

/-- No row of the loaded data has more values than there are attributes. -/
theorem readARFF_rows_le (lines : List String) :
    ∀ row ∈ (readARFF lines).data, row.length ≤ (readARFF lines).attributes.length :=
  foldl_readLine_rows_le lines _ (by simp)

/-- A line of the data section whose number of values differs from the number
of attributes read so far changes nothing. -/
theorem readLine_reject (st : LoaderState) (rawLine : String)
    (hdata : st.dataSection = true)
    (hlen : (split (trim rawLine) ',').length ≠ st.attributes.length)
    (hattr : ¬ (startsWith (trim rawLine) "@ATTRIBUTE" ∨ startsWith (trim rawLine) "@attribute"))
    : readLine st rawLine = st := by
  unfold readLine
  simp only
  split_ifs
  · rfl
  · cases st
    simp only at hdata
    rw [hdata]
  · rfl

end ID3

namespace ID3

/-! ## Entropy and gain depend on the multiset of rows only -/

theorem valueCount_eq_count (data : Data) (i : Int) (k : String) :
    valueCount data i k = (data.map (valueAt i)).count k := by
  rw [valueCount, List.count, List.countP_map]
  congr 1

/-- Two data sets with the same labels, up to order, have the same entropy. -/
theorem entropySum_congr {data data' : Data} {c : Int}
    (h : (data'.map (valueAt c)).Perm (data.map (valueAt c))) :
    entropySum data' c = entropySum data c := by
  have hlen : data'.length = data.length := by
    have := h.length_eq
    simpa using this
  have hset : valueSet data' c = valueSet data c := by
    simp only [valueSet]
    exact List.toFinset_eq_of_perm _ _ h
  simp only [entropySum, hset, hlen, valueCount_eq_count, h.count_eq]

theorem entropySum_congr_perm {data data' : Data} (h : data'.Perm data) (c : Int) :
    entropySum data' c = entropySum data c :=
  entropySum_congr (h.map _)

theorem rowsWith_perm {data data' : Data} (h : data'.Perm data) (i : Int) (v : String) :
    (rowsWith data' i v).Perm (rowsWith data i v) :=
  h.filter _

theorem valueSet_congr_perm {data data' : Data} (h : data'.Perm data) (i : Int) :
    valueSet data' i = valueSet data i := by
  simp only [valueSet]
  exact List.toFinset_eq_of_perm _ _ (h.map _)

theorem gainSum_congr_perm {data data' : Data} (h : data'.Perm data) (a c : Int) :
    gainSum data' a c = gainSum data a c := by
  simp only [gainSum, entropySum_congr_perm h, valueSet_congr_perm h, h.length_eq,
    (rowsWith_perm h a _).length_eq, entropySum_congr_perm (rowsWith_perm h a _)]

theorem inRange_congr_perm {data data' : Data} (h : data'.Perm data) {i : Int}
    (hi : InRange data i) : InRange data' i :=
  fun row hrow => hi row (h.mem_iff.1 hrow)

theorem selectBestAttribute_congr_perm {data data' : Data} (h : data'.Perm data)
    {cands : List Int} {c : Int} (hr : ∀ a ∈ cands, InRange data a) (hc : InRange data c) :
    selectBestAttribute data' cands c = selectBestAttribute data cands c := by
  simp only [selectBestAttribute,
    foldlM_selectStep (inRange_congr_perm h hc) cands _
      (fun a ha => inRange_congr_perm h (hr a ha)),
    foldlM_selectStep hc cands _ hr, gainSum_congr_perm h]

/-- The entropy of a non-empty data set whose rows all carry one label. -/
theorem entropySum_pure {data : Data} {c : Int} {L : String} (hne : data ≠ [])
    (h : ∀ row ∈ data, valueAt c row = L) : entropySum data c = 0 :=
  (entropySum_eq_zero_iff c hne).2 fun r₁ h₁ r₂ h₂ => by rw [h r₁ h₁, h r₂ h₂]

/-- The gain as a sum over the sorted list of values. -/
theorem gainSum_eq_list (data : Data) (a c : Int) :
    gainSum data a c = entropySum data c -
      ((sortedValues data a).map fun v =>
        ((rowsWith data a v).length : ℝ) / (data.length : ℝ) *
          entropySum (rowsWith data a v) c).sum := by
  rw [gainSum, sum_sortedValues]

/-! ## The weather scenario -/

theorem weather_sortedValues_outlook :
    sortedValues weatherRows 0 = ["overcast", "rainy", "sunny"] := by
  apply sortedValues_eq
  · simp +decide
  · intro v
    simp [valueSet, weatherRows, valueAt, rowAt]

theorem weather_sortedValues_humidity :
    sortedValues weatherRows 1 = ["high", "normal"] := by
  apply sortedValues_eq
  · simp +decide
  · intro v
    simp [valueSet, weatherRows, valueAt, rowAt]

/-- Outlook and humidity have the same information gain on the weather
rows. -/
theorem weather_gains_eq : gainSum weatherRows 0 2 = gainSum weatherRows 1 2 := by
  rw [gainSum_eq_list, gainSum_eq_list, weather_sortedValues_outlook,
    weather_sortedValues_humidity]
  have e1 : entropySum (rowsWith weatherRows 0 "overcast") 2 = 0 :=
    entropySum_pure (L := "yes") (by decide) (by decide)
  have e2 : entropySum (rowsWith weatherRows 0 "rainy") 2 = 0 :=
    entropySum_pure (L := "yes") (by decide) (by decide)
  have e3 : entropySum (rowsWith weatherRows 1 "normal") 2 = 0 :=
    entropySum_pure (L := "yes") (by decide) (by decide)
  have e4 : entropySum (rowsWith weatherRows 1 "high") 2
      = entropySum (rowsWith weatherRows 0 "sunny") 2 :=
    entropySum_congr (by decide)
  have l1 : (rowsWith weatherRows 0 "sunny").length = 2 := by decide
  have l2 : (rowsWith weatherRows 1 "high").length = 2 := by decide
  simp only [List.map_cons, List.map_nil, List.sum_cons, List.sum_nil, e1, e2, e3, e4, l1, l2]
  ring

end ID3

namespace ID3

/-- Of two candidates with equal gain the first is selected. -/
theorem selectBestAttribute_pair {data : Data} {a b c : Int} (hne : data ≠ [])
    (ha : InRange data a) (hb : InRange data b) (hc : InRange data c)
    (hg : gainSum data b c ≤ gainSum data a c) :
    selectBestAttribute data [a, b] c = some a := by
  have hr : ∀ x ∈ [a, b], InRange data x := by
    intro x hx
    simp only [List.mem_cons, List.mem_singleton, List.not_mem_nil, or_false] at hx
    rcases hx with rfl | rfl
    · exact ha
    · exact hb
  have h0 : gainSum data a c > -1 := by
    have := gainSum_nonneg a c hne
    linarith
  simp only [selectBestAttribute, foldlM_selectStep hc _ _ hr, List.foldl_cons, List.foldl_nil,
    selectPure, h0, if_true, not_lt.2 hg, if_false, Option.map_some']

theorem weather_inRange (i : Int) (h0 : 0 ≤ i) (h3 : i < 3) : InRange weatherRows i := by
  intro row hrow
  simp only [weatherRows, List.mem_cons, List.mem_singleton, List.not_mem_nil, or_false] at hrow
  rcases hrow with rfl | rfl | rfl | rfl <;> exact ⟨h0, by simpa using h3⟩

theorem weather_mixed :
    ∃ r₁ ∈ weatherRows, ∃ r₂ ∈ weatherRows, valueAt 2 r₁ ≠ valueAt 2 r₂ :=
  ⟨["sunny", "high", "no"], by simp [weatherRows], ["overcast", "high", "yes"],
    by simp [weatherRows], by decide⟩

/-- The subtree of the weather scenario under the key `sunny`. -/
theorem weather_sunny_subtree :
    buildTree 2 (rowsWith weatherRows 0 "sunny") [1] 2
      = some (TreeNode.mk "1" ""
          [("high", TreeNode.mk "" "no" []), ("normal", TreeNode.mk "" "yes" [])]) := by
  have hrows : rowsWith weatherRows 0 "sunny"
      = [["sunny", "high", "no"], ["sunny", "normal", "yes"]] := by decide
  rw [hrows]
  have hsv : sortedValues [["sunny", "high", "no"], ["sunny", "normal", "yes"]] 1
      = ["high", "normal"] := by
    apply sortedValues_eq
    · simp +decide
    · intro v
      simp [valueSet, valueAt, rowAt]
  have h := @buildTree_succ_general 1 [["sunny", "high", "no"], ["sunny", "normal", "yes"]] [1]
    2 1 (by decide)
    ⟨["sunny", "high", "no"], by simp, ["sunny", "normal", "yes"], by simp, by decide⟩
    (by simp) (selectBestAttribute_single (by simp) (by decide) (by decide)) (by decide)
    (fun v => if v = "high" then TreeNode.mk "" "no" [] else TreeNode.mk "" "yes" [])
    (by
      rw [hsv]
      intro v hv
      simp only [List.mem_cons, List.mem_singleton, List.not_mem_nil, or_false] at hv
      rcases hv with rfl | rfl
      · exact buildTree_succ_pure 0 _ (by decide) (by decide)
      · exact buildTree_succ_pure 0 _ (by decide) (by decide))
  rw [h, hsv]
  rfl

/-- The tree built from the weather rows with the candidates outlook,
humidity. -/
theorem weather_buildTree : buildTree 3 weatherRows [0, 1] 2 = some weatherTree := by
  have hsel : selectBestAttribute weatherRows [0, 1] 2 = some 0 :=
    selectBestAttribute_pair (by decide) (weather_inRange 0 (by decide) (by decide))
      (weather_inRange 1 (by decide) (by decide)) (weather_inRange 2 (by decide) (by decide))
      weather_gains_eq.ge
  have h := @buildTree_succ_general 2 weatherRows [0, 1] 2 0
    (weather_inRange 2 (by decide) (by decide)) weather_mixed (by simp) hsel
    (weather_inRange 0 (by decide) (by decide))
    (fun v => if v = "sunny" then TreeNode.mk "1" ""
        [("high", TreeNode.mk "" "no" []), ("normal", TreeNode.mk "" "yes" [])]
      else TreeNode.mk "" "yes" [])
    (by
      rw [weather_sortedValues_outlook]
      intro v hv
      simp only [List.mem_cons, List.mem_singleton, List.not_mem_nil, or_false] at hv
      have hf : (([0, 1] : List Int).filter fun a => a ≠ 0) = [1] := by decide
      rw [hf]
      rcases hv with rfl | rfl | rfl
      · exact buildTree_succ_pure 1 _ (by decide) (by decide)
      · exact buildTree_succ_pure 1 _ (by decide) (by decide)
      · exact weather_sunny_subtree)
  rw [h, weather_sortedValues_outlook]
  rfl

end ID3

namespace ID3

/-! ## Safety of the recursion -/

/-- A recursive call made on valid arguments has valid arguments: its rows
are one of the non-empty groups of the caller, its candidates are candidates
of the caller. -/
theorem callsOn_valid {c : Int} {data : Data} {cands : List Int} {data' : Data}
    {cands' : List Int} (hne : data ≠ []) (hc : InRange data c)
    (hr : ∀ a ∈ cands, InRange data a) (h : callsOn c data cands data' cands') :
    data' ≠ [] ∧ InRange data' c ∧ (∀ a ∈ cands', InRange data' a) ∧
      cands'.length < cands.length ∧ ∀ row ∈ data', row ∈ data := by
  obtain ⟨⟨_, _, _, _, _, hemp⟩, b, splits, key, hsel, hsplit, hmem, rfl⟩ := h
  have hcands : cands ≠ [] := by
    intro h
    rw [h] at hemp
    simp at hemp
  obtain ⟨best, pre, post, hsel', hl, _, _⟩ := selectBestAttribute_spec hne hcands hr hc
  rw [hsel] at hsel'
  have hb : b ∈ cands := by rw [hl, Option.some.inj hsel']; simp
  have hbr : InRange data b := hr b hb
  rw [splitRows_eq hbr] at hsplit
  rw [← Option.some.inj hsplit] at hmem
  obtain ⟨v, hv, hpair⟩ := List.mem_map.1 hmem
  have hd : data' = rowsWith data b v := by
    have := congrArg Prod.snd hpair
    exact this.symm
  subst hd
  exact ⟨rowsWith_ne_nil_iff.2 hv, hc.filter _,
    fun a ha => (hr a (List.mem_filter.1 ha).1).filter _, filter_ne_length_lt hb,
    fun row hrow => (List.mem_filter.1 hrow).1⟩

theorem callOf_valid {c : Int} {data : Data} {cands : List Int} (hne : data ≠ [])
    (hc : InRange data c) (hr : ∀ a ∈ cands, InRange data a) {data' : Data}
    {cands' : List Int} (h : CallOf c data cands data' cands') :
    data' ≠ [] ∧ InRange data' c ∧ (∀ a ∈ cands', InRange data' a) ∧
      cands'.length ≤ cands.length := by
  induction h with
  | root => exact ⟨hne, hc, hr, le_refl _⟩
  | step data₁ cands₁ data₂ cands₂ _ hcall ih =>
    obtain ⟨h1, h2, h3, h4⟩ := ih
    obtain ⟨g1, g2, g3, g4, _⟩ := callsOn_valid h1 h2 h3 hcall
    exact ⟨g1, g2, g3, by omega⟩

/-- On valid arguments the call of `selectBestAttribute` has a non-empty
candidate list and returns one of the candidates, a position of every row. -/
theorem reachesSelect_valid {c : Int} {data : Data} {cands : List Int} (hne : data ≠ [])
    (hc : InRange data c) (hr : ∀ a ∈ cands, InRange data a)
    (h : reachesSelect data cands c) :
    cands ≠ [] ∧ ∃ b, selectBestAttribute data cands c = some b ∧ b ∈ cands ∧ b ≠ -1 ∧
      InRange data b := by
  obtain ⟨_, _, _, _, _, hemp⟩ := h
  have hcands : cands ≠ [] := by
    intro h
    rw [h] at hemp
    simp at hemp
  obtain ⟨best, pre, post, hsel, hl, _, _⟩ := selectBestAttribute_spec hne hcands hr hc
  have hb : best ∈ cands := by rw [hl]; simp
  refine ⟨hcands, best, hsel, hb, ?_, hr best hb⟩
  obtain ⟨row, hrow⟩ := List.exists_mem_of_ne_nil data hne
  have := (hr best hb row hrow).1
  omega

/-! ## Split attributes along a path -/

theorem to_string_injective : Function.Injective to_string := by
  intro a b h
  have ha := stoi_to_string a
  rw [h, stoi_to_string b] at ha
  exact (Option.some.inj ha).symm

/-- Along every path of a built tree the split attributes are the decimal
forms of pairwise distinct candidates. -/
theorem buildTree_attrs (c : Int) (fuel : Nat) (data : Data) (cands : List Int)
    (hne : data ≠ []) (hc : InRange data c) (hr : ∀ a ∈ cands, InRange data a)
    (hfuel : cands.length < fuel) :
    ∃ t, buildTree fuel data cands c = some t ∧
      ∀ (path : List String) (n : TreeNode), nodeAt t path = some n →
        (∃ bs : List Int, attrsAlong t path = bs.map to_string ∧ bs.Nodup ∧
          ∀ b ∈ bs, b ∈ cands) ∧
        (n.attr ≠ "" → ∃ b ∈ cands, n.attr = to_string b) := by
  refine buildTree_induction c
    (fun _ cands t => ∀ (path : List String) (n : TreeNode), nodeAt t path = some n →
        (∃ bs : List Int, attrsAlong t path = bs.map to_string ∧ bs.Nodup ∧
          ∀ b ∈ bs, b ∈ cands) ∧
        (n.attr ≠ "" → ∃ b ∈ cands, n.attr = to_string b))
    ?_ ?_ ?_ fuel data cands hne hc hr hfuel
  · intro _ _ L _ _ path n hnode
    obtain ⟨rfl, rfl⟩ := nodeAt_leaf hnode
    exact ⟨⟨[], by simp [attrsAlong], List.nodup_nil, by simp⟩, fun h => absurd rfl h⟩
  · intro _ _ _ path n hnode
    obtain ⟨rfl, rfl⟩ := nodeAt_leaf hnode
    exact ⟨⟨[], by simp [attrsAlong], List.nodup_nil, by simp⟩, fun h => absurd rfl h⟩
  · intro d cands b child _ _ _ _ _ hb _ hP path n hnode
    have hbne := to_string_ne_empty b
    cases path with
    | nil =>
      simp only [nodeAt, Option.some.injEq] at hnode
      subst hnode
      refine ⟨⟨[b], by simp [attrsAlong, hbne], List.nodup_singleton b, ?_⟩,
        fun _ => ⟨b, hb, rfl⟩⟩
      intro x hx
      rw [List.mem_singleton.1 hx]
      exact hb
    | cons v p =>
      simp only [nodeAt, hbne, if_false, mapFind_map_keys] at hnode
      by_cases hv : v ∈ sortedValues d b
      · simp only [hv, if_true, Option.some_bind] at hnode
        obtain ⟨⟨bs, hbs, hnd, hsub⟩, hattr⟩ := hP v hv p n hnode
        refine ⟨⟨b :: bs, ?_, ?_, ?_⟩, ?_⟩
        · simp only [attrsAlong, hbne, if_false, mapFind_map_keys, hv, if_true, hbs,
            List.map_cons]
        · refine List.nodup_cons.2 ⟨fun hmem => ?_, hnd⟩
          have := (List.mem_filter.1 (hsub b hmem)).2
          simp at this
        · intro x hx
          rcases List.mem_cons.1 hx with rfl | hx
          · exact hb
          · exact (List.mem_filter.1 (hsub x hx)).1
        · intro hn
          obtain ⟨x, hx, hxe⟩ := hattr hn
          exact ⟨x, (List.mem_filter.1 hx).1, hxe⟩
      · simp [hv] at hnode

end ID3

namespace ID3

/-! ## Classification of the training rows -/

theorem consistent_rowsWith {data : Data} {cands : List Int} {c b : Int} (v : String)
    (hbr : InRange data b) (h : Consistent data cands c) :
    Consistent (rowsWith data b v) (cands.filter fun a => a ≠ b) c := by
  intro r₁ h₁ r₂ h₂ hagree
  have m₁ := List.mem_filter.1 h₁
  have m₂ := List.mem_filter.1 h₂
  refine h r₁ m₁.1 r₂ m₂.1 fun a ha => ?_
  by_cases hab : a = b
  · subst hab
    have e₁ := m₁.2
    have e₂ := m₂.2
    simp only [decide_eq_true_eq] at e₁ e₂
    rw [rowAt_eq_some (hbr r₁ m₁.1).1 (hbr r₁ m₁.1).2,
      rowAt_eq_some (hbr r₂ m₂.1).1 (hbr r₂ m₂.1).2, e₁, e₂]
  · exact hagree a (List.mem_filter.2 ⟨ha, by simpa using hab⟩)

/-- Every training row ends its descent at a leaf of the built tree, and the
leaf carries the row's class when the training set is consistent. -/
theorem buildTree_training (c : Int) (fuel : Nat) (data : Data) (cands : List Int)
    (hne : data ≠ []) (hc : InRange data c) (hr : ∀ a ∈ cands, InRange data a)
    (hfuel : cands.length < fuel) :
    ∃ t, buildTree fuel data cands c = some t ∧
      ∀ row ∈ data, ∃ leaf, Terminal t row leaf ∧ leaf.attr = "" ∧
        (Consistent data cands c → some leaf.decision = rowAt row c) := by
  refine buildTree_induction c
    (fun d cands t => ∀ row ∈ d, ∃ leaf, Terminal t row leaf ∧ leaf.attr = "" ∧
        (Consistent d cands c → some leaf.decision = rowAt row c))
    ?_ ?_ ?_ fuel data cands hne hc hr hfuel
  · intro _ _ L _ hL row hrow
    exact ⟨_, Terminal.leaf L [] row, rfl, fun _ => (hL row hrow).symm⟩
  · intro d hd hmixed row _
    refine ⟨_, Terminal.leaf _ [] row, rfl, fun hcons => ?_⟩
    obtain ⟨r₁, h₁, r₂, h₂, hne'⟩ := hmixed
    have := hcons r₁ h₁ r₂ h₂ (by simp)
    rw [rowAt_eq_some (hd r₁ h₁).1 (hd r₁ h₁).2, rowAt_eq_some (hd r₂ h₂).1 (hd r₂ h₂).2] at this
    exact absurd (Option.some.inj this) hne'
  · intro d cands b child _ _ hrd _ _ hb _ hP row hrow
    have hbr : InRange d b := hrd b hb
    have hval := rowAt_eq_some (hbr row hrow).1 (hbr row hrow).2
    have hv : valueAt b row ∈ sortedValues d b := mem_sortedValues.2 ⟨row, hrow, rfl⟩
    have hmem : row ∈ rowsWith d b (valueAt b row) :=
      List.mem_filter.2 ⟨hrow, by simp⟩
    obtain ⟨leaf, hterm, hleaf, hdec⟩ := hP _ hv row hmem
    have hfind : mapFind (valueAt b row) ((sortedValues d b).map fun v => (v, child v))
        = some (child (valueAt b row)) := by
      rw [mapFind_map_keys, if_pos hv]
    exact ⟨leaf, Terminal.child _ _ _ row b _ _ leaf (to_string_ne_empty b) (stoi_to_string b)
      hval hfind hterm, hleaf, fun hcons => hdec (consistent_rowsWith _ hbr hcons)⟩

end ID3

namespace ID3

/-! ## Counting the correctly classified training rows -/

theorem le_foldr_max {l : List Nat} {x : Nat} (h : x ∈ l) : x ≤ l.foldr max 0 := by
  induction l with
  | nil => simp at h
  | cons y l ih =>
    rcases List.mem_cons.1 h with rfl | h
    · exact le_max_left _ _
    · exact le_trans (ih h) (le_max_right _ _)

theorem foldr_max_le {l : List Nat} {X : Nat} (h : ∀ x ∈ l, x ≤ X) : l.foldr max 0 ≤ X := by
  induction l with
  | nil => exact Nat.zero_le _
  | cons y l ih =>
    exact max_le (h y (List.mem_cons_self _ _)) (ih fun x hx => h x (List.mem_cons_of_mem _ hx))

theorem valueCount_le_maxCount (data : Data) (c : Int) (k : String) :
    valueCount data c k ≤ maxCount data c := by
  by_cases hk : k ∈ valueSet data c
  · exact le_foldr_max (List.mem_map.2 ⟨k, mem_sortedValues_iff_valueSet.2 hk, rfl⟩)
  · rw [valueCount_eq_zero hk]
    exact Nat.zero_le _

theorem maxCount_le_of {data : Data} {c : Int} {X : Nat}
    (h : ∀ k, valueCount data c k ≤ X) : maxCount data c ≤ X := by
  refine foldr_max_le fun x hx => ?_
  obtain ⟨k, _, rfl⟩ := List.mem_map.1 hx
  exact h k

theorem maxCount_eq {data : Data} {c : Int} {L : String}
    (h : ∀ k, valueCount data c k ≤ valueCount data c L) :
    maxCount data c = valueCount data c L :=
  le_antisymm (maxCount_le_of h) (valueCount_le_maxCount data c L)

/-- The sum of a function over the leaf paths below a list of children. -/
theorem sum_leafPathsChildren (f : String → TreeNode) (g : List String → Nat) :
    ∀ (l : List String),
      ((leafPathsChildren (l.map fun v => (v, f v))).map g).sum
        = (l.map fun v => ((leafPaths (f v)).map fun p => g (v :: p)).sum).sum
  | [] => by simp [leafPathsChildren]
  | v :: l => by
    simp only [List.map_cons, leafPathsChildren, List.map_append, List.sum_append, List.map_map,
      List.sum_cons, sum_leafPathsChildren f g l]
    rfl

/-- Counting rows value by value, over the sorted list of values. -/
theorem countP_eq_sum_rowsWith (data : Data) (b : Int) (q : Row → Bool) :
    data.countP q = ((sortedValues data b).map fun v => (rowsWith data b v).countP q).sum := by
  rw [sum_sortedValues]
  have h := sum_countP_values b q (valueSet data b) data
    fun row hr => mem_valueSet.2 ⟨row, hr, rfl⟩
  rw [← h]
  refine Finset.sum_congr rfl fun v _ => ?_
  simp only [rowsWith, List.countP_filter]
  congr 1
  funext row
  rw [Bool.and_comm]

theorem valueCount_eq_sum_rowsWith (data : Data) (b c : Int) (k : String) :
    valueCount data c k
      = ((sortedValues data b).map fun v => valueCount (rowsWith data b v) c k).sum := by
  rw [sum_sortedValues, sum_valueCount_rowsWith]

theorem list_sum_le_sum {l : List String} {f g : String → Nat} (h : ∀ v ∈ l, f v ≤ g v) :
    (l.map f).sum ≤ (l.map g).sum := by
  induction l with
  | nil => simp
  | cons v l ih =>
    simp only [List.map_cons, List.sum_cons]
    exact Nat.add_le_add (h v (List.mem_cons_self _ _))
      (ih fun w hw => h w (List.mem_cons_of_mem _ hw))

theorem list_sum_congr {l : List String} {f g : String → Nat} (h : ∀ v ∈ l, f v = g v) :
    (l.map f).sum = (l.map g).sum := by
  rw [List.map_congr_left h]

/-- The number of training rows classified correctly by the built tree is
the sum over the leaves of the largest label count among the rows routed to
the leaf; no label occurs more often than that. -/
theorem buildTree_correct_count (c : Int) (fuel : Nat) (data : Data) (cands : List Int)
    (hne : data ≠ []) (hc : InRange data c) (hr : ∀ a ∈ cands, InRange data a)
    (hfuel : cands.length < fuel) :
    ∃ t, buildTree fuel data cands c = some t ∧
      data.countP (correctOn t c)
        = ((leafPaths t).map fun p => maxCount (routed t p data) c).sum ∧
      ∀ k, valueCount data c k
        ≤ ((leafPaths t).map fun p => maxCount (routed t p data) c).sum := by
  refine buildTree_induction c
    (fun d _ t => d.countP (correctOn t c)
        = ((leafPaths t).map fun p => maxCount (routed t p d) c).sum ∧
      ∀ k, valueCount d c k ≤ ((leafPaths t).map fun p => maxCount (routed t p d) c).sum)
    ?_ ?_ ?_ fuel data cands hne hc hr hfuel
  · intro d _ L _ hL
    have hsum : ((leafPaths (TreeNode.mk "" L [])).map fun p =>
        maxCount (routed (TreeNode.mk "" L []) p d) c).sum = maxCount d c := by
      simp [leafPaths, routed]
    have hall : valueCount d c L = d.length :=
      (valueCount_eq_length_iff d c L).2 fun row hrow => (rowAt_eq_some_iff.1 (hL row hrow)).2
    have hmax : maxCount d c = d.length := by
      rw [← hall]
      exact maxCount_eq fun k => by rw [hall]; exact valueCount_le d c k
    rw [hsum]
    refine ⟨?_, fun k => valueCount_le_maxCount d c k⟩
    rw [hmax, List.countP_eq_length]
    intro row hrow
    simp [correctOn, descend_leaf, TreeNode.decision, hL row hrow]
  · intro d hd hmixed
    obtain ⟨r₁, h₁, _⟩ := id hmixed
    have hne' : d ≠ [] := List.ne_nil_of_mem h₁
    obtain ⟨_, hmax, _⟩ := majorityClass_spec c hne'
    set maj := majorityClass ((sortedValues d c).map fun k => (k, valueCount d c k)) with hmaj
    have hsum : ((leafPaths (TreeNode.mk "" maj [])).map fun p =>
        maxCount (routed (TreeNode.mk "" maj []) p d) c).sum = maxCount d c := by
      simp [leafPaths, routed]
    rw [hsum]
    refine ⟨?_, fun k => valueCount_le_maxCount d c k⟩
    rw [maxCount_eq hmax, valueCount]
    refine List.countP_congr fun row hrow => ?_
    simp only [correctOn, descend_leaf, Option.map_some', TreeNode.decision,
      rowAt_eq_some (hd row hrow).1 (hd row hrow).2, Option.some.injEq, decide_eq_true_eq]
    exact eq_comm
  · intro d cands b child _ _ hrd _ _ hb _ hP
    have hbr : InRange d b := hrd b hb
    have hbne := to_string_ne_empty b
    have hsum : ((leafPaths (TreeNode.mk (to_string b) ""
          ((sortedValues d b).map fun v => (v, child v)))).map fun p =>
        maxCount (routed (TreeNode.mk (to_string b) ""
          ((sortedValues d b).map fun v => (v, child v))) p d) c).sum
        = ((sortedValues d b).map fun v =>
            ((leafPaths (child v)).map fun p =>
              maxCount (routed (child v) p (rowsWith d b v)) c).sum).sum := by
      simp only [leafPaths, hbne, if_false]
      rw [sum_leafPathsChildren child]
      refine list_sum_congr fun v hv => ?_
      congr 1
      refine List.map_congr_left fun p _ => ?_
      simp only [routed, stoi_to_string, mapFind_map_keys, hv, if_true,
        rowsWith_eq_filter_rowAt hbr]
    rw [hsum]
    constructor
    · rw [countP_eq_sum_rowsWith d b]
      refine list_sum_congr fun v hv => ?_
      rw [← (hP v hv).1]
      refine List.countP_congr fun row hrow => ?_
      have hm := List.mem_filter.1 hrow
      have hval : rowAt row b = some v := by
        rw [rowAt_eq_some (hbr row hm.1).1 (hbr row hm.1).2]
        simpa using hm.2
      have hdesc : descend (TreeNode.mk (to_string b) ""
          ((sortedValues d b).map fun v => (v, child v))) row = descend (child v) row := by
        rw [descend_node "" _ row hbne (stoi_to_string b) hval, mapFind_map_keys, if_pos hv]
      simp only [correctOn, hdesc]
    · intro k
      rw [valueCount_eq_sum_rowsWith d b c k]
      exact list_sum_le_sum fun v hv => (hP v hv).2 k

end ID3

namespace ID3

/-! ## Independence of the row order -/

/-- The built tree is the tree built from any reordering of the rows. -/
theorem buildTree_perm (c : Int) (fuel : Nat) (data : Data) (cands : List Int)
    (hne : data ≠ []) (hc : InRange data c) (hr : ∀ a ∈ cands, InRange data a)
    (hfuel : cands.length < fuel) :
    ∃ t, buildTree fuel data cands c = some t ∧
      ∀ data' : Data, data'.Perm data → ∀ fuel', cands.length < fuel' →
        buildTree fuel' data' cands c = some t := by
  refine buildTree_induction c
    (fun d cands t => ∀ d' : Data, d'.Perm d → ∀ fuel', cands.length < fuel' →
        buildTree fuel' d' cands c = some t)
    ?_ ?_ ?_ fuel data cands hne hc hr hfuel
  · intro d cands L hd hL d' hp fuel' hf
    obtain ⟨f, rfl⟩ : ∃ f, fuel' = f + 1 := ⟨fuel' - 1, by omega⟩
    refine buildTree_succ_pure f cands ?_ fun row hrow => hL row (hp.mem_iff.1 hrow)
    intro h
    rw [h] at hp
    exact hd (List.perm_nil.1 hp.symm)
  · intro d hd hmixed d' hp fuel' hf
    obtain ⟨f, rfl⟩ : ∃ f, fuel' = f + 1 := ⟨fuel' - 1, by omega⟩
    have hm' : ∃ r₁ ∈ d', ∃ r₂ ∈ d', valueAt c r₁ ≠ valueAt c r₂ := by
      obtain ⟨a, ha, b, hb, hab⟩ := hmixed
      exact ⟨a, hp.mem_iff.2 ha, b, hp.mem_iff.2 hb, hab⟩
    rw [buildTree_succ_exhausted f (inRange_congr_perm hp hd) hm', sortedValues_congr_perm hp]
    simp only [valueCount_congr_perm hp]
  · intro d cands b child hd hdc hrd hmixed hsel hb _ hP d' hp fuel' hf
    have hne' : d' ≠ [] := by
      intro h
      rw [h] at hp
      exact hd (List.perm_nil.1 hp.symm)
    have hm' : ∃ r₁ ∈ d', ∃ r₂ ∈ d', valueAt c r₁ ≠ valueAt c r₂ := by
      obtain ⟨a, ha, b, hb, hab⟩ := hmixed
      exact ⟨a, hp.mem_iff.2 ha, b, hp.mem_iff.2 hb, hab⟩
    have hcands : cands ≠ [] := List.ne_nil_of_mem hb
    obtain ⟨b', child', hsel', _, hbuild, hchild⟩ := buildTree_general c fuel' hne'
      (inRange_congr_perm hp hdc) (fun a ha => inRange_congr_perm hp (hrd a ha)) hm' hcands hf
    rw [selectBestAttribute_congr_perm hp hrd hdc, hsel] at hsel'
    have hbb : b' = b := (Option.some.inj hsel').symm
    subst hbb
    rw [hbuild, sortedValues_congr_perm hp]
    congr 2
    refine List.map_congr_left fun v hv => ?_
    have hv' : v ∈ sortedValues d' b' := by rw [sortedValues_congr_perm hp]; exact hv
    have h1 := hchild v hv' _ (Nat.lt_succ_self _)
    have h2 := hP v hv (rowsWith d' b' v) (rowsWith_perm hp b' v) _ (Nat.lt_succ_self _)
    rw [h1] at h2
    rw [Option.some.inj h2]

/-- With the candidates humidity, outlook the root of the weather tree splits
on humidity. -/
theorem weather_reversed :
    ∃ child : String → TreeNode,
      buildTree 3 weatherRows [1, 0] 2 = some (TreeNode.mk (to_string 1) ""
        ((sortedValues weatherRows 1).map fun v => (v, child v))) := by
  obtain ⟨b, child, hsel, _, hbuild, _⟩ := buildTree_general 2 3 (by decide : weatherRows ≠ [])
    (weather_inRange 2 (by decide) (by decide))
    (fun a ha => by
      simp only [List.mem_cons, List.mem_singleton, List.not_mem_nil, or_false] at ha
      rcases ha with rfl | rfl
      · exact weather_inRange 1 (by decide) (by decide)
      · exact weather_inRange 0 (by decide) (by decide))
    weather_mixed (by simp : ([1, 0] : List Int) ≠ []) (by decide)
  have hsel' : selectBestAttribute weatherRows [1, 0] 2 = some 1 :=
    selectBestAttribute_pair (by decide) (weather_inRange 1 (by decide) (by decide))
      (weather_inRange 0 (by decide) (by decide)) (weather_inRange 2 (by decide) (by decide))
      weather_gains_eq.le
  rw [hsel'] at hsel
  rw [← Option.some.inj hsel] at hbuild
  exact ⟨child, hbuild⟩

end ID3

namespace ID3

/-! ## Verified properties: entropy, gain and attribute selection -/

/-- C1: information gain is non-negative. For a non-empty row list and
attribute and class indices that are positions of every row,
`calculateInformationGain` returns a number `g` with `0 ≤ g`; in particular
`-ε ≤ g` for every tolerance `ε ≥ 0`. -/
theorem calculateInformationGain_nonneg (data : Data) (attributeIndex classIndex : Int)
    (hne : data ≠ []) (ha : InRange data attributeIndex) (hc : InRange data classIndex) :
    ∃ g : ℝ, calculateInformationGain data attributeIndex classIndex = some g ∧ 0 ≤ g ∧
      ∀ ε : ℝ, 0 ≤ ε → -ε ≤ g := by
  refine ⟨gainSum data attributeIndex classIndex, calculateInformationGain_eq ha hc,
    gainSum_nonneg _ _ hne, fun ε hε => ?_⟩
  have := gainSum_nonneg attributeIndex classIndex hne
  linarith

theorem calculateInformationGain_nonneg_witness :
    ∃ g : ℝ, calculateInformationGain
        [["sunny", "high", "no"], ["overcast", "high", "yes"], ["rainy", "normal", "yes"]] 0 2
        = some g ∧ 0 ≤ g ∧ ∀ ε : ℝ, 0 ≤ ε → -ε ≤ g :=
  calculateInformationGain_nonneg
    [["sunny", "high", "no"], ["overcast", "high", "yes"], ["rainy", "normal", "yes"]] 0 2
    (by decide) (by decide) (by decide)

/-- C2: entropy bounds. For a non-empty row list and a class index that is a
position of every row, `calculateEntropy` returns a number `h` with
`0 ≤ h ≤ log2 k`, where `k` is the number of distinct class labels occurring
at the class index. -/
theorem calculateEntropy_bounds (data : Data) (classIndex : Int)
    (hne : data ≠ []) (hc : InRange data classIndex) :
    ∃ h : ℝ, calculateEntropy data classIndex = some h ∧ 0 ≤ h ∧
      h ≤ Real.logb 2 ((valueSet data classIndex).card : ℝ) :=
  ⟨entropySum data classIndex, calculateEntropy_eq hc, entropySum_nonneg _ _,
    entropySum_le _ hne⟩

theorem calculateEntropy_bounds_witness :
    ∃ h : ℝ, calculateEntropy [["sunny", "no"], ["overcast", "yes"], ["rainy", "yes"]] 1
        = some h ∧ 0 ≤ h ∧
      h ≤ Real.logb 2
        ((valueSet [["sunny", "no"], ["overcast", "yes"], ["rainy", "yes"]] 1).card : ℝ) :=
  calculateEntropy_bounds [["sunny", "no"], ["overcast", "yes"], ["rainy", "yes"]] 1
    (by decide) (by decide)

/-- C3: entropy is zero exactly on pure sets. For a non-empty row list and a
class index that is a position of every row, `calculateEntropy` returns a
number, and that number is `0` if and only if all rows have the same value at
the class index. -/
theorem calculateEntropy_eq_zero_iff (data : Data) (classIndex : Int)
    (hne : data ≠ []) (hc : InRange data classIndex) :
    ∃ h : ℝ, calculateEntropy data classIndex = some h ∧
      (h = 0 ↔ ∀ r₁ ∈ data, ∀ r₂ ∈ data, rowAt r₁ classIndex = rowAt r₂ classIndex) := by
  refine ⟨entropySum data classIndex, calculateEntropy_eq hc, ?_⟩
  rw [entropySum_eq_zero_iff classIndex hne]
  constructor
  · intro h r₁ h₁ r₂ h₂
    rw [rowAt_eq_some (hc r₁ h₁).1 (hc r₁ h₁).2, rowAt_eq_some (hc r₂ h₂).1 (hc r₂ h₂).2,
      h r₁ h₁ r₂ h₂]
  · intro h r₁ h₁ r₂ h₂
    have := h r₁ h₁ r₂ h₂
    rw [rowAt_eq_some (hc r₁ h₁).1 (hc r₁ h₁).2, rowAt_eq_some (hc r₂ h₂).1 (hc r₂ h₂).2] at this
    exact Option.some.inj this

theorem calculateEntropy_eq_zero_iff_witness :
    ∃ h : ℝ, calculateEntropy [["sunny", "yes"], ["overcast", "yes"]] 1 = some h ∧
      (h = 0 ↔ ∀ r₁ ∈ [["sunny", "yes"], ["overcast", "yes"]],
        ∀ r₂ ∈ [["sunny", "yes"], ["overcast", "yes"]], rowAt r₁ 1 = rowAt r₂ 1) :=
  calculateEntropy_eq_zero_iff [["sunny", "yes"], ["overcast", "yes"]] 1 (by decide) (by decide)

/-- C4: `selectBestAttribute` returns the first maximiser of the information
gain. For a non-empty row list and a non-empty candidate list whose indices,
like the class index, are positions of every row, the result `best` is a
candidate, it is not the initial value `-1`, its gain is at least the gain of
every candidate, and every candidate standing before the first occurrence of
`best` has a strictly smaller gain. -/
theorem selectBestAttribute_first_max (data : Data) (attributeIndices : List Int)
    (classIndex : Int) (hne : data ≠ []) (hcands : attributeIndices ≠ [])
    (hr : ∀ a ∈ attributeIndices, InRange data a) (hc : InRange data classIndex) :
    ∃ (best : Int) (gBest : ℝ),
      selectBestAttribute data attributeIndices classIndex = some best ∧
      best ∈ attributeIndices ∧ best ≠ -1 ∧
      calculateInformationGain data best classIndex = some gBest ∧
      (∀ d ∈ attributeIndices, ∃ g : ℝ,
        calculateInformationGain data d classIndex = some g ∧ g ≤ gBest) ∧
      (∀ pre post, attributeIndices = pre ++ best :: post → best ∉ pre →
        ∀ d ∈ pre, ∃ g : ℝ,
          calculateInformationGain data d classIndex = some g ∧ g < gBest) := by
  obtain ⟨best, pre, post, hsel, hl, hpre, hpost⟩ := selectBestAttribute_spec hne hcands hr hc
  have hmem : best ∈ attributeIndices := by rw [hl]; simp
  have hbest : InRange data best := hr best hmem
  refine ⟨best, gainSum data best classIndex, hsel, hmem, ?_,
    calculateInformationGain_eq hbest hc, ?_, ?_⟩
  · obtain ⟨row, hrow⟩ := List.exists_mem_of_ne_nil data hne
    have := (hbest row hrow).1
    omega
  · intro d hd
    refine ⟨gainSum data d classIndex, calculateInformationGain_eq (hr d hd) hc, ?_⟩
    rw [hl] at hd
    rcases List.mem_append.1 hd with hd | hd
    · exact (hpre d hd).le
    · rcases List.mem_cons.1 hd with rfl | hd
      · exact le_refl _
      · exact hpost d hd
  · intro pre' post' hl' hnot d hd
    have hnot₀ : best ∉ pre := fun hm => lt_irrefl _ (hpre best hm)
    have hpe : pre' = pre := before_first_unique (hl'.symm.trans hl) hnot hnot₀
    subst hpe
    have hdmem : d ∈ attributeIndices := by rw [hl]; simp [hd]
    exact ⟨gainSum data d classIndex, calculateInformationGain_eq (hr d hdmem) hc, hpre d hd⟩

theorem selectBestAttribute_first_max_witness :
    ∃ (best : Int) (gBest : ℝ),
      selectBestAttribute [["sunny", "high", "no"], ["rainy", "normal", "yes"]] [0, 1] 2
        = some best ∧
      best ∈ [(0 : Int), 1] ∧ best ≠ -1 ∧
      calculateInformationGain [["sunny", "high", "no"], ["rainy", "normal", "yes"]] best 2
        = some gBest ∧
      (∀ d ∈ [(0 : Int), 1], ∃ g : ℝ,
        calculateInformationGain [["sunny", "high", "no"], ["rainy", "normal", "yes"]] d 2
          = some g ∧ g ≤ gBest) ∧
      (∀ pre post, [(0 : Int), 1] = pre ++ best :: post → best ∉ pre →
        ∀ d ∈ pre, ∃ g : ℝ,
          calculateInformationGain [["sunny", "high", "no"], ["rainy", "normal", "yes"]] d 2
            = some g ∧ g < gBest) :=
  selectBestAttribute_first_max [["sunny", "high", "no"], ["rainy", "normal", "yes"]] [0, 1] 2
    (by decide) (by decide) (by decide) (by decide)

end ID3

namespace ID3

/-! ## Verified properties: tree construction and evaluation -/

/-- C5: pure-node case of `buildTree`. For a non-empty row list whose rows all
carry the class label `L`, and for any candidate list, `buildTree` returns the
single leaf with decision `L` (no split attribute, no children), and
`evaluateTree` of that leaf on the same rows is `1`; in particular this holds
for a data set of one row. -/
theorem buildTree_pure_leaf (fuel : Nat) (data : Data) (attributeIndices : List Int)
    (classIndex : Int) (L : String) (hne : data ≠ [])
    (hall : ∀ row ∈ data, rowAt row classIndex = some L) :
    buildTree (fuel + 1) data attributeIndices classIndex = some (TreeNode.mk "" L []) ∧
    evaluateTree (TreeNode.mk "" L []) data classIndex = some 1 ∧
    ∀ row : Row, rowAt row classIndex = some L →
      buildTree (fuel + 1) [row] attributeIndices classIndex = some (TreeNode.mk "" L []) ∧
      evaluateTree (TreeNode.mk "" L []) [row] classIndex = some 1 := by
  have key : ∀ d : Data, d ≠ [] → (∀ row ∈ d, rowAt row classIndex = some L) →
      buildTree (fuel + 1) d attributeIndices classIndex = some (TreeNode.mk "" L []) ∧
      evaluateTree (TreeNode.mk "" L []) d classIndex = some 1 := by
    intro d hd hL
    refine ⟨buildTree_succ_pure fuel attributeIndices hd hL, ?_⟩
    have hc : InRange d classIndex := fun row hrow => (rowAt_eq_some_iff.1 (hL row hrow)).1
    rw [evaluateTree_eq (TreeNode.mk "" L []) (fun _ => TreeNode.mk "" L []) hd
      (fun row _ => descend_leaf L [] row) hc]
    have hcount : (d.countP fun row =>
        decide (some (TreeNode.mk "" L []).decision = rowAt row classIndex)) = d.length := by
      rw [List.countP_eq_length]
      intro row hrow
      simp [TreeNode.decision, hL row hrow]
    have hlen : (d.length : ℚ) ≠ 0 := by
      have := List.length_pos.2 hd
      positivity
    rw [hcount, div_self hlen]
  refine ⟨(key data hne hall).1, (key data hne hall).2, fun row hrow => ?_⟩
  exact key [row] (by simp) (by simpa using hrow)

theorem buildTree_pure_leaf_witness :
    buildTree (0 + 1) [["sunny", "yes"], ["rainy", "yes"]] [0] 1
      = some (TreeNode.mk "" "yes" []) ∧
    evaluateTree (TreeNode.mk "" "yes" []) [["sunny", "yes"], ["rainy", "yes"]] 1 = some 1 ∧
    ∀ row : Row, rowAt row 1 = some "yes" →
      buildTree (0 + 1) [row] [0] 1 = some (TreeNode.mk "" "yes" []) ∧
      evaluateTree (TreeNode.mk "" "yes" []) [row] 1 = some 1 :=
  buildTree_pure_leaf 0 [["sunny", "yes"], ["rainy", "yes"]] [0] 1 "yes" (by decide)
    (by decide)

/-- C6: attributes-exhausted case of `buildTree`. For a row list with at least
two distinct class labels and an empty candidate list, `buildTree` returns a
single leaf whose decision `L` is a class label of some row, no label occurs
more often than `L`, `L` is the least label (in string order) among those of
the same count, and every reordering of the rows gives the same leaf. -/
theorem buildTree_exhausted_majority (fuel : Nat) (data : Data) (classIndex : Int)
    (hc : InRange data classIndex)
    (hmixed : ∃ r₁ ∈ data, ∃ r₂ ∈ data, rowAt r₁ classIndex ≠ rowAt r₂ classIndex) :
    ∃ L : String,
      buildTree (fuel + 1) data [] classIndex = some (TreeNode.mk "" L []) ∧
      (∃ row ∈ data, rowAt row classIndex = some L) ∧
      (∀ k, valueCount data classIndex k ≤ valueCount data classIndex L) ∧
      (∀ k, valueCount data classIndex k = valueCount data classIndex L → L ≤ k) ∧
      ∀ data' : Data, data'.Perm data →
        buildTree (fuel + 1) data' [] classIndex = some (TreeNode.mk "" L []) := by
  have hm := (mixed_iff_rowAt hc).2 hmixed
  obtain ⟨r₁, h₁, _⟩ := id hm
  have hne : data ≠ [] := List.ne_nil_of_mem h₁
  obtain ⟨hmem, hmax, hleast⟩ := majorityClass_spec classIndex hne
  refine ⟨_, buildTree_succ_exhausted fuel hc hm, (mem_valueSet_iff_rowAt hc _).1 hmem, hmax,
    hleast, fun data' hp => ?_⟩
  have hc' : InRange data' classIndex := fun row hrow => hc row (hp.mem_iff.1 hrow)
  have hm' : ∃ r₁ ∈ data', ∃ r₂ ∈ data', valueAt classIndex r₁ ≠ valueAt classIndex r₂ := by
    obtain ⟨a, ha, b, hb, hab⟩ := hm
    exact ⟨a, hp.mem_iff.2 ha, b, hp.mem_iff.2 hb, hab⟩
  rw [buildTree_succ_exhausted fuel hc' hm', sortedValues_congr_perm hp]
  simp only [valueCount_congr_perm hp]

theorem buildTree_exhausted_majority_witness :
    ∃ L : String,
      buildTree (0 + 1) [["a", "yes"], ["a", "no"]] [] 1 = some (TreeNode.mk "" L []) ∧
      (∃ row ∈ [["a", "yes"], ["a", "no"]], rowAt row 1 = some L) ∧
      (∀ k, valueCount [["a", "yes"], ["a", "no"]] 1 k
        ≤ valueCount [["a", "yes"], ["a", "no"]] 1 L) ∧
      (∀ k, valueCount [["a", "yes"], ["a", "no"]] 1 k
        = valueCount [["a", "yes"], ["a", "no"]] 1 L → L ≤ k) ∧
      ∀ data' : Data, data'.Perm [["a", "yes"], ["a", "no"]] →
        buildTree (0 + 1) data' [] 1 = some (TreeNode.mk "" L []) :=
  buildTree_exhausted_majority 0 [["a", "yes"], ["a", "no"]] 1 (by decide)
    ⟨["a", "yes"], by simp, ["a", "no"], by simp, by decide⟩

/-- C7: general case of `buildTree`. For a row list with at least two distinct
class labels and a non-empty candidate list (all indices positions of every
row), `buildTree` returns a node whose split attribute is the decimal form of
`b = selectBestAttribute data attributeIndices classIndex`, whose child keys
are exactly the values the rows take at position `b`, and whose child under a
key `v` is the tree built from the rows with value `v` at `b` (in their
order), the candidates with every occurrence of `b` removed, and the same
class index. -/
theorem buildTree_general_case (fuel : Nat) (data : Data) (attributeIndices : List Int)
    (classIndex : Int) (hc : InRange data classIndex)
    (hr : ∀ a ∈ attributeIndices, InRange data a)
    (hmixed : ∃ r₁ ∈ data, ∃ r₂ ∈ data, rowAt r₁ classIndex ≠ rowAt r₂ classIndex)
    (hcands : attributeIndices ≠ []) (hfuel : attributeIndices.length < fuel) :
    ∃ (b : Int) (t : TreeNode),
      selectBestAttribute data attributeIndices classIndex = some b ∧
      buildTree fuel data attributeIndices classIndex = some t ∧
      t.attr = to_string b ∧ stoi t.attr = some b ∧ t.attr ≠ "" ∧
      (∀ v, v ∈ t.children.map Prod.fst ↔ ∃ row ∈ data, rowAt row b = some v) ∧
      (∀ v, (∃ child, mapFind v t.children = some child) ↔
        ∃ row ∈ data, rowAt row b = some v) ∧
      ∀ v child, mapFind v t.children = some child →
        ∀ fuel', (attributeIndices.filter fun a => a ≠ b).length < fuel' →
          buildTree fuel' (data.filter fun row => rowAt row b = some v)
            (attributeIndices.filter fun a => a ≠ b) classIndex = some child := by
  have hm := (mixed_iff_rowAt hc).2 hmixed
  obtain ⟨r₁, h₁, _⟩ := id hm
  have hne : data ≠ [] := List.ne_nil_of_mem h₁
  obtain ⟨b, child, hsel, hb, hbuild, hchild⟩ :=
    buildTree_general classIndex fuel hne hc hr hm hcands hfuel
  have hbr : InRange data b := hr b hb
  have hkey : ∀ v, v ∈ sortedValues data b ↔ ∃ row ∈ data, rowAt row b = some v := fun v => by
    rw [mem_sortedValues_iff_valueSet, mem_valueSet_iff_rowAt hbr]
  refine ⟨b, _, hsel, hbuild, rfl, stoi_to_string b, to_string_ne_empty b, ?_, ?_, ?_⟩
  · intro v
    simp only [TreeNode.children, List.map_map]
    rw [← hkey v]
    simp [Function.comp]
  · intro v
    simp only [TreeNode.children, mapFind_map_keys]
    rw [← hkey v]
    by_cases hv : v ∈ sortedValues data b <;> simp [hv]
  · intro v c hv fuel' hf
    simp only [TreeNode.children, mapFind_map_keys] at hv
    by_cases hmem : v ∈ sortedValues data b
    · rw [if_pos hmem] at hv
      rw [rowsWith_eq_filter_rowAt hbr v, hchild v hmem fuel' hf, hv]
    · rw [if_neg hmem] at hv
      exact absurd hv (by simp)

theorem buildTree_general_case_witness :
    ∃ (b : Int) (t : TreeNode),
      selectBestAttribute [["sunny", "no"], ["rainy", "yes"]] [0] 1 = some b ∧
      buildTree 2 [["sunny", "no"], ["rainy", "yes"]] [0] 1 = some t ∧
      t.attr = to_string b ∧ stoi t.attr = some b ∧ t.attr ≠ "" ∧
      (∀ v, v ∈ t.children.map Prod.fst ↔
        ∃ row ∈ [["sunny", "no"], ["rainy", "yes"]], rowAt row b = some v) ∧
      (∀ v, (∃ child, mapFind v t.children = some child) ↔
        ∃ row ∈ [["sunny", "no"], ["rainy", "yes"]], rowAt row b = some v) ∧
      ∀ v child, mapFind v t.children = some child →
        ∀ fuel', (([0] : List Int).filter fun a => a ≠ b).length < fuel' →
          buildTree fuel' ([["sunny", "no"], ["rainy", "yes"]].filter fun row =>
              rowAt row b = some v)
            (([0] : List Int).filter fun a => a ≠ b) 1 = some child :=
  buildTree_general_case 2 [["sunny", "no"], ["rainy", "yes"]] [0] 1 (by decide) (by decide)
    ⟨["sunny", "no"], by simp, ["rainy", "yes"], by simp, by decide⟩ (by decide) (by decide)

end ID3

namespace ID3

/-- C8: `buildTree` terminates with recursion depth bounded by the number of
candidates. For a non-empty row list and candidate and class indices that are
positions of every row, one and the same tree is returned for every depth
budget exceeding the number of candidates, its height is at most the number
of candidates, and whenever candidates are left the list passed to the
recursive calls is strictly shorter. -/
theorem buildTree_terminates (data : Data) (attributeIndices : List Int) (classIndex : Int)
    (hne : data ≠ []) (hc : InRange data classIndex)
    (hr : ∀ a ∈ attributeIndices, InRange data a) :
    ∃ t : TreeNode,
      (∀ fuel, attributeIndices.length < fuel →
        buildTree fuel data attributeIndices classIndex = some t) ∧
      height t ≤ attributeIndices.length ∧
      (attributeIndices ≠ [] →
        ∃ b, selectBestAttribute data attributeIndices classIndex = some b ∧
          (attributeIndices.filter fun a => a ≠ b).length < attributeIndices.length) := by
  obtain ⟨t, ht, hheight⟩ := buildTree_induction classIndex
    (fun _ cands t => height t ≤ cands.length)
    (fun _ _ L _ _ => by beta_reduce; rw [height_leaf]; exact Nat.zero_le _)
    (fun _ _ _ => by beta_reduce; rw [height_leaf]; exact Nat.zero_le _)
    (fun d cands b child _ _ _ _ _ hb _ hP => by
      beta_reduce at hP ⊢
      rw [height_node (to_string_ne_empty b)]
      have h1 := heightChildren_map_le child _ (sortedValues d b) hP
      have h2 := filter_ne_length_lt hb
      omega)
    (attributeIndices.length + 1) data attributeIndices hne hc hr (Nat.lt_succ_self _)
  refine ⟨t, fun fuel hf => buildTree_of_exists classIndex hne hc hr ⟨_, ht⟩ fuel hf, hheight,
    fun hcands => ?_⟩
  obtain ⟨b, pre, post, hsel, hl, _, _⟩ := selectBestAttribute_spec hne hcands hr hc
  exact ⟨b, hsel, filter_ne_length_lt (by rw [hl]; simp)⟩

theorem buildTree_terminates_witness :
    ∃ t : TreeNode,
      (∀ fuel, ([0] : List Int).length < fuel →
        buildTree fuel [["sunny", "no"], ["rainy", "yes"]] [0] 1 = some t) ∧
      height t ≤ ([0] : List Int).length ∧
      (([0] : List Int) ≠ [] →
        ∃ b, selectBestAttribute [["sunny", "no"], ["rainy", "yes"]] [0] 1 = some b ∧
          (([0] : List Int).filter fun a => a ≠ b).length < ([0] : List Int).length) :=
  buildTree_terminates [["sunny", "no"], ["rainy", "yes"]] [0] 1 (by decide) (by decide)
    (by decide)

/-- C9: leaf coverage. For a non-empty training row list and candidate and
class indices that are positions of every row, consider the tree built and
any of its leaves, reached from the root along the keys `path`: the training
rows routed along `path` are not empty, the leaf's decision is either the
class label shared by all of them or a label of highest count among them, and
in both cases it is the class label of at least one of them. -/
theorem buildTree_leaf_coverage (fuel : Nat) (data : Data) (attributeIndices : List Int)
    (classIndex : Int) (hne : data ≠ []) (hc : InRange data classIndex)
    (hr : ∀ a ∈ attributeIndices, InRange data a) (hfuel : attributeIndices.length < fuel) :
    ∃ t : TreeNode, buildTree fuel data attributeIndices classIndex = some t ∧
      ∀ (path : List String) (leaf : TreeNode), nodeAt t path = some leaf → leaf.attr = "" →
        routed t path data ≠ [] ∧
        ((∀ row ∈ routed t path data, rowAt row classIndex = some leaf.decision) ∨
          (∀ k, valueCount (routed t path data) classIndex k
            ≤ valueCount (routed t path data) classIndex leaf.decision)) ∧
        ∃ row ∈ routed t path data, rowAt row classIndex = some leaf.decision := by
  refine buildTree_induction classIndex
    (fun d _ t => InRange d classIndex →
      ∀ (path : List String) (leaf : TreeNode), nodeAt t path = some leaf → leaf.attr = "" →
        routed t path d ≠ [] ∧
        ((∀ row ∈ routed t path d, rowAt row classIndex = some leaf.decision) ∨
          (∀ k, valueCount (routed t path d) classIndex k
            ≤ valueCount (routed t path d) classIndex leaf.decision)) ∧
        ∃ row ∈ routed t path d, rowAt row classIndex = some leaf.decision)
    ?_ ?_ ?_ fuel data attributeIndices hne hc hr hfuel |>.imp fun t ht => ⟨ht.1, ht.2 hc⟩
  · intro d _ L hd hL _ path leaf hnode _
    obtain ⟨rfl, rfl⟩ := nodeAt_leaf hnode
    obtain ⟨row, hrow⟩ := List.exists_mem_of_ne_nil d hd
    exact ⟨hd, Or.inl hL, row, hrow, hL row hrow⟩
  · intro d hd hmixed _ path leaf hnode _
    obtain ⟨rfl, rfl⟩ := nodeAt_leaf hnode
    obtain ⟨r₁, h₁, _⟩ := id hmixed
    have hne' : d ≠ [] := List.ne_nil_of_mem h₁
    obtain ⟨hmem, hmax, _⟩ := majorityClass_spec classIndex hne'
    exact ⟨hne', Or.inr hmax, (mem_valueSet_iff_rowAt hd _).1 hmem⟩
  · intro d cands b child _ _ hrd _ _ hb _ hP hd path leaf hnode hleaf
    have hbr : InRange d b := hrd b hb
    cases path with
    | nil =>
      simp only [nodeAt, Option.some.injEq] at hnode
      rw [← hnode] at hleaf
      exact absurd hleaf (to_string_ne_empty b)
    | cons v p =>
      simp only [nodeAt, to_string_ne_empty b, if_false, mapFind_map_keys] at hnode
      by_cases hv : v ∈ sortedValues d b
      · simp only [hv, if_true, Option.some_bind] at hnode
        have hrouted : routed (TreeNode.mk (to_string b) ""
            ((sortedValues d b).map fun v => (v, child v))) (v :: p) d
            = routed (child v) p (rowsWith d b v) := by
          simp only [routed, stoi_to_string, mapFind_map_keys, hv, if_true,
            rowsWith_eq_filter_rowAt hbr]
        rw [hrouted]
        exact hP v hv (hd.filter _) p leaf hnode hleaf
      · simp [hv] at hnode

theorem buildTree_leaf_coverage_witness :
    ∃ t : TreeNode, buildTree 2 [["sunny", "no"], ["rainy", "yes"]] [0] 1 = some t ∧
      ∀ (path : List String) (leaf : TreeNode), nodeAt t path = some leaf → leaf.attr = "" →
        routed t path [["sunny", "no"], ["rainy", "yes"]] ≠ [] ∧
        ((∀ row ∈ routed t path [["sunny", "no"], ["rainy", "yes"]],
            rowAt row 1 = some leaf.decision) ∨
          (∀ k, valueCount (routed t path [["sunny", "no"], ["rainy", "yes"]]) 1 k
            ≤ valueCount (routed t path [["sunny", "no"], ["rainy", "yes"]]) 1 leaf.decision)) ∧
        ∃ row ∈ routed t path [["sunny", "no"], ["rainy", "yes"]],
          rowAt row 1 = some leaf.decision :=
  buildTree_leaf_coverage 2 [["sunny", "no"], ["rainy", "yes"]] [0] 1 (by decide) (by decide)
    (by decide) (by decide)

/-- C10: `evaluateTree` returns the fraction of correctly classified rows.
For a tree whose split attributes are positions of every row, a non-empty row
list and a class index that is a position of every row, each row has exactly
one terminal node, and the result is the number of rows whose terminal node
carries the row's class label, divided by the number of rows; it lies between
`0` and `1`. -/
theorem evaluateTree_accuracy (node : TreeNode) (data : Data) (classIndex : Int)
    (hne : data ≠ []) (hc : InRange data classIndex) (ht : treeInRange node data = true) :
    ∃ (terminal : Row → TreeNode) (q : ℚ),
      (∀ row ∈ data, ∀ t, Terminal node row t ↔ t = terminal row) ∧
      evaluateTree node data classIndex = some q ∧
      q = ((data.countP fun row =>
            decide (some (terminal row).decision = rowAt row classIndex) : Nat) : ℚ) /
          (data.length : ℚ) ∧
      0 ≤ q ∧ q ≤ 1 := by
  have hex : ∀ row, ∃ t, row ∈ data → Terminal node row t := by
    intro row
    by_cases hrow : row ∈ data
    · obtain ⟨t, h⟩ := terminal_exists node data row ht hrow
      exact ⟨t, fun _ => h⟩
    · exact ⟨node, fun h => absurd h hrow⟩
  choose terminal hterm using hex
  have hdesc : ∀ row ∈ data, descend node row = some (terminal row) := fun row hrow =>
    descend_of_terminal (hterm row hrow)
  refine ⟨terminal, _, ?_, evaluateTree_eq node terminal hne hdesc hc, rfl,
    (accuracy_bounds data _).1, (accuracy_bounds data _).2⟩
  intro row hrow t
  constructor
  · intro h
    have h1 := descend_of_terminal h
    rw [hdesc row hrow] at h1
    exact (Option.some.inj h1).symm
  · rintro rfl
    exact hterm row hrow

theorem evaluateTree_accuracy_witness :
    ∃ (terminal : Row → TreeNode) (q : ℚ),
      (∀ row ∈ [["sunny", "no"], ["rainy", "yes"], ["cloudy", "yes"]],
        ∀ t, Terminal (TreeNode.mk "0" ""
          [("rainy", TreeNode.mk "" "yes" []), ("sunny", TreeNode.mk "" "no" [])]) row t
          ↔ t = terminal row) ∧
      evaluateTree (TreeNode.mk "0" ""
          [("rainy", TreeNode.mk "" "yes" []), ("sunny", TreeNode.mk "" "no" [])])
        [["sunny", "no"], ["rainy", "yes"], ["cloudy", "yes"]] 1 = some q ∧
      q = (([["sunny", "no"], ["rainy", "yes"], ["cloudy", "yes"]].countP fun row =>
            decide (some (terminal row).decision = rowAt row 1) : Nat) : ℚ) /
          (([["sunny", "no"], ["rainy", "yes"], ["cloudy", "yes"]] : Data).length : ℚ) ∧
      0 ≤ q ∧ q ≤ 1 :=
  evaluateTree_accuracy (TreeNode.mk "0" ""
      [("rainy", TreeNode.mk "" "yes" []), ("sunny", TreeNode.mk "" "no" [])])
    [["sunny", "no"], ["rainy", "yes"], ["cloudy", "yes"]] 1 (by decide) (by decide) (by decide)

end ID3

namespace ID3

/-! ## Verified properties: unseen values, reference gain, empty input -/

/-- C11, as stated, fails: in the tree built from the rows `(a, x)` and
`(b, y)` the row `(c, "")` has the value `c`, which is not a child key of the
root; the descent stops at the root, whose decision is the empty string, and
the row, whose class value is the empty string, is counted as correct. -/
theorem evaluateTree_unseen_value_counterexample :
    buildTree 2 [["a", "x"], ["b", "y"]] [0] 1
      = some (TreeNode.mk "0" "" [("a", TreeNode.mk "" "x" []), ("b", TreeNode.mk "" "y" [])]) ∧
    rowAt ["c", ""] 0 = some "c" ∧
    mapFind "c" [("a", TreeNode.mk "" "x" []), ("b", TreeNode.mk "" "y" [])] = none ∧
    descend (TreeNode.mk "0" "" [("a", TreeNode.mk "" "x" []), ("b", TreeNode.mk "" "y" [])])
      ["c", ""]
      = some (TreeNode.mk "0" "" [("a", TreeNode.mk "" "x" []), ("b", TreeNode.mk "" "y" [])]) ∧
    rowAt ["c", ""] 1 = some "" ∧
    evaluateTree (TreeNode.mk "0" "" [("a", TreeNode.mk "" "x" []), ("b", TreeNode.mk "" "y" [])])
      [["c", ""]] 1 = some 1 := by
  refine ⟨buildTree_two_rows, by decide, by rfl, by rfl, by decide, ?_⟩
  rw [evaluateTree_single _ _ ["c", ""] 1 "" (by rfl) (by decide)]
  rfl

/-- C11 (amended): an unseen attribute value is not an error, and it is a
miss unless the row's class value is the empty string. For a tree built from
valid input and a row whose descent stops at a node with a split attribute
(the row's value there is not a child key), `evaluateTree` does not fail, the
descent ends at that node, whose decision is the empty string, and the row is
counted as correct exactly when its class value is the empty string; a row
with a non-empty class value is counted as incorrect. -/
theorem evaluateTree_unseen_value (fuel : Nat) (data : Data) (attributeIndices : List Int)
    (classIndex : Int) (hne : data ≠ []) (hc : InRange data classIndex)
    (hr : ∀ a ∈ attributeIndices, InRange data a) (hfuel : attributeIndices.length < fuel) :
    ∃ t, buildTree fuel data attributeIndices classIndex = some t ∧
      ∀ (row : Row) (n : TreeNode) (cls : String), Terminal t row n → n.attr ≠ "" →
        rowAt row classIndex = some cls →
        (∃ i v, stoi n.attr = some i ∧ rowAt row i = some v ∧ mapFind v n.children = none) ∧
        descend t row = some n ∧ n.decision = "" ∧
        countCorrect t [row] classIndex = some (if cls = "" then 1 else 0) ∧
        evaluateTree t [row] classIndex = some (if cls = "" then 1 else 0) ∧
        (cls ≠ "" → evaluateTree t [row] classIndex = some 0) := by
  obtain ⟨t, ht, hint⟩ := buildTree_internal classIndex fuel data attributeIndices hne hc hr hfuel
  refine ⟨t, ht, fun row n cls hterm hattr hcls => ?_⟩
  obtain ⟨hdec, hmiss⟩ := hint row n hterm hattr
  have hd := descend_of_terminal hterm
  have hev := evaluateTree_single t n row classIndex cls hd hcls
  have hcnt := countCorrect_single t n row classIndex cls hd hcls
  rw [hdec] at hev hcnt
  have e1 : (if "" = cls then (1 : ℚ) else 0) = if cls = "" then 1 else 0 := by
    by_cases h : cls = ""
    · simp [h]
    · simp [h, Ne.symm h]
  have e2 : (if "" = cls then (1 : Nat) else 0) = if cls = "" then 1 else 0 := by
    by_cases h : cls = ""
    · simp [h]
    · simp [h, Ne.symm h]
  rw [e1] at hev
  rw [e2] at hcnt
  refine ⟨hmiss, hd, hdec, hcnt, hev, fun hcls' => ?_⟩
  rw [hev, if_neg hcls']

theorem evaluateTree_unseen_value_witness :
    ∃ t, buildTree 2 [["a", "x"], ["b", "y"]] [0] 1 = some t ∧
      ∀ (row : Row) (n : TreeNode) (cls : String), Terminal t row n → n.attr ≠ "" →
        rowAt row 1 = some cls →
        (∃ i v, stoi n.attr = some i ∧ rowAt row i = some v ∧ mapFind v n.children = none) ∧
        descend t row = some n ∧ n.decision = "" ∧
        countCorrect t [row] 1 = some (if cls = "" then 1 else 0) ∧
        evaluateTree t [row] 1 = some (if cls = "" then 1 else 0) ∧
        (cls ≠ "" → evaluateTree t [row] 1 = some 0) :=
  evaluateTree_unseen_value 2 [["a", "x"], ["b", "y"]] [0] 1 (by decide) (by decide)
    (by decide) (by decide)

/-- C12: the information gain equals its reference definition. For a row
list (non-empty or not) and attribute and class indices that are positions of
every row, the groups built by the split loop are, for each value `v` occurring at
the attribute (in key order), the rows with value `v` in their original order;
the gain is the entropy of all rows minus the sum over these values of
`|rows_v| / |rows|` times the entropy of `rows_v`; the groups are pairwise
disjoint and their sizes sum to the number of rows. -/
theorem calculateInformationGain_reference (data : Data) (attributeIndex classIndex : Int)
    (ha : InRange data attributeIndex) (hc : InRange data classIndex) :
    ∃ (g h : ℝ) (hv : String → ℝ),
      calculateInformationGain data attributeIndex classIndex = some g ∧
      calculateEntropy data classIndex = some h ∧
      splitRows data attributeIndex = some ((sortedValues data attributeIndex).map fun v =>
        (v, data.filter fun row => rowAt row attributeIndex = some v)) ∧
      (∀ v, v ∈ sortedValues data attributeIndex ↔
        ∃ row ∈ data, rowAt row attributeIndex = some v) ∧
      (∀ v ∈ valueSet data attributeIndex,
        calculateEntropy (data.filter fun row => rowAt row attributeIndex = some v) classIndex
          = some (hv v)) ∧
      g = h - ∑ v ∈ valueSet data attributeIndex,
        ((data.filter fun row => rowAt row attributeIndex = some v).length : ℝ) /
          (data.length : ℝ) * hv v ∧
      ∑ v ∈ valueSet data attributeIndex,
        (data.filter fun row => rowAt row attributeIndex = some v).length = data.length ∧
      ∀ v w, v ≠ w → ∀ row,
        row ∈ (data.filter fun row => rowAt row attributeIndex = some v) →
        row ∉ (data.filter fun row => rowAt row attributeIndex = some w) := by
  refine ⟨gainSum data attributeIndex classIndex, entropySum data classIndex,
    fun v => entropySum (rowsWith data attributeIndex v) classIndex,
    calculateInformationGain_eq ha hc, calculateEntropy_eq hc, ?_, ?_, ?_, ?_, ?_, ?_⟩
  · simp only [rowsWith_eq_filter_rowAt ha]
    exact splitRows_eq ha
  · intro v
    rw [mem_sortedValues_iff_valueSet, mem_valueSet_iff_rowAt ha]
  · intro v _
    rw [rowsWith_eq_filter_rowAt ha]
    exact calculateEntropy_eq (hc.filter _)
  · simp only [rowsWith_eq_filter_rowAt ha]
    rfl
  · simp only [rowsWith_eq_filter_rowAt ha, ← valueCount_eq_length]
    exact sum_valueCount data attributeIndex
  · intro v w hvw row h1 h2
    have e1 := (List.mem_filter.1 h1).2
    have e2 := (List.mem_filter.1 h2).2
    simp only [decide_eq_true_eq] at e1 e2
    rw [e1] at e2
    exact hvw (Option.some.inj e2)

theorem calculateInformationGain_reference_witness :
    ∃ (g h : ℝ) (hv : String → ℝ),
      calculateInformationGain [["sunny", "no"], ["rainy", "yes"], ["sunny", "yes"]] 0 1
        = some g ∧
      calculateEntropy [["sunny", "no"], ["rainy", "yes"], ["sunny", "yes"]] 1 = some h ∧
      splitRows [["sunny", "no"], ["rainy", "yes"], ["sunny", "yes"]] 0
        = some ((sortedValues [["sunny", "no"], ["rainy", "yes"], ["sunny", "yes"]] 0).map
          fun v => (v, [["sunny", "no"], ["rainy", "yes"], ["sunny", "yes"]].filter fun row =>
            rowAt row 0 = some v)) ∧
      (∀ v, v ∈ sortedValues [["sunny", "no"], ["rainy", "yes"], ["sunny", "yes"]] 0 ↔
        ∃ row ∈ [["sunny", "no"], ["rainy", "yes"], ["sunny", "yes"]], rowAt row 0 = some v) ∧
      (∀ v ∈ valueSet [["sunny", "no"], ["rainy", "yes"], ["sunny", "yes"]] 0,
        calculateEntropy ([["sunny", "no"], ["rainy", "yes"], ["sunny", "yes"]].filter fun row =>
          rowAt row 0 = some v) 1 = some (hv v)) ∧
      g = h - ∑ v ∈ valueSet [["sunny", "no"], ["rainy", "yes"], ["sunny", "yes"]] 0,
        (([["sunny", "no"], ["rainy", "yes"], ["sunny", "yes"]].filter fun row =>
          rowAt row 0 = some v).length : ℝ) /
          (([["sunny", "no"], ["rainy", "yes"], ["sunny", "yes"]] : Data).length : ℝ) * hv v ∧
      ∑ v ∈ valueSet [["sunny", "no"], ["rainy", "yes"], ["sunny", "yes"]] 0,
        ([["sunny", "no"], ["rainy", "yes"], ["sunny", "yes"]].filter fun row =>
          rowAt row 0 = some v).length
        = ([["sunny", "no"], ["rainy", "yes"], ["sunny", "yes"]] : Data).length ∧
      ∀ v w, v ≠ w → ∀ row,
        row ∈ ([["sunny", "no"], ["rainy", "yes"], ["sunny", "yes"]].filter fun row =>
          rowAt row 0 = some v) →
        row ∉ ([["sunny", "no"], ["rainy", "yes"], ["sunny", "yes"]].filter fun row =>
          rowAt row 0 = some w) :=
  calculateInformationGain_reference [["sunny", "no"], ["rainy", "yes"], ["sunny", "yes"]] 0 1
    (by decide) (by decide)

/-- C13, as stated, fails: on the empty row list `calculateEntropy` does not
fail; it returns the number `0`. -/
theorem calculateEntropy_empty_counterexample :
    calculateEntropy [] 0 ≠ none ∧ calculateEntropy [] 0 = some 0 := by
  constructor <;> simp [calculateEntropy, classCounts]

/-- C13 (amended): on the empty row list `calculateEntropy` returns `0` for
every class index: the map of class counts is empty, the summation loop does
not run, and no division is performed. -/
theorem calculateEntropy_empty (classIndex : Int) :
    classCounts [] classIndex = some [] ∧ calculateEntropy [] classIndex = some 0 := by
  constructor <;> simp [calculateEntropy, classCounts]

end ID3

namespace ID3

/-! ## Verified properties: the loader and the weather scenario -/

/-- C14 (the loader breaks the invariant): for the lines `@attribute a {x,y}`,
`@data`, `x`, `@attribute b {p,q}` the loop of `readARFF` accepts the row `x`
when one attribute is declared and then reads a second attribute; the result
has two attributes and the row `x` of length one. -/
theorem readARFF_late_attribute :
    (readARFF ["@attribute a {x,y}", "@data", "x", "@attribute b {p,q}"]).data = [["x"]] ∧
    (readARFF ["@attribute a {x,y}", "@data", "x", "@attribute b {p,q}"]).attributes.length
      = 2 ∧
    ∃ row ∈ (readARFF ["@attribute a {x,y}", "@data", "x", "@attribute b {p,q}"]).data,
      row.length
        ≠ (readARFF ["@attribute a {x,y}", "@data", "x", "@attribute b {p,q}"]).attributes.length
    := by
  decide

/-- C15: the weather scenario. For the four weather rows, the candidates
outlook (0) and humidity (1) and the class index 2, `buildTree` returns
`weatherTree` for every depth budget from 3 on; the two candidates have the
same information gain and the first, outlook, is selected; the root's split
attribute is the decimal form of 0, its child under `overcast` is the leaf
`yes`, and its child keys are `overcast`, `rainy`, `sunny`. -/
theorem weather_scenario :
    (∀ k, buildTree (3 + k) weatherRows [0, 1] 2 = some weatherTree) ∧
    selectBestAttribute weatherRows [0, 1] 2 = some 0 ∧
    (∃ g : ℝ, calculateInformationGain weatherRows 0 2 = some g ∧
      calculateInformationGain weatherRows 1 2 = some g) ∧
    weatherTree.attr = to_string 0 ∧ stoi weatherTree.attr = some 0 ∧
    mapFind "overcast" weatherTree.children = some (TreeNode.mk "" "yes" []) ∧
    weatherTree.children.map Prod.fst = ["overcast", "rainy", "sunny"] := by
  have h0 := weather_inRange 0 (by decide) (by decide)
  have h1 := weather_inRange 1 (by decide) (by decide)
  have h2 := weather_inRange 2 (by decide) (by decide)
  refine ⟨fun k => buildTree_mono 2 (Nat.le_add_right 3 k) weather_buildTree, ?_, ?_,
    by rfl, by decide, by rfl, by rfl⟩
  · exact selectBestAttribute_pair (by decide) h0 h1 h2 weather_gains_eq.ge
  · exact ⟨gainSum weatherRows 0 2, calculateInformationGain_eq h0 h2, by
      rw [weather_gains_eq]; exact calculateInformationGain_eq h1 h2⟩

end ID3

namespace ID3

/-! ## Verified properties: safety, paths, training accuracy, row order -/

/-- C16: `buildTree` is safe under its precondition. For a non-empty row list
and candidate and class indices that are positions of every row, the
execution completes (no access outside a row, for every depth budget
exceeding the number of candidates), and every call of `buildTree` made in
it, directly or through other calls, has a non-empty row list and indices
that are positions of all its rows, completes as well, and where it calls
`selectBestAttribute` its candidate list is not empty and the index returned
is one of the candidates, hence a position of every row and not `-1`. -/
theorem buildTree_safe (data : Data) (attributeIndices : List Int) (classIndex : Int)
    (hne : data ≠ []) (hc : InRange data classIndex)
    (hr : ∀ a ∈ attributeIndices, InRange data a) :
    (∀ fuel, attributeIndices.length < fuel →
      ∃ t, buildTree fuel data attributeIndices classIndex = some t) ∧
    ∀ (data' : Data) (cands' : List Int),
      CallOf classIndex data attributeIndices data' cands' →
      data' ≠ [] ∧ InRange data' classIndex ∧ (∀ a ∈ cands', InRange data' a) ∧
      (∀ fuel, cands'.length < fuel → ∃ t, buildTree fuel data' cands' classIndex = some t) ∧
      (reachesSelect data' cands' classIndex →
        cands' ≠ [] ∧ ∃ b, selectBestAttribute data' cands' classIndex = some b ∧
          b ∈ cands' ∧ b ≠ -1 ∧ InRange data' b) := by
  refine ⟨fun fuel hf => buildTree_total classIndex fuel data attributeIndices hne hc hr hf,
    fun data' cands' hcall => ?_⟩
  obtain ⟨h1, h2, h3, _⟩ := callOf_valid hne hc hr hcall
  exact ⟨h1, h2, h3, fun fuel hf => buildTree_total classIndex fuel data' cands' h1 h2 h3 hf,
    fun hsel => reachesSelect_valid h1 h2 h3 hsel⟩

theorem buildTree_safe_witness :
    (∀ fuel, ([0] : List Int).length < fuel →
      ∃ t, buildTree fuel [["sunny", "no"], ["rainy", "yes"]] [0] 1 = some t) ∧
    ∀ (data' : Data) (cands' : List Int),
      CallOf 1 [["sunny", "no"], ["rainy", "yes"]] [0] data' cands' →
      data' ≠ [] ∧ InRange data' 1 ∧ (∀ a ∈ cands', InRange data' a) ∧
      (∀ fuel, cands'.length < fuel → ∃ t, buildTree fuel data' cands' 1 = some t) ∧
      (reachesSelect data' cands' 1 →
        cands' ≠ [] ∧ ∃ b, selectBestAttribute data' cands' 1 = some b ∧
          b ∈ cands' ∧ b ≠ -1 ∧ InRange data' b) :=
  buildTree_safe [["sunny", "no"], ["rainy", "yes"]] [0] 1 (by decide) (by decide) (by decide)

/-- C17: no attribute is used twice on a path. For a non-empty row list and
candidate and class indices that are positions of every row, every split
attribute stored in a node of the built tree is the decimal form of a
candidate (so it is not the class index when that is not a candidate), and
along every path from the root the split attributes are pairwise distinct. -/
theorem buildTree_attributes_distinct (fuel : Nat) (data : Data) (attributeIndices : List Int)
    (classIndex : Int) (hne : data ≠ []) (hc : InRange data classIndex)
    (hr : ∀ a ∈ attributeIndices, InRange data a) (hfuel : attributeIndices.length < fuel) :
    ∃ t, buildTree fuel data attributeIndices classIndex = some t ∧
      ∀ (path : List String) (n : TreeNode), nodeAt t path = some n →
        (n.attr ≠ "" → ∃ b ∈ attributeIndices, n.attr = to_string b ∧ stoi n.attr = some b ∧
          (classIndex ∉ attributeIndices → b ≠ classIndex)) ∧
        (attrsAlong t path).Nodup ∧
        ∃ bs : List Int, attrsAlong t path = bs.map to_string ∧ bs.Nodup ∧
          ∀ b ∈ bs, b ∈ attributeIndices := by
  obtain ⟨t, ht, hprop⟩ := buildTree_attrs classIndex fuel data attributeIndices hne hc hr hfuel
  refine ⟨t, ht, fun path n hnode => ?_⟩
  obtain ⟨⟨bs, hbs, hnd, hsub⟩, hattr⟩ := hprop path n hnode
  refine ⟨fun hn => ?_, ?_, bs, hbs, hnd, hsub⟩
  · obtain ⟨b, hb, hbe⟩ := hattr hn
    refine ⟨b, hb, hbe, by rw [hbe]; exact stoi_to_string b, fun hnot hbc => ?_⟩
    rw [hbc] at hb
    exact hnot hb
  · rw [hbs]
    exact hnd.map to_string_injective

theorem buildTree_attributes_distinct_witness :
    ∃ t, buildTree 2 [["sunny", "no"], ["rainy", "yes"]] [0] 1 = some t ∧
      ∀ (path : List String) (n : TreeNode), nodeAt t path = some n →
        (n.attr ≠ "" → ∃ b ∈ ([0] : List Int), n.attr = to_string b ∧ stoi n.attr = some b ∧
          ((1 : Int) ∉ ([0] : List Int) → b ≠ 1)) ∧
        (attrsAlong t path).Nodup ∧
        ∃ bs : List Int, attrsAlong t path = bs.map to_string ∧ bs.Nodup ∧
          ∀ b ∈ bs, b ∈ ([0] : List Int) :=
  buildTree_attributes_distinct 2 [["sunny", "no"], ["rainy", "yes"]] [0] 1 (by decide)
    (by decide) (by decide) (by decide)

/-- C18: training rows are classified by a leaf, and a consistent training
set is classified perfectly. For a non-empty row list and candidate and class
indices that are positions of every row, the descent of every training row in
the built tree ends at a leaf (the branch of a missing child is not taken),
and if rows that agree at all candidate positions have the same class value,
`evaluateTree` on the training rows is `1`. -/
theorem buildTree_training_accuracy (fuel : Nat) (data : Data) (attributeIndices : List Int)
    (classIndex : Int) (hne : data ≠ []) (hc : InRange data classIndex)
    (hr : ∀ a ∈ attributeIndices, InRange data a) (hfuel : attributeIndices.length < fuel) :
    ∃ t, buildTree fuel data attributeIndices classIndex = some t ∧
      (∀ row ∈ data, ∃ leaf, Terminal t row leaf ∧ descend t row = some leaf ∧
        leaf.attr = "") ∧
      (Consistent data attributeIndices classIndex →
        evaluateTree t data classIndex = some 1) := by
  obtain ⟨t, ht, hprop⟩ :=
    buildTree_training classIndex fuel data attributeIndices hne hc hr hfuel
  refine ⟨t, ht, fun row hrow => ?_, fun hcons => ?_⟩
  · obtain ⟨leaf, hterm, hleaf, _⟩ := hprop row hrow
    exact ⟨leaf, hterm, descend_of_terminal hterm, hleaf⟩
  · have hex : ∀ row, ∃ leaf, row ∈ data →
        (descend t row = some leaf ∧ some leaf.decision = rowAt row classIndex) := by
      intro row
      by_cases hrow : row ∈ data
      · obtain ⟨leaf, hterm, _, hdec⟩ := hprop row hrow
        exact ⟨leaf, fun _ => ⟨descend_of_terminal hterm, hdec hcons⟩⟩
      · exact ⟨t, fun h => absurd h hrow⟩
    choose term hterm using hex
    rw [evaluateTree_eq t term hne (fun row hrow => (hterm row hrow).1) hc]
    have hcount : (data.countP fun row =>
        decide (some (term row).decision = rowAt row classIndex)) = data.length := by
      rw [List.countP_eq_length]
      intro row hrow
      simp [(hterm row hrow).2]
    have hlen : (data.length : ℚ) ≠ 0 := by
      have := List.length_pos.2 hne
      positivity
    rw [hcount, div_self hlen]

theorem buildTree_training_accuracy_witness :
    ∃ t, buildTree 3 weatherRows [0, 1] 2 = some t ∧
      (∀ row ∈ weatherRows, ∃ leaf, Terminal t row leaf ∧ descend t row = some leaf ∧
        leaf.attr = "") ∧
      evaluateTree t weatherRows 2 = some 1 :=
  (buildTree_training_accuracy 3 weatherRows [0, 1] 2 (by decide) (by decide) (by decide)
    (by decide)).imp fun _ h => ⟨h.1, h.2.1, h.2.2 (by decide)⟩

end ID3

namespace ID3

/-- C19: the training accuracy is at least the majority-class baseline. For a
non-empty row list and candidate and class indices that are positions of
every row, the number of training rows counted as correct by `evaluateTree`
on the built tree is the sum, over the leaves, of the largest label count
among the rows routed to the leaf; it is at least `m`, the largest number of
rows sharing one class label, and the accuracy returned is at least
`m / |rows|`. -/
theorem buildTree_training_baseline (fuel : Nat) (data : Data) (attributeIndices : List Int)
    (classIndex : Int) (hne : data ≠ []) (hc : InRange data classIndex)
    (hr : ∀ a ∈ attributeIndices, InRange data a) (hfuel : attributeIndices.length < fuel) :
    ∃ (t : TreeNode) (correct : Nat) (q : ℚ),
      buildTree fuel data attributeIndices classIndex = some t ∧
      countCorrect t data classIndex = some correct ∧
      correct = ((leafPaths t).map fun p => maxCount (routed t p data) classIndex).sum ∧
      (∀ k, valueCount data classIndex k ≤ maxCount data classIndex) ∧
      (∃ k, valueCount data classIndex k = maxCount data classIndex) ∧
      maxCount data classIndex ≤ correct ∧
      evaluateTree t data classIndex = some q ∧
      q = (correct : ℚ) / (data.length : ℚ) ∧
      (maxCount data classIndex : ℚ) / (data.length : ℚ) ≤ q := by
  obtain ⟨t, ht, hcount, hle⟩ :=
    buildTree_correct_count classIndex fuel data attributeIndices hne hc hr hfuel
  obtain ⟨t', ht', hleaf⟩ :=
    buildTree_training classIndex fuel data attributeIndices hne hc hr hfuel
  rw [ht] at ht'
  obtain rfl := Option.some.inj ht'
  have hex : ∀ row, ∃ leaf, row ∈ data → descend t row = some leaf := by
    intro row
    by_cases hrow : row ∈ data
    · obtain ⟨leaf, hterm, _⟩ := hleaf row hrow
      exact ⟨leaf, fun _ => descend_of_terminal hterm⟩
    · exact ⟨t, fun h => absurd h hrow⟩
  choose term hterm using hex
  have hcp : (data.countP fun row =>
      decide (some (term row).decision = rowAt row classIndex))
      = data.countP (correctOn t classIndex) := by
    refine List.countP_congr fun row hrow => ?_
    simp [correctOn, hterm row hrow]
  have hcc : countCorrect t data classIndex
      = some (data.countP (correctOn t classIndex)) := by
    rw [countCorrect, foldlM_countCorrect t classIndex term data 0 hterm hc, zero_add, hcp]
  have hev := evaluateTree_eq t term hne hterm hc
  rw [hcp] at hev
  have hbase : maxCount data classIndex ≤ data.countP (correctOn t classIndex) := by
    rw [hcount]
    exact maxCount_le_of hle
  obtain ⟨_, hmax, _⟩ := majorityClass_spec classIndex hne
  refine ⟨t, _, _, ht, hcc, hcount, fun k => valueCount_le_maxCount data classIndex k,
    ⟨_, (maxCount_eq hmax).symm⟩, hbase, hev, rfl, ?_⟩
  have hlen : (0 : ℚ) < (data.length : ℚ) := by
    have := List.length_pos.2 hne
    positivity
  exact div_le_div_of_nonneg_right (by exact_mod_cast hbase) hlen.le

theorem buildTree_training_baseline_witness :
    ∃ (t : TreeNode) (correct : Nat) (q : ℚ),
      buildTree 3 weatherRows [0, 1] 2 = some t ∧
      countCorrect t weatherRows 2 = some correct ∧
      correct = ((leafPaths t).map fun p => maxCount (routed t p weatherRows) 2).sum ∧
      (∀ k, valueCount weatherRows 2 k ≤ maxCount weatherRows 2) ∧
      (∃ k, valueCount weatherRows 2 k = maxCount weatherRows 2) ∧
      maxCount weatherRows 2 ≤ correct ∧
      evaluateTree t weatherRows 2 = some q ∧
      q = (correct : ℚ) / (weatherRows.length : ℚ) ∧
      (maxCount weatherRows 2 : ℚ) / (weatherRows.length : ℚ) ≤ q :=
  buildTree_training_baseline 3 weatherRows [0, 1] 2 (by decide) (by decide) (by decide)
    (by decide)

/-- C20: the built tree does not depend on the row order, and it may depend
on the order of the candidates. For a non-empty row list and candidate and
class indices that are positions of every row, every permutation of the rows
gives, with the same candidate list, the same tree (same split attributes,
child keys and leaf decisions); for the weather rows the candidate lists
`[0, 1]` and `[1, 0]` give trees with different roots. -/
theorem buildTree_row_order (fuel : Nat) (data : Data) (attributeIndices : List Int)
    (classIndex : Int) (hne : data ≠ []) (hc : InRange data classIndex)
    (hr : ∀ a ∈ attributeIndices, InRange data a) (hfuel : attributeIndices.length < fuel) :
    (∃ t, buildTree fuel data attributeIndices classIndex = some t ∧
      ∀ data' : Data, data'.Perm data →
        buildTree fuel data' attributeIndices classIndex = some t) ∧
    ∃ t₁ t₂, buildTree 3 weatherRows [0, 1] 2 = some t₁ ∧
      buildTree 3 weatherRows [1, 0] 2 = some t₂ ∧
      t₁.attr = to_string 0 ∧ t₂.attr = to_string 1 ∧ t₁ ≠ t₂ := by
  constructor
  · obtain ⟨t, ht, hperm⟩ :=
      buildTree_perm classIndex fuel data attributeIndices hne hc hr hfuel
    exact ⟨t, ht, fun data' hp => hperm data' hp fuel hfuel⟩
  · obtain ⟨child, hrev⟩ := weather_reversed
    refine ⟨_, _, weather_buildTree, hrev, by rfl, rfl, fun h => ?_⟩
    have hattr : to_string 0 = to_string 1 := congrArg TreeNode.attr h
    have h01 : (0 : Int) = 1 := to_string_injective hattr
    exact absurd h01 (by decide)

theorem buildTree_row_order_witness :
    (∃ t, buildTree 3 weatherRows [0, 1] 2 = some t ∧
      ∀ data' : Data, data'.Perm weatherRows → buildTree 3 data' [0, 1] 2 = some t) ∧
    ∃ t₁ t₂, buildTree 3 weatherRows [0, 1] 2 = some t₁ ∧
      buildTree 3 weatherRows [1, 0] 2 = some t₂ ∧
      t₁.attr = to_string 0 ∧ t₂.attr = to_string 1 ∧ t₁ ≠ t₂ :=
  buildTree_row_order 3 weatherRows [0, 1] 2 (by decide) (by decide) (by decide) (by decide)

end ID3
